import Mathlib

/-!
# beak: tar archives, splitting and archive names

A shallow embedding of `src/tarfile.cc` (class `TarFile`, `splitParts_`,
class `TarFileName`) together with the properties of the design document
that are about them.

Conventions of the embedding.

* `size_t` is an unsigned 64 bit integer, `uint` an unsigned 32 bit integer
  (LP64).  Values are natural numbers and every C++ operation that can wrap
  is written with an explicit reduction modulo `2^64` or `2^32`.
* A failing `assert` and undefined behaviour are the value `none`.
* A `std::string` is a `List Char`, one character per byte.
* `std::map<size_t, TarEntry*>` is a key-sorted association list.
-/

namespace Beak

/-! ## Machine integers -/

/-- Number of values of a `size_t`. -/
def SIZE_MOD : Nat := 2 ^ 64

/-- Number of values of a `uint`. -/
def UINT_MOD : Nat := 2 ^ 32

/-- Addition of two `size_t` values. -/
def addSz (a b : Nat) : Nat := (a + b) % SIZE_MOD

/-- Subtraction of two `size_t` values (wraps below zero). -/
def subSz (a b : Nat) : Nat :=
  if b % SIZE_MOD ≤ a % SIZE_MOD then a % SIZE_MOD - b % SIZE_MOD
  else a % SIZE_MOD + SIZE_MOD - b % SIZE_MOD

/-- Multiplication of two `size_t` values. -/
def mulSz (a b : Nat) : Nat := (a * b) % SIZE_MOD

/-- Subtraction of two `uint` values (wraps below zero). -/
def subU (a b : Nat) : Nat :=
  if b % UINT_MOD ≤ a % UINT_MOD then a % UINT_MOD - b % UINT_MOD
  else a % UINT_MOD + UINT_MOD - b % UINT_MOD

/-- Conversion of a `size_t` to `uint`. -/
def toU (a : Nat) : Nat := a % UINT_MOD

/-! ## The splitter -/

/-- Modelled from the spec: `enum TarHeaderStyle` is declared in `tar.h`, which
is not part of the sources at hand.  `splitParts_` only distinguishes `None`
from every other style (section 4.E: `mv = 0 if header_style=None else 512`). -/
inductive TarHeaderStyle where
  | None
  | WithHeaders
  deriving DecidableEq, Repr

/-- The four output parameters of `splitParts_`. -/
structure SplitResult where
  num_parts : Nat
  part_size : Nat
  last_part_size : Nat
  mv_header_size : Nat
  deriving DecidableEq, Repr

/-- The multi-volume header size chosen at tarfile.cc:526-531. -/
def mvHeaderSize (ths : TarHeaderStyle) : Nat :=
  if ths = TarHeaderStyle.None then 0 else 512

/-- The arithmetic of `splitParts_` once the multi-volume header size is chosen
(tarfile.cc:532-573).  The two `assert`s are the two places where the result is
`none`. -/
def splitPartsWith (file_size split_size mv_header_size : Nat) : Option SplitResult :=
  let part_size := split_size
  if ¬ (part_size > mv_header_size) then none
  else
    let num_parts := toU (subSz file_size mv_header_size / subSz part_size mv_header_size)
    let stores := addSz part_size (mulSz (subU num_parts 1) (subSz part_size mv_header_size))
    if stores = file_size then
      some { num_parts := num_parts, part_size := part_size,
             last_part_size := part_size, mv_header_size := mv_header_size }
    else
      let num_parts2 := toU (num_parts + 1)
      let last_part_size := subSz (addSz mv_header_size file_size) stores
      let stored_in_first_part := part_size
      let stored_in_middle_parts := subSz part_size mv_header_size
      let stored_in_last_part :=
        subSz (subSz file_size stored_in_first_part)
          (mulSz (subU num_parts2 2) stored_in_middle_parts)
      if last_part_size = addSz stored_in_last_part mv_header_size then
        some { num_parts := num_parts2, part_size := part_size,
               last_part_size := last_part_size, mv_header_size := mv_header_size }
      else none

/-- The function `splitParts_` of tarfile.cc:516-574: the header size is chosen
from the header style, then the parts are computed. -/
def splitParts_ (file_size split_size : Nat) (ths : TarHeaderStyle) : Option SplitResult :=
  splitPartsWith file_size split_size (mvHeaderSize ths)

/-! ## Tar entries -/

/-- Modelled from the spec: class `TarEntry` (tarentry.h, tarentry.cc) is not part
of the sources at hand.  An entry is represented by the values of the methods
that tarfile.cc calls on it: `tarpath()`, `headerSize()`, `stat()->st_size` and
`blockedSize()` (section 3: header bytes plus payload padded to the next 512 byte
boundary; it is kept as a value of its own, so nothing below depends on how it
is computed). -/
structure TarEntry where
  tarpath : List Char
  header_size : Nat
  st_size : Nat
  blocked_size : Nat
  deriving DecidableEq, Repr

/-- The method `TarEntry::blockedSize`. -/
def TarEntry.blockedSize (e : TarEntry) : Nat := e.blocked_size

/-- The method `TarEntry::headerSize`. -/
def TarEntry.headerSize (e : TarEntry) : Nat := e.header_size

/-- Modelled from the spec: `TarEntry::copy(buf, len, offset, fs)` of the absent
tarentry.cc, section 4.D: it serves `len` bytes starting at `offset` within the
entry's framed range (header, payload, zero padding), and nothing beyond the end
of that range.  The framed bytes themselves come from the header codec and the
file-system capability; they are the parameter `framed`, the byte of an entry at
an offset. -/
def TarEntry.copy (framed : TarEntry → Nat → Nat) (te : TarEntry)
    (bufsize offset : Nat) : List Nat :=
  if offset < te.blockedSize then
    (List.range (min bufsize (te.blockedSize - offset))).map (fun i => framed te (offset + i))
  else []

/-! ## `std::map` and `std::lower_bound` -/

/-- Assignment `m[k] = v` on a `std::map<size_t, T>`, kept sorted by key. -/
def mapSet {α : Type} : List (Nat × α) → Nat → α → List (Nat × α)
  | [], k, v => [(k, v)]
  | (k1, v1) :: rest, k, v =>
    if k < k1 then (k, v) :: (k1, v1) :: rest
    else if k = k1 then (k, v) :: rest
    else (k1, v1) :: mapSet rest k v

/-- Reading `m[k]` on a `std::map<size_t, T*>`: a key that is absent reads as the
null pointer, here `none`. -/
def mapGet {α : Type} : List (Nat × α) → Nat → Option α
  | [], _ => none
  | (k1, v1) :: rest, k => if k = k1 then some v1 else mapGet rest k

/-- The loop of `std::lower_bound` on positions `first .. first + len` of `v`,
with the comparison `less_equal<size_t>`: the position returned is the end of
the run of elements `x` with `x <= value`.  The first argument bounds the number
of iterations; `len` iterations are always enough since `len` shrinks. -/
def lowerBoundLoop (v : List Nat) (value : Nat) : Nat → Nat → Nat → Nat
  | 0, first, _ => first
  | fuel + 1, first, len =>
    if len = 0 then first
    else
      let half := len / 2
      let middle := first + half
      if v.getD middle 0 ≤ value then
        lowerBoundLoop v value fuel (middle + 1) (len - half - 1)
      else
        lowerBoundLoop v value fuel first half

/-- The call `lower_bound(v.begin(), v.end(), value, less_equal<size_t>())`, as an
index into `v` (`v.length` is `v.end()`). -/
def lower_bound (v : List Nat) (value : Nat) : Nat :=
  lowerBoundLoop v value v.length 0 v.length

/-! ## Tar archives -/

/-- The data members of `TarFile` that tarfile.cc reads and writes. -/
structure TarFile where
  size_ : Nat
  current_tar_offset_ : Nat
  contents_ : List (Nat × TarEntry)
  offsets : List Nat
  num_parts_ : Nat
  part_size_ : Nat
  last_part_size_ : Nat
  header_size_ : Nat
  tar_entry_ : Option TarEntry
  deriving DecidableEq, Repr

/-- The constructor `TarFile::TarFile(tc, te)` of tarfile.cc:39-47.  It sets
`size_`, `tar_entry_` and `num_parts_`; the members it does not mention start
empty or zero (section 4.E: the accumulator is the running total). -/
def TarFile.new (te : Option TarEntry) : TarFile :=
  { size_ := 0, current_tar_offset_ := 0, contents_ := [], offsets := [],
    num_parts_ := 1, part_size_ := 0, last_part_size_ := 0, header_size_ := 0,
    tar_entry_ := te }

/-- The method `TarFile::addEntryLast` of tarfile.cc:49-59. -/
def TarFile.addEntryLast (t : TarFile) (entry : TarEntry) : TarFile :=
  { t with
    contents_ := mapSet t.contents_ t.current_tar_offset_ entry
    offsets := t.offsets ++ [t.current_tar_offset_]
    current_tar_offset_ := addSz t.current_tar_offset_ entry.blockedSize }

/-- The loop of `TarFile::addEntryFirst` (tarfile.cc:73-79) over the old contents
in key order, carrying the new map and the new offsets vector. -/
def addEntryFirstLoop (bs : Nat) :
    List (Nat × TarEntry) → List (Nat × TarEntry) × List Nat → List (Nat × TarEntry) × List Nat
  | [], acc => acc
  | a :: rest, (newc, newo) =>
    let o := addSz a.1 bs
    addEntryFirstLoop bs rest (mapSet newc o a.2, newo ++ [o])

/-- The method `TarFile::addEntryFirst` of tarfile.cc:61-87. -/
def TarFile.addEntryFirst (t : TarFile) (entry : TarEntry) : TarFile :=
  let r := addEntryFirstLoop entry.blockedSize t.contents_ (mapSet [] 0 entry, [0])
  { t with
    contents_ := r.1
    offsets := r.2
    current_tar_offset_ := addSz t.current_tar_offset_ entry.blockedSize }

/-- The method `TarFile::findTarEntry` of tarfile.cc:89-114.  The outer `none` is
undefined behaviour (`*offsets.rbegin()` on an empty vector, `i--` at
`offsets.begin()`); the inner option is the entry pointer, `none` for `NULL`.
`contents_[o]` reads the map; that it would add a null mapping for a missing key
is not recorded. -/
def TarFile.findTarEntry (t : TarFile) (offset : Nat) : Option (Option TarEntry × Nat) :=
  if offset > t.size_ then some (none, 0)
  else
    let i := lower_bound t.offsets offset
    if i = t.offsets.length then
      match t.offsets.getLast? with
      | none => none
      | some o => some (mapGet t.contents_ o, o)
    else
      if i = 0 then none
      else
        match t.offsets.get? (i - 1) with
        | none => none
        | some o => some (mapGet t.contents_ o, o)

/-- The method `TarFile::fixSize` of tarfile.cc:576-594. -/
def TarFile.fixSize (t : TarFile) (split_size : Nat) (ths : TarHeaderStyle) : Option TarFile :=
  let t1 := { t with size_ := t.current_tar_offset_ }
  if t1.size_ ≤ split_size then
    some { t1 with num_parts_ := 1, part_size_ := t1.size_, header_size_ := 0 }
  else
    match splitParts_ t1.size_ split_size ths with
    | none => none
    | some r =>
      some { t1 with num_parts_ := r.num_parts, part_size_ := r.part_size,
                     last_part_size_ := r.last_part_size, header_size_ := r.mv_header_size }

/-- The method `TarFile::size(partnr)` of tarfile.cc:595-606. -/
def TarFile.size (t : TarFile) (partnr : Nat) : Option Nat :=
  if ¬ (partnr < t.num_parts_) then none
  else if t.num_parts_ = 1 then some t.size_
  else if partnr < subU t.num_parts_ 1 then some t.part_size_
  else some t.last_part_size_

/-- The method `TarFile::calculateOriginTarOffset` of tarfile.cc:608-630. -/
def TarFile.calculateOriginTarOffset (t : TarFile) (partnr offset : Nat) : Option Nat :=
  if ¬ (partnr < t.num_parts_) then none
  else if partnr = 0 then some offset
  else if ¬ (offset ≥ t.header_size_) then none
  else
    let offset1 := subSz offset t.header_size_
    some (addSz (addSz offset1 t.part_size_)
            (mulSz (subU partnr 1) (subSz t.part_size_ t.header_size_)))

/-- The size of a tar block, `T_BLOCKSIZE`. -/
def T_BLOCKSIZE : Nat := 512

/-- The two numbers that `TarFile::copy` puts into the multi-volume header of part
`partnr` (tarfile.cc:455-464): the file offset given to `setMultivolType` and the
size given to `setSize`.  The three `assert`s are the places where it is `none`. -/
def TarFile.multivolFields (t : TarFile) (partnr : Nat) : Option (TarEntry × Nat × Nat) :=
  match t.tar_entry_ with
  | none => none
  | some te =>
    match t.calculateOriginTarOffset partnr t.header_size_ with
    | none => none
    | some fo =>
      if ¬ (fo > te.headerSize) then none
      else
        let file_offset := subSz fo te.headerSize
        if ¬ (te.tarpath.length < 100) then none
        else some (te, file_offset, subSz te.st_size file_offset)

/-- The loop of `TarFile::copy` (tarfile.cc:425-497).  The result is the list of
bytes written to `buf`, in order; its length is the value `copied`.

* `ecopy te bufsize offset` is the call `te->copy(buf, bufsize, offset, fs)`, as the
  bytes it writes;
* `mvheader tarpath file_offset size` is the 512 byte block `th.buf()` of the
  multi-volume header built by the absent `TarHeader` class.

The first argument bounds the number of iterations: every iteration that does not
leave the loop writes at least one byte, so `bufsize` iterations are enough
whenever `ecopy` never writes more than it is asked for.  `none` is a failing
`assert`, a buffer overrun, or an exhausted iteration bound. -/
def copyLoop (ecopy : TarEntry → Nat → Nat → List Nat)
    (mvheader : List Char → Nat → Nat → List Nat)
    (t : TarFile) (partnr : Nat) : Nat → Nat → Nat → Option (List Nat)
  | 0, bufsize, _ => if bufsize = 0 then some [] else none
  | fuel + 1, bufsize, from_ =>
    if bufsize = 0 then some []
    else if partnr > 0 ∧ from_ < t.header_size_ then
      match t.multivolFields partnr with
      | none => none
      | some (te, file_offset, sz) =>
        if t.header_size_ < T_BLOCKSIZE then none
        else
          let th := mvheader te.tarpath file_offset sz
          let tmp : Nat → Nat := fun i => if i < T_BLOCKSIZE then th.getD i 0 else 0
          let len := if subSz t.header_size_ from_ > bufsize then bufsize
                     else subSz t.header_size_ from_
          if ¬ (addSz from_ len ≤ t.header_size_) then none
          else
            match copyLoop ecopy mvheader t partnr fuel (subSz bufsize len) (addSz from_ len) with
            | none => none
            | some rest => some ((List.range len).map (fun i => tmp (from_ + i)) ++ rest)
    else
      match t.calculateOriginTarOffset partnr from_ with
      | none => none
      | some origin_from =>
        match t.findTarEntry origin_from with
        | none => none
        | some (none, _) => none
        | some (some te, tar_offset) =>
          let out := ecopy te bufsize (subSz origin_from tar_offset)
          let len := out.length
          if len = 0 then some []
          else
            match copyLoop ecopy mvheader t partnr fuel (subSz bufsize len) (addSz from_ len) with
            | none => none
            | some rest => some (out ++ rest)

/-- The method `TarFile::copy` of tarfile.cc:417-500: the bytes written to `buf`
for a read of `bufsize` bytes at `offset` of part `partnr`. -/
def TarFile.copy (ecopy : TarEntry → Nat → Nat → List Nat)
    (mvheader : List Char → Nat → Nat → List Nat)
    (t : TarFile) (bufsize : Nat) (offset : Int) (partnr : Nat) : Option (List Nat) :=
  if offset < 0 then some []
  else
    let from_ := offset.toNat
    match t.size partnr with
    | none => none
    | some sz =>
      if from_ ≥ sz then some []
      else copyLoop ecopy mvheader t partnr bufsize bufsize from_

/-- The logical, unsplit tar stream of a sequence of entries: the byte at position
`p` of the concatenation of their framed ranges, `none` past the end. -/
def streamByte (framed : TarEntry → Nat → Nat) : List TarEntry → Nat → Option Nat
  | [], _ => none
  | e :: rest, p =>
    if p < e.blockedSize then some (framed e p)
    else streamByte framed rest (p - e.blockedSize)

/-- The offsets at which the entries of a sequence start, counted from `start`. -/
def entryOffsets : Nat → List TarEntry → List Nat
  | _, [] => []
  | start, e :: rest => start :: entryOffsets (start + e.blockedSize) rest

/-- The sum of the blocked sizes of a sequence of entries. -/
def totalBlocked : List TarEntry → Nat
  | [] => 0
  | e :: rest => e.blockedSize + totalBlocked rest

/-- One building step of an archive: a call of `addEntryLast` or of
`addEntryFirst`. -/
inductive BuildOp where
  | last (e : TarEntry)
  | first (e : TarEntry)
  deriving DecidableEq, Repr

/-- The entry a building step adds. -/
def BuildOp.entry : BuildOp → TarEntry
  | BuildOp.last e => e
  | BuildOp.first e => e

/-- Running a sequence of building steps on an archive, in order. -/
def runOps : TarFile → List BuildOp → TarFile
  | t, [] => t
  | t, BuildOp.last e :: ops => runOps (t.addEntryLast e) ops
  | t, BuildOp.first e :: ops => runOps (t.addEntryFirst e) ops

/-- The order in which the entries lie in the tar stream after a sequence of
building steps that starts from the entries `es`. -/
def opsEntries : List TarEntry → List BuildOp → List TarEntry
  | es, [] => es
  | es, BuildOp.last e :: ops => opsEntries (es ++ [e]) ops
  | es, BuildOp.first e :: ops => opsEntries (e :: es) ops

/-- The entries of an archive in offset order. -/
def TarFile.entries (t : TarFile) : List TarEntry := t.contents_.map Prod.snd

/-- The offset invariant of section 3 for an archive that is being built: the
offsets vector lists the keys of `contents_`, every offset is the sum of the blocked
sizes of the entries before it, every entry has a positive blocked size, and the
accumulator is the sum of all blocked sizes. -/
def TarFile.OffsetInvariant (t : TarFile) : Prop :=
  t.contents_.map Prod.fst = t.offsets ∧
  t.offsets = entryOffsets 0 t.entries ∧
  (∀ e ∈ t.entries, 0 < e.blockedSize) ∧
  t.current_tar_offset_ = totalBlocked t.entries

/-- The splitting law of section 3, read over the integers. -/
def SplitLaw (r : SplitResult) (file_size : Nat) : Prop :=
  (r.part_size : Int) + ((r.num_parts : Int) - 1) * ((r.part_size : Int) - r.mv_header_size)
    - ((r.part_size : Int) - r.last_part_size) = file_size

/-- The lengths of the parts `0 .. num_parts - 1` of a split: `part_size` for every
part but the last, `last_part_size` for the last (tarfile.cc:601-605). -/
def SplitResult.partLengths (r : SplitResult) : List Nat :=
  (List.range r.num_parts).map
    (fun i => if i + 1 < r.num_parts then r.part_size else r.last_part_size)

/-- The number of parts that hold `file_size` bytes when the first part holds
`split_size` bytes and every later part `split_size - mv` bytes after its header:
the quotient `(file_size - mv) / (split_size - mv)` rounded up. -/
def ceilParts (file_size split_size mv : Nat) : Nat :=
  (file_size - mv + (split_size - mv) - 1) / (split_size - mv)

/-- An archive whose map, offsets vector and accumulator are the ones of the entry
sequence `es` laid out one after the other from offset 0. -/
def TarFile.Built (t : TarFile) (es : List TarEntry) : Prop :=
  t.contents_ = (entryOffsets 0 es).zip es ∧
  t.offsets = entryOffsets 0 es ∧
  t.current_tar_offset_ = totalBlocked es

/-! ## Example data -/

/-- A regular file entry with a one block header: `n` payload blocks. -/
def fileEntry (name : List Char) (n : Nat) : TarEntry :=
  { tarpath := name, header_size := 512, st_size := 512 * n, blocked_size := 512 + 512 * n }

/-- A directory entry: a header and no payload. -/
def dirEntry (name : List Char) : TarEntry :=
  { tarpath := name, header_size := 512, st_size := 0, blocked_size := 512 }

/-- Three building steps: two files are appended, then their directory is put in
front. -/
def exampleOps : List BuildOp :=
  [BuildOp.last (fileEntry ['d', '/', 'a'] 1), BuildOp.last (fileEntry ['d', '/', 'b'] 3),
   BuildOp.first (dirEntry ['d'])]

/-- The largest entry whose payload is a whole number of blocks: a sparse file of
`2^63 - 512` bytes, the header included it takes `2^63` bytes. -/
def hugeEntry : TarEntry :=
  { tarpath := ['h'], header_size := 512, st_size := 2 ^ 63 - 512, blocked_size := 2 ^ 63 }

/-- The example archive after its three building steps. -/
def exampleBuilt : TarFile := runOps (TarFile.new none) exampleOps

/-- The example archive finalised with a split size of 5 blocks and multi-volume
headers: two parts, the first of 2560 bytes, the second of 1536 bytes. -/
def exampleArchive : TarFile :=
  (exampleBuilt.fixSize 2560 TarHeaderStyle.WithHeaders).getD exampleBuilt

/-- The framed bytes of the example: byte `i` of an entry is its path length plus
`i`, reduced to a byte. -/
def exampleFramed (e : TarEntry) (i : Nat) : Nat := (e.tarpath.length + i) % 256

/-- The multi-volume header block of the example: 512 bytes that repeat the low byte
of the file offset. -/
def exampleMvHeader (_tarpath : List Char) (file_offset _size : Nat) : List Nat :=
  List.replicate 512 (file_offset % 256)

/-! ## Archive names -/

/-- The NUL character that ends a C string. -/
def NUL : Char := Char.ofNat 0

/-- The C string held in a buffer: everything before the first NUL, which is what
`%s` prints and what `std::string(buf)` keeps. -/
def cstr : List Char → List Char
  | [] => []
  | c :: rest => if c = NUL then [] else c :: cstr rest

/-- What `snprintf(buf, n, ...)` leaves in a buffer of `n` bytes when the formatted
text is `s`: at most `n - 1` characters. -/
def snprintf (n : Nat) (s : List Char) : List Char := s.take (n - 1)

/-- The digit character of a value below 16, lower case as printed by `%x`. -/
def digitChar (d : Nat) : Char := Char.ofNat (if d < 10 then 48 + d else 87 + d)

/-- The digits of `n` in base `base`, most significant first.  The first argument
bounds the number of digits. -/
def fmtBase (base : Nat) : Nat → Nat → List Char
  | 0, _ => []
  | fuel + 1, n =>
    if n < base then [digitChar n]
    else fmtBase base fuel (n / base) ++ [digitChar (n % base)]

/-- The conversion `%lu` / `%zu` of a 64 bit unsigned value. -/
def fmtDec (n : Nat) : List Char := fmtBase 10 64 (n % SIZE_MOD)

/-- The conversion `%x` of a 32 bit unsigned value. -/
def fmtHex (n : Nat) : List Char := fmtBase 16 64 (n % UINT_MOD)

/-- Zero padding to a minimum field width, as in `%09lu`. -/
def padZero (width : Nat) (s : List Char) : List Char :=
  List.replicate (width - s.length) '0' ++ s

/-- The value of a `long` or `time_t` printed with an unsigned conversion. -/
def asUnsigned (x : Int) : Nat := (x % (SIZE_MOD : Int)).toNat

/-- `std::string::find(c, pos)` on the characters from `pos` on, `i` being the index
of the first of them; `none` is `npos`. -/
def findLoop (c : Char) : List Char → Nat → Option Nat
  | [], _ => none
  | x :: rest, i => if x = c then some i else findLoop c rest (i + 1)

/-- `std::string::find(c, pos)`: the first index at or after `pos` that holds `c`. -/
def find (s : List Char) (c : Char) (pos : Nat) : Option Nat :=
  findLoop c (s.drop pos) pos

/-- `std::string::rfind(c)` scanning from the front and keeping the last match. -/
def rfindLoop (c : Char) : List Char → Nat → Option Nat → Option Nat
  | [], _, found => found
  | x :: rest, i, found => rfindLoop c rest (i + 1) (if x = c then some i else found)

/-- `std::string::rfind(c)`: the last index that holds `c`. -/
def rfind (s : List Char) (c : Char) : Option Nat := rfindLoop c s 0 none

/-- `std::string::substr(pos)`. -/
def substr (s : List Char) (pos : Nat) : List Char := s.drop pos

/-- The C predicate `isdigit`. -/
def isDigit (c : Char) : Bool := decide (48 ≤ c.toNat ∧ c.toNat ≤ 57)

/-- The C predicate `isxdigit`. -/
def isHexDigit (c : Char) : Bool :=
  isDigit c || decide (97 ≤ c.toNat ∧ c.toNat ≤ 102) || decide (65 ≤ c.toNat ∧ c.toNat ≤ 70)

/-- The value of a hexadecimal digit. -/
def hexVal (c : Char) : Nat :=
  if 48 ≤ c.toNat ∧ c.toNat ≤ 57 then c.toNat - 48
  else if 97 ≤ c.toNat ∧ c.toNat ≤ 102 then c.toNat - 87
  else c.toNat - 55

/-- Modelled from the spec: `digitsOnly(p, len, &out)` of the absent util.cc, called
with `p = &name[start]`.  Section 4.F: a field must contain only its declared
character class; the field is handed back in `out`.  A field that would run past the
end of the name meets the terminating NUL, which is no digit. -/
def digitsOnly (name : List Char) (start len : Nat) : Option (List Char) :=
  if start + len ≤ name.length ∧ ((name.drop start).take len).all isDigit then
    some ((name.drop start).take len)
  else none

/-- Modelled from the spec: `hexDigitsOnly(p, len, &out)` of the absent util.cc, the
same for hexadecimal digits. -/
def hexDigitsOnly (name : List Char) (start len : Nat) : Option (List Char) :=
  if start + len ≤ name.length ∧ ((name.drop start).take len).all isHexDigit then
    some ((name.drop start).take len)
  else none

/-- The number written by a string of digits in base `base`. -/
def digitsValue (base : Nat) (s : List Char) : Nat :=
  s.foldl (fun acc c => acc * base + hexVal c) 0

/-- The C function `strtol(s, NULL, base)` on a string of digits: the value, or
`LONG_MAX` when the value does not fit a `long`. -/
def strtol (s : List Char) (base : Nat) : Int :=
  if digitsValue base s ≤ 2 ^ 63 - 1 then (digitsValue base s : Int) else 2 ^ 63 - 1

/-- The C function `atol` on a string of digits. -/
def atol (s : List Char) : Int := strtol s 10

/-- The C function `atoi` on a string of digits: `strtol` converted to a 32 bit
`int`. -/
def atoi (s : List Char) : Int :=
  ((strtol s 10 + 2 ^ 31) % 2 ^ 32) - 2 ^ 31

/-- The helpers of tarfile.h and util.cc that are not part of the sources at hand and
about which the spec says too little to define them: the three type tables
`typeFromChar`, `chartype`, `suffixtype` of the enumeration `TarContents` (here the
type `TC`), and the function `toHex(value, max_value)` that writes a part number. -/
structure NameHelpers (TC : Type) where
  typeFromChar : Char → Option TC
  chartype : TC → Char
  suffixtype : TC → List Char
  toHex : Nat → Nat → List Char

/-- The data members of `TarFileName`. -/
structure TarFileName (TC : Type) where
  type : TC
  version : Int
  sec : Int
  nsec : Int
  size : Nat
  header_hash : List Char
  part_nr : Nat
  num_parts : Nat
  deriving DecidableEq, Repr

/-- The outcome of parsing a name: `ok` is `true` with the members that were set,
`no` is `false`, `fatal` is the error followed by `assert(0)`. -/
inductive Parsed (α : Type) where
  | ok (a : α)
  | no
  | fatal
  deriving DecidableEq, Repr

/-- The method `TarFileName::parseFileNameVersion1_` of tarfile.cc:237-275, entered
with the members `type` and `version` already set. -/
def parseFileNameVersion1_ {TC : Type} (h : NameHelpers TC) (type : TC) (version : Int)
    (name : List Char) (_p0 p1 : Nat) : Parsed (TarFileName TC) :=
  match find name '.' (p1 + 1) with
  | none => Parsed.no
  | some p2 =>
  match find name '_' (p2 + 1) with
  | none => Parsed.no
  | some p3 =>
  match find name '_' (p3 + 1) with
  | none => Parsed.no
  | some p4 =>
  match find name '_' (p4 + 1) with
  | none => Parsed.no
  | some p5 =>
  match find name '.' (p5 + 1) with
  | none => Parsed.no
  | some p6 =>
  match digitsOnly name (p1 + 1) (subSz (subSz p2 p1) 1) with
  | none => Parsed.no
  | some secss =>
  match digitsOnly name (p2 + 1) (subSz (subSz p3 p2) 1) with
  | none => Parsed.no
  | some nsecss =>
  match digitsOnly name (p3 + 1) (subSz (subSz p4 p3) 1) with
  | none => Parsed.no
  | some sizes =>
  match hexDigitsOnly name (p4 + 1) (subSz (subSz p5 p4) 1) with
  | none => Parsed.no
  | some header_hash =>
  match hexDigitsOnly name (p5 + 1) (subSz (subSz p6 p5) 1) with
  | none => Parsed.no
  | some partnrs =>
    if h.suffixtype type ≠ substr name (p6 + 1) then Parsed.no
    else Parsed.ok
      { type := type, version := version, sec := atol secss, nsec := atol nsecss,
        size := (atol sizes).toNat, header_hash := header_hash,
        part_nr := toU (strtol partnrs 16).toNat, num_parts := 0 }

/-- The method `TarFileName::parseFileNameVersion2_` of tarfile.cc:277-322, entered
with the members `type` and `version` already set.  The digits of `num_parts` are
read at `&name[p4+1]` with the length `p6-p5-1`, as line 307 does. -/
def parseFileNameVersion2_ {TC : Type} (h : NameHelpers TC) (type : TC) (version : Int)
    (name : List Char) (_p0 p1 : Nat) : Parsed (TarFileName TC) :=
  match find name '.' (p1 + 1) with
  | none => Parsed.no
  | some p2 =>
  match find name '_' (p2 + 1) with
  | none => Parsed.no
  | some p3 =>
  match find name '_' (p3 + 1) with
  | none => Parsed.no
  | some p4 =>
  match find name '-' (p4 + 1) with
  | none => Parsed.no
  | some p5 =>
  match find name '_' (p5 + 1) with
  | none => Parsed.no
  | some p6 =>
  match find name '.' (p6 + 1) with
  | none => Parsed.no
  | some p7 =>
  match digitsOnly name (p1 + 1) (subSz (subSz p2 p1) 1) with
  | none => Parsed.no
  | some secss =>
  match digitsOnly name (p2 + 1) (subSz (subSz p3 p2) 1) with
  | none => Parsed.no
  | some nsecss =>
  match hexDigitsOnly name (p3 + 1) (subSz (subSz p4 p3) 1) with
  | none => Parsed.no
  | some header_hash =>
  match hexDigitsOnly name (p4 + 1) (subSz (subSz p5 p4) 1) with
  | none => Parsed.no
  | some partnrs =>
  match hexDigitsOnly name (p4 + 1) (subSz (subSz p6 p5) 1) with
  | none => Parsed.no
  | some numparts =>
  match digitsOnly name (p6 + 1) (subSz (subSz p7 p6) 1) with
  | none => Parsed.no
  | some sizes =>
    if h.suffixtype type ≠ substr name (p7 + 1) then Parsed.no
    else Parsed.ok
      { type := type, version := version, sec := atol secss, nsec := atol nsecss,
        size := (atol sizes).toNat, header_hash := header_hash,
        part_nr := toU (strtol partnrs 16).toNat,
        num_parts := toU (strtol numparts 16).toNat }

/-- The method `TarFileName::parseFileName` of tarfile.cc:201-235 on a freshly
constructed `TarFileName` (as at storage_rclone.cc:58), whose `header_hash` is empty
and whose numbers are zero.  The members that a failing parse has already set are not
kept. -/
def parseFileName {TC : Type} (h : NameHelpers TC) (name : List Char) :
    Parsed (TarFileName TC) :=
  if name.length = 0 then Parsed.no
  else
    let p0 := match rfind name '/' with
      | none => 0
      | some p => p + 1
    match h.typeFromChar (name.getD p0 NUL) with
    | none => Parsed.no
    | some type =>
      match find name '_' p0 with
      | none => Parsed.no
      | some p1 =>
        match digitsOnly name (p0 + 1) (subSz (subSz p1 p0) 1) with
        | none => Parsed.no
        | some versions =>
          let version := atoi versions
          if version = 1 then parseFileNameVersion1_ h type version name p0 p1
          else if version = 2 then parseFileNameVersion2_ h type version name p0 p1
          else Parsed.fatal

/-- The directory that `parseFileName` hands back through `dir`
(tarfile.cc:211-216). -/
def parseFileNameDir (name : List Char) : List Char :=
  let p0 := match rfind name '/' with
    | none => 0
    | some p => p + 1
  name.take p0

/-- The text `secs_and_nanos` of the two writers, for the given width of the seconds
(`"%012lu.%09lu"` and `"%lu.%09lu"` in a buffer of 32 bytes).  `PRINTF_TIME_T`, a
macro of a header that is not at hand, is taken as the length modifier of a 64 bit
value. -/
def secsAndNanos (sec_width : Nat) (sec nsec : Int) : List Char :=
  cstr (snprintf 32
    (padZero sec_width (fmtDec (asUnsigned sec)) ++ ['.'] ++ padZero 9 (fmtDec (asUnsigned nsec))))

/-- The method `TarFileName::writeTarFileNameIntoBufferVersion1_` of
tarfile.cc:335-366: the characters put into `buf`. -/
def writeTarFileNameIntoBufferVersion1_ {TC : Type} (h : NameHelpers TC)
    (n : TarFileName TC) (buf_len : Nat) (dir : Option (List Char)) : List Char :=
  let sizes := cstr (snprintf 32 (fmtDec n.size))
  let secs_and_nanos := secsAndNanos 12 n.sec n.nsec
  let suffix := h.suffixtype n.type
  let body := [h.chartype n.type] ++ ['0', '1', '_'] ++ secs_and_nanos ++ ['_'] ++ sizes
    ++ ['_'] ++ cstr n.header_hash ++ ['_'] ++ ['0'] ++ ['.'] ++ cstr suffix
  match dir with
  | none => snprintf buf_len body
  | some d => snprintf buf_len (cstr d ++ ['/'] ++ body)

/-- The method `TarFileName::writeTarFileNameIntoBufferVersion2_` of
tarfile.cc:368-402: the characters put into `buf`. -/
def writeTarFileNameIntoBufferVersion2_ {TC : Type} (h : NameHelpers TC)
    (n : TarFileName TC) (buf_len : Nat) (dir : Option (List Char)) : List Char :=
  let sizes := cstr (snprintf 32 (fmtDec n.size))
  let secs_and_nanos := secsAndNanos 0 n.sec n.nsec
  let partnr := h.toHex n.part_nr n.num_parts
  let suffix := h.suffixtype n.type
  let body := [h.chartype n.type] ++ ['0', '2', '_'] ++ secs_and_nanos ++ ['_']
    ++ cstr n.header_hash ++ ['_'] ++ cstr partnr ++ ['-'] ++ fmtHex n.num_parts ++ ['_']
    ++ sizes ++ ['.'] ++ cstr suffix
  match dir with
  | none => snprintf buf_len body
  | some d => snprintf buf_len (cstr d ++ ['/'] ++ body)

/-- The method `TarFileName::writeTarFileNameIntoBuffer` of tarfile.cc:324-333; `none`
is the failing `assert(0)`. -/
def writeTarFileNameIntoBuffer {TC : Type} (h : NameHelpers TC)
    (n : TarFileName TC) (buf_len : Nat) (dir : Option (List Char)) : Option (List Char) :=
  if n.version = 1 then some (writeTarFileNameIntoBufferVersion1_ h n buf_len dir)
  else if n.version = 2 then some (writeTarFileNameIntoBufferVersion2_ h n buf_len dir)
  else none

/-- The method `TarFileName::asStringWithDir` of tarfile.cc:404-408: the C string in
a buffer of 1024 bytes. -/
def asStringWithDir {TC : Type} (h : NameHelpers TC) (n : TarFileName TC)
    (dir : Option (List Char)) : Option (List Char) :=
  (writeTarFileNameIntoBuffer h n 1024 dir).map cstr

/-- Modelled from the spec: the type tables and `toHex` for the archive kinds that the
spec and the source comments show, a kind being named by its letter as in scenario
S1 (`type='s'`).  Section 4.F: `z` is the index archive with suffix `gz`, the data
archives (`s` in S1, `l` in the comments of tarfile.cc) have the suffix `tar`; S1
writes part 7 of 15 as `07`, two hexadecimal digits. -/
def specHelpers : NameHelpers Char where
  typeFromChar := fun c => if c = 'z' ∨ c = 's' ∨ c = 'l' then some c else none
  chartype := fun t => t
  suffixtype := fun t => if t = 'z' then ['g', 'z'] else ['t', 'a', 'r']
  toHex := fun value _ => padZero 2 (fmtBase 16 64 (value % SIZE_MOD))

/-- The hash of scenario S1. -/
def s1Hash : List Char :=
  "3b5e4ec7fe38d0f9846947207a0ea44c4e988180fe6289213a338ab5a4926f71".toList

/-- The archive name of scenario S1. -/
def s1Name : TarFileName Char :=
  { type := 's', version := 2, sec := 1501080787, nsec := 579054757, size := 1119232,
    header_hash := s1Hash, part_nr := 7, num_parts := 15 }

/-- The string that scenario S1 expects for `s1Name`. -/
def s1String : List Char :=
  ("s02_1501080787.579054757_" ++
    "3b5e4ec7fe38d0f9846947207a0ea44c4e988180fe6289213a338ab5a4926f71" ++
    "_07-f_1119232.tar").toList

/-- A version 2 name whose number-of-parts field `zz` is not hexadecimal. -/
def badPartsString : List Char := "s02_1.2_ab_07-zz_5.tar".toList

/-- The string of scenario S1 with the part number written without padding. -/
def s1StringShort : List Char :=
  ("s02_1501080787.579054757_" ++
    "3b5e4ec7fe38d0f9846947207a0ea44c4e988180fe6289213a338ab5a4926f71" ++
    "_7-f_1119232.tar").toList

/-! ## Index files -/

/-- The C function `strncmp(a, b, n)` on two buffers that end with a NUL: at most `n`
characters are compared, as unsigned bytes, and the comparison stops at a NUL. -/
def strncmp : List Char → List Char → Nat → Int
  | _, _, 0 => 0
  | a, b, n + 1 =>
    if a.headD NUL ≠ b.headD NUL then
      (if (a.headD NUL).toNat < (b.headD NUL).toNat then -1 else 1)
    else if a.headD NUL = NUL then 0
    else strncmp a.tail b.tail n

/-- The function `TarFileName::isIndexFile` of tarfile.cc:189-199, on the string
`p->name()->str()`, the last component of the path. -/
def isIndexFile (name : List Char) : Bool :=
  let len := name.length
  if len < 20 then false
  else
    decide (0 = strncmp name ['z', '0', '1', '_'] 3) &&
      decide (0 = strncmp (name.drop (len - 3)) ['.', 'g', 'z'] 3)

/-- A name that starts with `z01_` and ends with `.gz` but is shorter than 20
characters. -/
def shortIndexName : List Char := "z01_a.gz".toList

/-- An index file name as in the comment at storage_rclone.cc:51. -/
def indexName : List Char :=
  ("z01_001506595429.268937346_0_" ++
    "7eb62d8e0097d5eaa99f332536236e6ba9dbfeccf0df715ec96363f8ddd495b6" ++ "_0.gz").toList

/-! ## More archive names -/

/-- A name with the unsupported version 3 inside a directory. -/
def version3Name : List Char := "backup/s03_1.2_3_ab_0.tar".toList

/-- A name whose version field has the value `2^32 + 1`. -/
def wrappedVersionName : List Char := "s4294967297_1.2_3_ab_0.tar".toList

/-- The version 1 name of section 4.F for the members of `n`:
`<type>01_<sec, 12 digits>.<nsec, 9 digits>_<size>_<hash>_0.<suffix>`. -/
def version1Text {TC : Type} (h : NameHelpers TC) (n : TarFileName TC) : List Char :=
  [h.chartype n.type] ++ (['0', '1'] ++ ('_' :: (padZero 12 (fmtDec n.sec.toNat) ++ ('.' ::
    (padZero 9 (fmtDec n.nsec.toNat) ++ ('_' :: (fmtDec n.size ++ ('_' ::
      (n.header_hash ++ ('_' :: (['0'] ++ ('.' :: h.suffixtype n.type))))))))))))

/-- A version 1 name with a time stamp one second before 1970. -/
def beforeEpochName : TarFileName Char :=
  { type := 's', version := 1, sec := -1, nsec := 0, size := 5,
    header_hash := ['a', 'b'], part_nr := 0, num_parts := 0 }

/-- A version 1 name with a size of `2^63` bytes. -/
def hugeSizeName : TarFileName Char :=
  { type := 's', version := 1, sec := 1, nsec := 2, size := 2 ^ 63,
    header_hash := ['a', 'b'], part_nr := 0, num_parts := 0 }

/-- A version 1 name whose hash is not hexadecimal. -/
def badHashName : TarFileName Char :=
  { type := 's', version := 1, sec := 1, nsec := 2, size := 5,
    header_hash := ['x', 'y'], part_nr := 0, num_parts := 0 }

/-- The index archive of the comment at storage_rclone.cc:51 as a `TarFileName`. -/
def indexFileName : TarFileName Char :=
  { type := 'z', version := 1, sec := 1506595429, nsec := 268937346, size := 0,
    header_hash :=
      "7eb62d8e0097d5eaa99f332536236e6ba9dbfeccf0df715ec96363f8ddd495b6".toList,
    part_nr := 5, num_parts := 9 }

/-! ## Parts, splitter steps and prepending -/

/-- The content positions of a part: every position of part 0, and in a later part
the positions after the multi-volume header and before the end of the part
(`TarFile::size(partnr)`). -/
def TarFile.contentPos (t : TarFile) (k o : Nat) : Prop :=
  k < t.num_parts_ ∧
    ((k = 0 ∧ o < t.part_size_) ∨
     (1 ≤ k ∧ t.header_size_ ≤ o ∧ ∃ sz, t.size k = some sz ∧ o < sz))

/-- The values that `splitParts_` computes on its way (tarfile.cc:550-566):
`*num_parts` as assigned at line 550, `stores`, and, for the branch that adds a final
part, `*num_parts` after the increment, `*last_part_size` and `stored_in_last_part`. -/
structure SplitSteps where
  num_parts : Nat
  stores : Nat
  num_parts_inc : Nat
  last_part_size : Nat
  stored_in_last_part : Nat
  deriving DecidableEq, Repr

/-- The intermediate values of `splitParts_` (tarfile.cc:550-566) for a file size, a
split size and a multi-volume header size. -/
def splitSteps (file_size split_size mv_header_size : Nat) : SplitSteps :=
  let part_size := split_size
  let num_parts := toU (subSz file_size mv_header_size / subSz part_size mv_header_size)
  let stores := addSz part_size (mulSz (subU num_parts 1) (subSz part_size mv_header_size))
  let num_parts2 := toU (num_parts + 1)
  let last_part_size := subSz (addSz mv_header_size file_size) stores
  let stored_in_first_part := part_size
  let stored_in_middle_parts := subSz part_size mv_header_size
  let stored_in_last_part :=
    subSz (subSz file_size stored_in_first_part)
      (mulSz (subU num_parts2 2) stored_in_middle_parts)
  { num_parts := num_parts, stores := stores, num_parts_inc := num_parts2,
    last_part_size := last_part_size, stored_in_last_part := stored_in_last_part }

/-- The calls `registerTarFile(this, o)` that `TarFile::addEntryFirst` makes
(tarfile.cc:65, 71, 78), in order: twice for the new entry at offset 0, then once for
every old entry with its new offset. -/
def TarFile.addEntryFirstRegistrations (t : TarFile) (entry : TarEntry) :
    List (TarEntry × Nat) :=
  (entry, 0) :: (entry, 0) ::
    t.contents_.map (fun a => (a.2, addSz a.1 entry.blockedSize))

/-- An archive with nothing in it yet that keeps the other members of `t`. -/
def TarFile.emptied (t : TarFile) : TarFile :=
  { t with contents_ := [], offsets := [], current_tar_offset_ := 0 }

/-- An archive of `2^63 + 512` bytes: a huge entry followed by a directory. -/
def hugeArchive : TarFile :=
  runOps (TarFile.new none) [BuildOp.last hugeEntry, BuildOp.last (dirEntry ['d'])]

/-! ## A large file in an archive of its own -/

/-- A file of 13 payload blocks. -/
def bigFile : TarEntry := fileEntry ['b'] 13

/-- The archive of the large file, built around that one entry. -/
def bigBuilt : TarFile := runOps (TarFile.new (some bigFile)) [BuildOp.last bigFile]

/-- The archive of the large file finalised with a split size of 5 blocks and
multi-volume headers: four parts. -/
def bigArchive : TarFile := (bigBuilt.fixSize 2560 TarHeaderStyle.WithHeaders).getD bigBuilt

/-- A file of 100 bytes: a header block and one payload block, 412 bytes of which are
padding. -/
def smallFile : TarEntry :=
  { tarpath := ['s'], header_size := 512, st_size := 100, blocked_size := 1024 }

/-- The archive of the small file, built around that one entry. -/
def smallBuilt : TarFile := runOps (TarFile.new (some smallFile)) [BuildOp.last smallFile]

/-- The archive of the small file finalised with a split size of 768 bytes and
multi-volume headers: the second part starts inside the padding. -/
def smallArchive : TarFile :=
  (smallBuilt.fixSize 768 TarHeaderStyle.WithHeaders).getD smallBuilt

/-! ## Hash and time stamp of an archive -/

/-- An archive as `calculateSHA256Hash` sees it: the identity of the object (its
address) and its member `sha256_hash_`. -/
structure HashedTar where
  id : Nat
  sha256_hash_ : List Nat
  deriving DecidableEq, Repr

/-- The loop of `TarFile::calculateSHA256Hash` (tarfile.cc:150-156): the bytes fed to
the SHA-256 context, the context being represented by the bytes fed so far. -/
def hashLoop (self_id : Nat) : List HashedTar → List Nat → List Nat
  | [], ctx => ctx
  | tf :: rest, ctx =>
    if tf.id = self_id then hashLoop self_id rest ctx
    else hashLoop self_id rest (ctx ++ tf.sha256_hash_)

/-- The method `TarFile::calculateSHA256Hash(tars, content)` of tarfile.cc:144-163.
`sha256` is the function that `SHA256_Init`, `SHA256_Update` and `SHA256_Final`
compute on the bytes fed; the result is the archive with its new `sha256_hash_`. -/
def calculateSHA256Hash (sha256 : List Nat → List Nat) (self : HashedTar)
    (tars : List HashedTar) (content : List Nat) : HashedTar :=
  { self with sha256_hash_ := sha256 (hashLoop self.id tars [] ++ content) }

/-- The C structure `timespec`. -/
structure Timespec where
  tv_sec : Int
  tv_nsec : Int
  deriving DecidableEq, Repr

/-- The method `TarFile::updateMtim(mtim)` of tarfile.cc:165-175.  The first argument
is the absent function `isInTheFuture`; the result is the pair of the archive's own
`mtim_` and of `*mtim` after the call. -/
def updateMtim (isInTheFuture : Timespec → Bool) (mtim_ mtim : Timespec) :
    Timespec × Timespec :=
  if isInTheFuture mtim_ then (mtim_, mtim)
  else
    if mtim_.tv_sec > mtim.tv_sec ∨
        (mtim_.tv_sec = mtim.tv_sec ∧ mtim_.tv_nsec > mtim.tv_nsec) then (mtim_, mtim_)
    else (mtim_, mtim)

/-- The lexicographic order on (seconds, nanoseconds). -/
def Timespec.before (a b : Timespec) : Prop :=
  a.tv_sec < b.tv_sec ∨ (a.tv_sec = b.tv_sec ∧ a.tv_nsec < b.tv_nsec)

/-- A stand-in for `isInTheFuture` in the examples: after the year 2033. -/
def exampleInTheFuture (ts : Timespec) : Bool := decide (ts.tv_sec > 2000000000)


/-! ## The listing of a remote storage -/

/-- The C predicate `isspace`. -/
def isSpace (c : Char) : Bool := decide (c = ' ' ∨ (9 ≤ c.toNat ∧ c.toNat ≤ 13))

/-- The C function `atol` on any string: white space is skipped, an optional sign is
read, then the leading decimal digits; a value outside the range of `long` becomes
`LONG_MAX` or `LONG_MIN`. -/
def atolC (s : List Char) : Int :=
  match s.dropWhile isSpace with
  | '-' :: r =>
    if digitsValue 10 (r.takeWhile isDigit) ≤ 2 ^ 63 then
      -(digitsValue 10 (r.takeWhile isDigit) : Int)
    else -(2 ^ 63)
  | '+' :: r => strtol (r.takeWhile isDigit) 10
  | r => strtol (r.takeWhile isDigit) 10

/-- The conversion `(off_t)siz` of a `size_t`. -/
def toOff (n : Nat) : Int :=
  if n % SIZE_MOD < 2 ^ 63 then (n % SIZE_MOD : Nat) else (n % SIZE_MOD : Nat) - 2 ^ 64

/-- The mode bit `S_IRUSR`. -/
def S_IRUSR : Nat := 0o400

/-- The mode bits `S_IFREG`. -/
def S_IFREG : Nat := 0o100000

/-- Modelled from the spec: the members of `FileStat` (filesystem.h, not part of the
sources at hand) that the listing sets, section 4.G: size, mtime seconds and
nanoseconds, and the mode `regular|readable`, a fresh `FileStat` having no mode
bits. -/
structure FileStat where
  st_size : Int
  st_mtim : Timespec
  st_mode : Nat
  deriving DecidableEq, Repr

/-- The return code `RC`. -/
inductive RC where
  | OK
  | ERR
  deriving DecidableEq, Repr

/-- One line of the output of `rclone ls` as the loop of `rcloneListBeakFiles` scans it
(storage_rclone.cc:52-57): the text before the first space and the text up to the end
of the line.  The scanners `eatWhitespace` and `eatTo` are not part of the sources at
hand. -/
structure ListedLine where
  size : List Char
  file_name : List Char
  deriving DecidableEq, Repr

/-- The four outputs of `rcloneListBeakFiles`.  `contents` is the sequence of the
assignments `(*contents)[p] = fs`, in order, `p` being named by the listed file name
from which it is made (`tfn.path->prepend(storage->storage_location)`). -/
structure Listing (TC : Type) where
  files : List (TarFileName TC)
  bad_files : List (TarFileName TC)
  other_files : List (List Char)
  contents : List (List Char × FileStat)
  deriving DecidableEq

/-- The outputs before the first line. -/
def Listing.empty (TC : Type) : Listing TC :=
  { files := [], bad_files := [], other_files := [], contents := [] }

/-- The body of the loop of `rcloneListBeakFiles` for one scanned line
(storage_rclone.cc:58-85).  `REG_FILE` is the enumerator of the absent tarfile.h;
`none` is the fatal assertion of `parseFileName`. -/
def listLine {TC : Type} [DecidableEq TC] (h : NameHelpers TC) (REG_FILE : TC)
    (st : Listing TC) (line : ListedLine) : Option (Listing TC) :=
  match parseFileName h line.file_name with
  | Parsed.fatal => none
  | Parsed.no => some { st with other_files := st.other_files ++ [line.file_name] }
  | Parsed.ok tfn =>
    let siz := asUnsigned (atolC line.size)
    if (tfn.type ≠ REG_FILE ∧ tfn.size = siz) ∨ (tfn.type = REG_FILE ∧ tfn.size = 0) then
      some { st with
        files := st.files ++ [tfn]
        contents := st.contents ++
          [(line.file_name,
            { st_size := toOff siz,
              st_mtim := { tv_sec := tfn.sec, tv_nsec := tfn.nsec },
              st_mode := S_IRUSR ||| S_IFREG })] }
    else
      some { st with bad_files := st.bad_files ++ [tfn] }

/-- The loop of `rcloneListBeakFiles` over the lines that are scanned. -/
def listLines {TC : Type} [DecidableEq TC] (h : NameHelpers TC) (REG_FILE : TC) :
    Listing TC → List ListedLine → Option (Listing TC)
  | st, [] => some st
  | st, line :: rest =>
    match listLine h REG_FILE st line with
    | none => none
    | some st1 => listLines h REG_FILE st1 rest

/-- How a call of `rcloneListBeakFiles` ends: it returns a code, with the outputs
filled, or it is aborted by the fatal assertion of `parseFileName`. -/
inductive ListOutcome (TC : Type) where
  | aborted
  | returned (rc : RC) (st : Listing TC)
  deriving DecidableEq

/-- The function `rcloneListBeakFiles` of storage_rclone.cc:27-90.  `invoke_err` says
whether `sys->invoke` fails, `lines` are the lines that the loop scans, `scan_err` is
the flag `err` with which the loop is left. -/
def rcloneListBeakFiles {TC : Type} [DecidableEq TC] (h : NameHelpers TC) (REG_FILE : TC)
    (invoke_err : Bool) (lines : List ListedLine) (scan_err : Bool) : ListOutcome TC :=
  if invoke_err then ListOutcome.returned RC.ERR (Listing.empty TC)
  else
    match listLines h REG_FILE (Listing.empty TC) lines with
    | none => ListOutcome.aborted
    | some st => if scan_err then ListOutcome.returned RC.ERR st
                 else ListOutcome.returned RC.OK st

/-- The list to which the loop adds a scanned line. -/
inductive LineClass where
  | other
  | bad
  | accepted
  | fatal
  deriving DecidableEq, Repr

/-- The class of a scanned line by the rules of storage_rclone.cc:59-85. -/
def lineClass {TC : Type} [DecidableEq TC] (h : NameHelpers TC) (REG_FILE : TC)
    (line : ListedLine) : LineClass :=
  match parseFileName h line.file_name with
  | Parsed.fatal => LineClass.fatal
  | Parsed.no => LineClass.other
  | Parsed.ok tfn =>
    if (tfn.type ≠ REG_FILE ∧ tfn.size = asUnsigned (atolC line.size)) ∨
        (tfn.type = REG_FILE ∧ tfn.size = 0) then LineClass.accepted
    else LineClass.bad

/-- The line of the comment at storage_rclone.cc:51: the index archive, 12288 bytes
on the remote, with the size 0 in its name. -/
def indexLine : ListedLine := { size := "12288".toList, file_name := indexName }

/-- A line whose name has an unsupported version. -/
def version3Line : ListedLine := { size := "10".toList, file_name := "s03_x".toList }

/-- A line whose name is no archive name. -/
def readmeLine : ListedLine := { size := "7".toList, file_name := "README".toList }

/-- A data archive of 3 bytes whose remote size is 3. -/
def dataLine : ListedLine :=
  { size := "3".toList, file_name := "s01_000000000001.000000002_3_ab_0.tar".toList }

/-- A data archive of 3 bytes whose remote size is 4. -/
def shortDataLine : ListedLine :=
  { size := "4".toList, file_name := "s01_000000000001.000000002_3_ab_0.tar".toList }

/-- An index archive that declares 5 bytes and has 5 bytes on the remote. -/
def sizedIndexLine : ListedLine :=
  { size := "5".toList, file_name := "z01_000000000001.000000002_5_ab_0.gz".toList }

/-- The name and the index entry that an accepted line adds to `files` and to
`contents`, by the rules of storage_rclone.cc:59-78; `none` for every other line. -/
def acceptedOf {TC : Type} [DecidableEq TC] (h : NameHelpers TC) (REG_FILE : TC)
    (line : ListedLine) : Option (TarFileName TC × (List Char × FileStat)) :=
  match parseFileName h line.file_name with
  | Parsed.ok tfn =>
    if (tfn.type ≠ REG_FILE ∧ tfn.size = asUnsigned (atolC line.size)) ∨
        (tfn.type = REG_FILE ∧ tfn.size = 0) then
      some (tfn, (line.file_name,
        { st_size := toOff (asUnsigned (atolC line.size)),
          st_mtim := { tv_sec := tfn.sec, tv_nsec := tfn.nsec },
          st_mode := S_IRUSR ||| S_IFREG }))
    else none
  | _ => none

/-- The name that a line adds to `bad_files`; `none` for every other line. -/
def badOf {TC : Type} [DecidableEq TC] (h : NameHelpers TC) (REG_FILE : TC)
    (line : ListedLine) : Option (TarFileName TC) :=
  match parseFileName h line.file_name with
  | Parsed.ok tfn =>
    if (tfn.type ≠ REG_FILE ∧ tfn.size = asUnsigned (atolC line.size)) ∨
        (tfn.type = REG_FILE ∧ tfn.size = 0) then none
    else some tfn
  | _ => none

/-- The name that a line adds to `other_files`; `none` for every other line. -/
def otherOf {TC : Type} (h : NameHelpers TC) (line : ListedLine) : Option (List Char) :=
  match parseFileName h line.file_name with
  | Parsed.no => some line.file_name
  | _ => none


/-! ## The verbose output of rclone -/

/-- The first loop of `parse_rclone_verbose_output` (storage_rclone.cc:136-141), entered
with the value of `from`: the value of `from` after the loop.  `len` is the length of
`buf`; reading `buf` at an index that is not below `len` is `none`, and so is an
exhausted iteration bound (the first argument). -/
def findFromLoop (buf : List Char) (len : Nat) : Nat → Nat → Option Nat
  | 0, _ => none
  | fuel + 1, from_ =>
    if from_ < subSz len 1 then
      match buf.get? (subSz from_ 1) with
      | none => none
      | some a =>
        if a ≠ ' ' then findFromLoop buf len fuel (addSz from_ 1)
        else
          match buf.get? from_ with
          | none => none
          | some b =>
            if b ≠ ':' then findFromLoop buf len fuel (addSz from_ 1)
            else
              match buf.get? (addSz from_ 1) with
              | none => none
              | some c =>
                if c ≠ ' ' then findFromLoop buf len fuel (addSz from_ 1)
                else some (addSz from_ 2)
    else some from_

/-- The second loop of `parse_rclone_verbose_output` (storage_rclone.cc:143-147),
entered with the value of `to`: the value of `to` after the loop. -/
def findToLoop (buf : List Char) (from_ : Nat) : Nat → Nat → Option Nat
  | 0, _ => none
  | fuel + 1, to_ =>
    if to_ > from_ then
      match buf.get? to_ with
      | none => none
      | some a =>
        if a ≠ ':' then findToLoop buf from_ fuel (subSz to_ 1)
        else
          match buf.get? (addSz to_ 1) with
          | none => none
          | some b =>
            if b ≠ ' ' then findToLoop buf from_ fuel (subSz to_ 1)
            else some to_
    else some to_

/-- The indices `from` and `to` that `parse_rclone_verbose_output` computes for a
buffer (storage_rclone.cc:134-147), and the count `to - from` that it hands to the
`string` constructor at line 148. -/
def parseRcloneVerboseIndices (buf : List Char) : Option (Nat × Nat × Nat) :=
  match findFromLoop buf buf.length (buf.length + 1) 1 with
  | none => none
  | some from_ =>
    match findToLoop buf from_ (buf.length + 1) (subSz buf.length 2) with
    | none => none
    | some to_ => some (from_, to_, subSz to_ from_)

/-! ## Atoms and paths -/

/-- The C function `strcmp(a, b)` on the C strings of two `std::string`s: the
characters are compared as unsigned bytes and the comparison stops at a NUL. -/
def strcmp : List Char → List Char → Int
  | [], [] => 0
  | [], y :: _ => if y = NUL then 0 else -1
  | x :: _, [] => if x = NUL then 0 else 1
  | x :: xs, y :: ys =>
    if x ≠ y then (if x.toNat < y.toNat then -1 else 1)
    else if x = NUL then 0
    else strcmp xs ys

/-- The function `Atom::lessthan` of filesystem.cc:281-291.  An atom is interned by its
literal (`Atom::lookup`, filesystem.cc:269-279), so a pointer to an atom is represented
by the literal and `a == b` is the equality of the literals. -/
def Atom.lessthan (a b : List Char) : Bool :=
  if a = b then false else decide (strcmp a b < 0)

/-- Modelled from the spec: the members of class `Path` (filesystem.h is not part of
the sources at hand), section 3: a path is a chain `(parent, name)` with a precomputed
depth and the cached full string.  `id` stands for the address of the object. -/
structure PathNode where
  id : Nat
  atom : List Char
  depth : Int
  str : List Char
  deriving DecidableEq, Repr

/-- A pointer `Path*`: the object pointed to, followed by the objects that its parent
pointers lead to; `NULL` is the empty list.  Two pointers are equal when they are the
same list. -/
abbrev PathPtr := List PathNode

/-- The result `NO_ANSWER`, `YES_LESS_THAN` or `YES_GREATER_THAN` of
`compareSameLengthPaths`. -/
inductive Answer where
  | NO_ANSWER
  | YES_LESS_THAN
  | YES_GREATER_THAN
  deriving DecidableEq, Repr

/-- The function `compareSameLengthPaths` of filesystem.cc:162-184.  `none` is the
failing assertion, or the use of a null pointer. -/
def compareSameLengthPaths : PathPtr → PathPtr → Option Answer
  | [], [] => some Answer.NO_ANSWER
  | [], _ :: _ => none
  | _ :: _, [] => none
  | a :: ap, b :: bp =>
    if a :: ap = b :: bp then some Answer.NO_ANSWER
    else if ¬ (a.depth = b.depth) then none
    else
      match compareSameLengthPaths ap bp with
      | none => none
      | some Answer.NO_ANSWER =>
        if a.atom = b.atom then some Answer.NO_ANSWER
        else if Atom.lessthan a.atom b.atom then some Answer.YES_LESS_THAN
        else some Answer.YES_GREATER_THAN
      | some rc => some rc

/-- The function `depthFirstSortPath::lessthan` of filesystem.cc:186-203. -/
def depthFirstSortPath.lessthan : PathPtr → PathPtr → Option Bool
  | [], [] => some false
  | [], _ :: _ => none
  | _ :: _, [] => none
  | a :: ap, b :: bp =>
    if a :: ap = b :: bp then some false
    else if a.depth > b.depth then some true
    else if a.depth < b.depth then some false
    else
      match compareSameLengthPaths (a :: ap) (b :: bp) with
      | none => none
      | some rc => some (decide (rc = Answer.YES_LESS_THAN))

/-- The loop of `Path::parentAtDepth` (filesystem.cc:356-359) with the values of `p`
and `d`. -/
def parentAtDepthLoop : PathPtr → Int → Int → PathPtr
  | [], _, _ => []
  | x :: rest, d, i => if d > i then parentAtDepthLoop rest (d - 1) i else x :: rest

/-- The method `Path::parentAtDepth` of filesystem.cc:351-361; `none` is the failing
assertion, or a null `this`. -/
def Path.parentAtDepth : PathPtr → Int → Option PathPtr
  | [], _ => none
  | x :: rest, i =>
    if ¬ (x.depth ≥ i) then none else some (parentAtDepthLoop (x :: rest) x.depth i)

/-- The function `TarSort::lessthan` of filesystem.cc:213-231. -/
def TarSort.lessthan : PathPtr → PathPtr → Option Bool
  | [], [] => some false
  | [], _ :: _ => none
  | _ :: _, [] => none
  | a :: ap, b :: bp =>
    if a :: ap = b :: bp then some false
    else
      let d := min a.depth b.depth
      match Path.parentAtDepth (a :: ap) d, Path.parentAtDepth (b :: bp) d with
      | some pa, some pb =>
        if pa = pb then some (decide (a.depth < b.depth))
        else
          match compareSameLengthPaths pa pb with
          | none => none
          | some rc => some (decide (rc = Answer.YES_LESS_THAN))
      | _, _ => none

/-- The last character `s.back()`.  On the empty string the source reads it too and
expects `0` (the assertion at filesystem.cc:297 reads `p.back() != 0 || p.length() ==
0`), which is what it is taken to be here. -/
def back (s : List Char) : Char := s.getLast?.getD NUL

/-- `std::string::find_last_of(c, pos)`: the last index not above `pos` that holds `c`;
`none` is `npos`. -/
def find_last_of (s : List Char) (c : Char) (pos : Nat) : Option Nat :=
  rfind (s.take (pos + 1)) c

/-- `std::string::substr(pos, count)`; `none` is the exception `out_of_range`. -/
def substrCount (s : List Char) (pos count : Nat) : Option (List Char) :=
  if pos > s.length then none else some ((s.drop pos).take count)

/-- The function `basename_` of filesystem.cc:95-108. -/
def basename_ (s : List Char) : Option (List Char) :=
  if s.length = 0 then some []
  else
    let e0 := subSz s.length 1
    let e := if s.getD e0 NUL = '/' then subSz e0 1 else e0
    let p := match find_last_of s '/' e with
      | none => SIZE_MOD - 1
      | some i => i
    substrCount s (addSz p 1) (addSz (subSz e p) 1)

/-- The function `dirname_` of filesystem.cc:130-156 without `PLATFORM_WINAPI`: the
pair that it returns, and the value that it leaves in its reference argument `s`. -/
def dirname_ (s : List Char) : (List Char × Bool) × List Char :=
  let s1 := if s.length > 0 ∧ back s = '/' then s.take (s.length - 1) else s
  if s1.length = 0 then (([], false), s1)
  else
    match rfind s1 '/' with
    | none => (([], false), s1)
    | some p =>
      if p = 0 then (([], true), s1)
      else ((s1.take p, true), s1)

/-- The table `interned_paths` (a `std::map<string, Path*>`, as an association list)
and the number of `Path` objects created so far, which numbers the next one. -/
structure Interner where
  interned_paths : List (List Char × PathPtr)
  next_id : Nat
  deriving DecidableEq, Repr

/-- `interned_paths.find(p)`. -/
def tableFind : List (List Char × PathPtr) → List Char → Option PathPtr
  | [], _ => none
  | (k, v) :: rest, p => if k = p then some v else tableFind rest p

/-- `interned_paths[p] = np`. -/
def tableSet : List (List Char × PathPtr) → List Char → PathPtr → List (List Char × PathPtr)
  | [], p, np => [(p, np)]
  | (k, v) :: rest, p, np => if k = p then (k, np) :: rest else (k, v) :: tableSet rest p np

/-- Modelled from the spec: the constructor `Path(parent, atom, str)` of the absent
filesystem.h, section 3: the depth is precomputed, `depth(root) = 0`, and a path lies
one level below its parent. -/
def newPath (st : Interner) (parent : PathPtr) (atom str : List Char) : PathPtr × Interner :=
  ({ id := st.next_id, atom := atom,
     depth := match parent with
       | [] => 0
       | x :: _ => x.depth + 1,
     str := str } :: parent,
   { st with next_id := st.next_id + 1 })

/-- The static initializer `Path::Initializer` of filesystem.cc:462-467: the root is
interned under the empty string. -/
def Interner.init : Interner :=
  { interned_paths := [([], [{ id := 0, atom := [], depth := 0, str := [] }])], next_id := 1 }

/-- The function `Path::lookup` of filesystem.cc:295-327 without `PLATFORM_WINAPI`, on a
state of the interner.  The first argument bounds the depth of the recursion; `none` is
the failing assertion, an exception, or an exhausted bound. -/
def lookupLoop : Nat → Interner → List Char → Option (PathPtr × Interner)
  | 0, _, _ => none
  | fuel + 1, st, p =>
    if ¬ (back p ≠ '\n' ∧ (back p ≠ NUL ∨ p.length = 0)) then none
    else
      let p1 := if back p = '/' then p.take (p.length - 1) else p
      match tableFind st.interned_paths p1 with
      | some pl => some (pl, st)
      | none =>
        let s := dirname_ p1
        let p2 := s.2
        if s.1.2 then
          match lookupLoop fuel st s.1.1 with
          | none => none
          | some (parent, st1) =>
            match basename_ p2 with
            | none => none
            | some name =>
              let r := newPath st1 parent name p2
              some (r.1, { r.2 with interned_paths := tableSet r.2.interned_paths p2 r.1 })
        else
          match basename_ p2 with
          | none => none
          | some name =>
            let r := newPath st [] name p2
            some (r.1, { r.2 with interned_paths := tableSet r.2.interned_paths p2 r.1 })

/-- The function `Path::lookup`: every recursive call is made on a shorter string. -/
def Path.lookup (st : Interner) (p : List Char) : Option (PathPtr × Interner) :=
  lookupLoop (p.length + 1) st p

/-- The method `Path::str`: the cached full string; `none` on a null pointer. -/
def Path.str : PathPtr → Option (List Char)
  | [] => none
  | x :: _ => some x.str

/-- The method `Path::reparent` of filesystem.cc:388-392. -/
def Path.reparent (st : Interner) : PathPtr → PathPtr → Option (PathPtr × Interner)
  | x :: _, y :: parent => some (newPath st (y :: parent) x.atom (y.str ++ ['/'] ++ x.atom))
  | _, _ => none

/-- A string without one trailing slash. -/
def stripSlash (s : List Char) : List Char :=
  if s.getLast? = some '/' then s.dropLast else s

/-- The state of the interner after `Path::lookup("a/b")`, and the path returned. -/
def lookedUpAB : Option (PathPtr × Interner) := Path.lookup Interner.init "a/b".toList

/-! ## Permission strings -/

/-- The mask `S_IFMT` of the type bits of a mode. -/
def S_IFMT : Nat := 0o170000

/-- The type bits `S_IFSOCK`. -/
def S_IFSOCK : Nat := 0o140000

/-- The type bits `S_IFLNK`. -/
def S_IFLNK : Nat := 0o120000

/-- The type bits `S_IFBLK`. -/
def S_IFBLK : Nat := 0o060000

/-- The type bits `S_IFDIR`. -/
def S_IFDIR : Nat := 0o040000

/-- The type bits `S_IFCHR`. -/
def S_IFCHR : Nat := 0o020000

/-- The type bits `S_IFIFO`. -/
def S_IFIFO : Nat := 0o010000

/-- The mode bit `S_ISUID`. -/
def S_ISUID : Nat := 0o4000

/-- The mode bit `S_ISGID`. -/
def S_ISGID : Nat := 0o2000

/-- The mode bit `S_ISVTX`. -/
def S_ISVTX : Nat := 0o1000

/-- The mode bit `S_IWUSR`. -/
def S_IWUSR : Nat := 0o200

/-- The mode bit `S_IXUSR`. -/
def S_IXUSR : Nat := 0o100

/-- The mode bit `S_IRGRP`. -/
def S_IRGRP : Nat := 0o40

/-- The mode bit `S_IWGRP`. -/
def S_IWGRP : Nat := 0o20

/-- The mode bit `S_IXGRP`. -/
def S_IXGRP : Nat := 0o10

/-- The mode bit `S_IROTH`. -/
def S_IROTH : Nat := 0o4

/-- The mode bit `S_IWOTH`. -/
def S_IWOTH : Nat := 0o2

/-- The mode bit `S_IXOTH`. -/
def S_IXOTH : Nat := 0o1

/-- Modelled from the spec: the type tests `isDirectory()`, `isSymbolicLink()`, ... of
`FileStat` (filesystem.h is not part of the sources at hand) are the tests `S_ISDIR`,
`S_ISLNK`, ... on `st_mode`: the type bits are compared with the bits of one type. -/
def isType (mode type : Nat) : Bool := decide (mode &&& S_IFMT = type)

/-- Modelled from the spec: the permission tests `isIRUSR()`, `isISUID()`, ... of
`FileStat` are the tests of one mode bit. -/
def isBit (mode bit : Nat) : Bool := decide (mode &&& bit ≠ 0)

/-- The function `permissionString` of filesystem.cc:494-542 on the mode of the
`FileStat`; `none` is the failing assertion. -/
def permissionString (mode : Nat) : Option (List Char) :=
  let t : Option Char :=
    if isType mode S_IFDIR then some 'd'
    else if isType mode S_IFLNK then some 'l'
    else if isType mode S_IFCHR then some 'c'
    else if isType mode S_IFBLK then some 'b'
    else if isType mode S_IFIFO then some 'p'
    else if isType mode S_IFSOCK then some 's'
    else if isType mode S_IFREG then some '-'
    else none
  match t with
  | none => none
  | some c =>
    some [c,
      if isBit mode S_IRUSR then 'r' else '-',
      if isBit mode S_IWUSR then 'w' else '-',
      if isBit mode S_ISUID then 's' else if isBit mode S_IXUSR then 'x' else '-',
      if isBit mode S_IRGRP then 'r' else '-',
      if isBit mode S_IWGRP then 'w' else '-',
      if isBit mode S_ISGID then 's' else if isBit mode S_IXGRP then 'x' else '-',
      if isBit mode S_IROTH then 'r' else '-',
      if isBit mode S_IWOTH then 'w' else '-',
      if isBit mode S_ISVTX then 't' else if isBit mode S_IXOTH then 'x' else '-']

/-- The first test of `stringToPermission` (filesystem.cc:548-563): the type bits for
the first character; `none` is `goto err`. -/
def typeBitsOf (c : Char) : Option Nat :=
  if c = 'd' then some S_IFDIR
  else if c = 'l' then some S_IFLNK
  else if c = 'c' then some S_IFCHR
  else if c = 'b' then some S_IFBLK
  else if c = 'p' then some S_IFIFO
  else if c = 's' then some S_IFSOCK
  else if c = '-' then some S_IFREG
  else none

/-- A test of `stringToPermission` for a read or write character (for example
filesystem.cc:565-568): the bits that are or-ed into `rc`; `none` is `goto err`. -/
def readBit (c yes : Char) (bit : Nat) : Option Nat :=
  if c = yes then some bit
  else if c ≠ '-' then none
  else some 0

/-- A test of `stringToPermission` for an execute character (for example
filesystem.cc:574-582): the bits that are or-ed into `rc`; `none` is `goto err`. -/
def execBits (c special : Char) (x sbit : Nat) : Option Nat :=
  if c = 'x' then some x
  else if c = special then some (x ||| sbit)
  else if c ≠ '-' then none
  else some 0

/-- The function `stringToPermission` of filesystem.cc:544-625.  A character past the
end of the string reads as the terminating NUL. -/
def stringToPermission (s : List Char) : Nat :=
  match
    (typeBitsOf (s.getD 0 NUL)).bind fun t =>
    (readBit (s.getD 1 NUL) 'r' S_IRUSR).bind fun a1 =>
    (readBit (s.getD 2 NUL) 'w' S_IWUSR).bind fun a2 =>
    (execBits (s.getD 3 NUL) 's' S_IXUSR S_ISUID).bind fun a3 =>
    (readBit (s.getD 4 NUL) 'r' S_IRGRP).bind fun a4 =>
    (readBit (s.getD 5 NUL) 'w' S_IWGRP).bind fun a5 =>
    (execBits (s.getD 6 NUL) 's' S_IXGRP S_ISGID).bind fun a6 =>
    (readBit (s.getD 7 NUL) 'r' S_IROTH).bind fun a7 =>
    (readBit (s.getD 8 NUL) 'w' S_IWOTH).bind fun a8 =>
    (execBits (s.getD 9 NUL) 't' S_IXOTH S_ISVTX).bind fun a9 =>
    some (t ||| a1 ||| a2 ||| a3 ||| a4 ||| a5 ||| a6 ||| a7 ||| a8 ||| a9)
  with
  | some rc => rc
  | none => 0


/-! ## The two orders on paths -/

/-- The depth fields of a path and of its ancestors are the distances from the root:
the depth of a path without parent is 0, the depth of a child is that of its parent
plus one.  It is what the constructor of `Path` establishes. -/
def depthOK : PathPtr → Bool
  | [] => true
  | x :: rest => decide (x.depth = (rest.length : Int)) && depthOK rest

/-- No name on the path, its own or that of an ancestor, holds a NUL byte. -/
def nulFree (p : PathPtr) : Bool :=
  p.all (fun n => n.atom.all (fun c => decide (c ≠ NUL)))

/-- The names on a path from the root down to the path itself. -/
def componentsOf (p : PathPtr) : List (List Char) :=
  (p.map (fun n => n.atom)).reverse

/-- Byte-wise order of two names: the first differing byte decides, a proper prefix
comes first. -/
def bytesLt (s t : List Char) : Prop :=
  List.Lex (fun x y : Char => x < y) s t

/-- Component-wise order of two sequences of names, from the root down: the first
differing name decides by `bytesLt`, a proper prefix comes first. -/
def pathLt (k l : List (List Char)) : Prop :=
  List.Lex bytesLt k l

/-- A set of paths in which a sequence of names has one object only: two ancestors (or
the paths themselves) with the same names from the root down are the same object; and
in which the depths are the distances from the root and no name holds a NUL byte. -/
def Canonical (paths : List PathPtr) : Prop :=
  (∀ p ∈ paths, p ≠ [] ∧ depthOK p = true ∧ nulFree p = true) ∧
  (∀ p ∈ paths, ∀ q ∈ paths, ∀ p1 ∈ p.tails, ∀ q1 ∈ q.tails,
    componentsOf p1 = componentsOf q1 → p1 = q1)

/-- The paths `TEXTS/filter`, `TEXTS/filter/alfa` and `TEXTS/filter.zip`, looked up one
after the other in an empty table. -/
def lookedUpTexts : Option (PathPtr × PathPtr × PathPtr) :=
  (Path.lookup Interner.init "TEXTS/filter".toList).bind fun r1 =>
  (Path.lookup r1.2 "TEXTS/filter/alfa".toList).bind fun r2 =>
  (Path.lookup r2.2 "TEXTS/filter.zip".toList).map fun r3 => (r1.1, r2.1, r3.1)

/-- The path `TEXTS`. -/
def textsNode : PathNode :=
  { id := 1, atom := "TEXTS".toList, depth := 0, str := "TEXTS".toList }

/-- The path `TEXTS/filter`. -/
def filterNode : PathNode :=
  { id := 2, atom := "filter".toList, depth := 1, str := "TEXTS/filter".toList }

/-- The path `TEXTS/filter/alfa`. -/
def alfaNode : PathNode :=
  { id := 3, atom := "alfa".toList, depth := 2, str := "TEXTS/filter/alfa".toList }

/-- The path `TEXTS/filter.zip`. -/
def zipNode : PathNode :=
  { id := 4, atom := "filter.zip".toList, depth := 1, str := "TEXTS/filter.zip".toList }

/-- The paths `a/b` and `a//b`, looked up one after the other in an empty table. -/
def lookedUpDoubleSlash : Option (PathPtr × PathPtr) :=
  (Path.lookup Interner.init "a/b".toList).bind fun r1 =>
  (Path.lookup r1.2 "a//b".toList).map fun r2 => (r1.1, r2.1)

/-- The paths `d/f<NUL>a` and `d/f<NUL>b`, looked up one after the other in an empty
table. -/
def lookedUpNulNames : Option (PathPtr × PathPtr) :=
  (Path.lookup Interner.init ['d', '/', 'f', NUL, 'a']).bind fun r1 =>
  (Path.lookup r1.2 ['d', '/', 'f', NUL, 'b']).map fun r2 => (r1.1, r2.1)

/-! ## Machine arithmetic without wrap-around -/

/-- The wrapped difference is the difference modulo `2^64`. -/
theorem subSz_mod (a b : Nat) :
    subSz a b = (a % 2 ^ 64 + 2 ^ 64 - b % 2 ^ 64) % 2 ^ 64 := by
  unfold subSz SIZE_MOD
  split <;> omega

/-- The wrapped difference of two `uint` values is the difference modulo `2^32`. -/
theorem subU_mod (a b : Nat) :
    subU a b = (a % 2 ^ 32 + 2 ^ 32 - b % 2 ^ 32) % 2 ^ 32 := by
  unfold subU UINT_MOD
  split <;> omega

theorem subSz_eq {a b : Nat} (ha : a < SIZE_MOD) (hb : b ≤ a) : subSz a b = a - b := by
  rw [subSz_mod]
  unfold SIZE_MOD at ha
  omega

theorem addSz_eq {a b : Nat} (h : a + b < SIZE_MOD) : addSz a b = a + b := by
  unfold addSz
  exact Nat.mod_eq_of_lt h

theorem mulSz_eq {a b : Nat} (h : a * b < SIZE_MOD) : mulSz a b = a * b := by
  unfold mulSz
  exact Nat.mod_eq_of_lt h

theorem subU_eq {a b : Nat} (ha : a < UINT_MOD) (hb : b ≤ a) : subU a b = a - b := by
  rw [subU_mod]
  unfold UINT_MOD at ha
  omega

theorem toU_eq {a : Nat} (h : a < UINT_MOD) : toU a = a := by
  unfold toU
  exact Nat.mod_eq_of_lt h

/-! ## The splitter -/

theorem ceilParts_eq (file_size split_size mv : Nat) (h1 : mv < split_size) :
    ceilParts file_size split_size mv =
      if (file_size - mv) % (split_size - mv) = 0 then (file_size - mv) / (split_size - mv)
      else (file_size - mv) / (split_size - mv) + 1 := by
  unfold ceilParts
  have hd : 0 < split_size - mv := by omega
  generalize split_size - mv = d at *
  generalize file_size - mv = a at *
  have hdm := Nat.div_add_mod a d
  have hlt := Nat.mod_lt a hd
  split
  · next h0 =>
    rw [h0] at hdm
    have : a + d - 1 = d - 1 + d * (a / d) := by omega
    rw [this, Nat.add_mul_div_left _ _ hd, Nat.div_eq_of_lt (by omega)]
    omega
  · next h0 =>
    have : a + d - 1 = (a % d - 1) + d * (a / d + 1) := by
      rw [Nat.mul_add]; omega
    rw [this, Nat.add_mul_div_left _ _ hd, Nat.div_eq_of_lt (by omega)]
    omega

/-- What the splitter computes when the number of parts fits into a `uint`. -/
theorem splitPartsWith_value (file_size split_size mv : Nat)
    (h1 : mv < split_size) (h2 : split_size < file_size)
    (h3 : file_size < SIZE_MOD)
    (h4 : ceilParts file_size split_size mv < UINT_MOD) :
    splitPartsWith file_size split_size mv = some
      { num_parts := ceilParts file_size split_size mv
        part_size := split_size
        last_part_size :=
          if (file_size - mv) % (split_size - mv) = 0 then split_size
          else mv + (file_size - mv) % (split_size - mv)
        mv_header_size := mv } := by
  rw [ceilParts_eq _ _ _ h1] at h4 ⊢
  unfold splitPartsWith
  have hd : 0 < split_size - mv := by omega
  have hdm := Nat.div_add_mod (file_size - mv) (split_size - mv)
  have hlt := Nat.mod_lt (file_size - mv) hd
  have e1 : subSz file_size mv = file_size - mv := subSz_eq h3 (by omega)
  have e2 : subSz split_size mv = split_size - mv := subSz_eq (by omega) (by omega)
  simp only [e1, e2, gt_iff_lt, not_lt]
  rw [if_neg (by omega)]
  generalize hq : (file_size - mv) / (split_size - mv) = q at *
  generalize hr : (file_size - mv) % (split_size - mv) = r at *
  have hq1 : 1 ≤ q := by
    rw [← hq]
    exact (Nat.one_le_div_iff hd).2 (by omega)
  have hqlt : q < UINT_MOD := by
    split at h4 <;> omega
  have e3 : toU q = q := toU_eq hqlt
  have e4 : subU q 1 = q - 1 := subU_eq hqlt hq1
  have hmul : (q - 1) * (split_size - mv) + (split_size - mv) = (split_size - mv) * q := by
    have : q = (q - 1) + 1 := by omega
    rw [Nat.mul_comm (split_size - mv) q]
    nth_rewrite 2 [this]
    rw [Nat.add_mul, Nat.one_mul]
  have e5 : mulSz (q - 1) (split_size - mv) = (q - 1) * (split_size - mv) :=
    mulSz_eq (by omega)
  have e6 : addSz split_size ((q - 1) * (split_size - mv)) =
      split_size + (q - 1) * (split_size - mv) := addSz_eq (by omega)
  simp only [e3, e4, e5, e6]
  by_cases hr0 : r = 0
  · rw [if_pos (by omega), if_pos hr0, if_pos hr0]
  · rw [if_neg (by omega), if_neg hr0, if_neg hr0]
    have hq2 : q + 1 < UINT_MOD := by
      rw [if_neg hr0] at h4; exact h4
    have e7 : toU (q + 1) = q + 1 := toU_eq hq2
    have e8 : subU (q + 1) 2 = q - 1 := by
      rw [subU_eq hq2 (by omega)]; omega
    have e10 : subSz (addSz mv file_size) (split_size + (q - 1) * (split_size - mv)) = mv + r := by
      generalize (q - 1) * (split_size - mv) = S at *
      simp only [subSz_mod]
      unfold addSz SIZE_MOD
      unfold SIZE_MOD at h3
      omega
    have e11 : subSz file_size split_size = file_size - split_size := subSz_eq h3 (by omega)
    have e12 : subSz (file_size - split_size) ((q - 1) * (split_size - mv)) = r := by
      rw [subSz_eq (by omega) (by omega)]; omega
    have e13 : addSz r mv = r + mv := addSz_eq (by omega)
    simp only [e7, e8, e10, e5, e11, e12, e13]
    rw [if_pos (by omega)]

theorem partLengths_sum (r : SplitResult) (h : 1 ≤ r.num_parts) :
    r.partLengths.sum = (r.num_parts - 1) * r.part_size + r.last_part_size := by
  unfold SplitResult.partLengths
  obtain ⟨m, hm⟩ : ∃ m, r.num_parts = m + 1 := ⟨r.num_parts - 1, by omega⟩
  rw [hm, List.range_succ, List.map_append, List.sum_append]
  have hfront : (List.range m).map
      (fun i => if i + 1 < m + 1 then r.part_size else r.last_part_size)
      = (List.range m).map (fun _ => r.part_size) := by
    apply List.map_congr_left
    intro i hi
    rw [List.mem_range] at hi
    rw [if_pos (by omega)]
  rw [hfront]
  simp

/-- C3 (as amended).  Splitting law: for every `file_size > split_size > mv` below
`2^64` whose number of parts `ceil((file_size - mv) / (split_size - mv))` fits into
the 32 bit `num_parts`, `splitParts_` returns values with
`part_size + (num_parts-1)*(part_size - header_size) - (part_size - last_part_size)
= file_size`, and the lengths of the parts sum to
`file_size + (num_parts-1)*header_size`. -/
theorem splitParts_law (file_size split_size : Nat) (ths : TarHeaderStyle)
    (h1 : mvHeaderSize ths < split_size) (h2 : split_size < file_size)
    (h3 : file_size < SIZE_MOD)
    (h4 : ceilParts file_size split_size (mvHeaderSize ths) < UINT_MOD) :
    ∃ r, splitParts_ file_size split_size ths = some r ∧
      SplitLaw r file_size ∧
      r.partLengths.sum = file_size + (r.num_parts - 1) * r.mv_header_size := by
  refine ⟨_, splitPartsWith_value file_size split_size (mvHeaderSize ths) h1 h2 h3 h4, ?_⟩
  generalize mvHeaderSize ths = mv at *
  have hd : 0 < split_size - mv := by omega
  have hdm := Nat.div_add_mod (file_size - mv) (split_size - mv)
  have hlt := Nat.mod_lt (file_size - mv) hd
  have hq1 : 1 ≤ (file_size - mv) / (split_size - mv) :=
    (Nat.one_le_div_iff hd).2 (by omega)
  have hc := ceilParts_eq file_size split_size mv h1
  have hn1 : 1 ≤ ceilParts file_size split_size mv := by
    rw [hc]; split <;> omega
  have hnat : (ceilParts file_size split_size mv - 1) * split_size +
      (if (file_size - mv) % (split_size - mv) = 0 then split_size
        else mv + (file_size - mv) % (split_size - mv))
      = file_size + (ceilParts file_size split_size mv - 1) * mv := by
    rw [hc]
    generalize (file_size - mv) / (split_size - mv) = q at *
    generalize (file_size - mv) % (split_size - mv) = r at *
    obtain ⟨k, rfl⟩ : ∃ k, q = k + 1 := ⟨q - 1, by omega⟩
    obtain ⟨d, hdd⟩ : ∃ d, split_size = mv + d := ⟨split_size - mv, by omega⟩
    subst hdd
    simp only [Nat.add_sub_cancel_left] at hdm hlt
    have hfs : file_size = mv + (d * (k + 1) + r) := by omega
    by_cases hr0 : r = 0
    · simp only [hr0, if_true, Nat.add_sub_cancel] at *
      rw [hfs]; ring
    · simp only [hr0, if_false, Nat.add_sub_cancel] at *
      rw [hfs]; ring
  generalize (if (file_size - mv) % (split_size - mv) = 0 then split_size
        else mv + (file_size - mv) % (split_size - mv)) = L at hnat ⊢
  constructor
  · unfold SplitLaw
    simp only
    have hz : ((ceilParts file_size split_size mv - 1 : Nat) : Int)
        = (ceilParts file_size split_size mv : Int) - 1 := by
      rw [Nat.cast_sub hn1]; rfl
    have hnatz := congrArg (Nat.cast : Nat → Int) hnat
    push_cast at hnatz
    rw [hz] at hnatz
    linear_combination hnatz
  · rw [partLengths_sum _ hn1]
    exact hnat

/-- C3, witness: the example of the comment in `splitParts_` scaled to the real
header size, 14 blocks split at 5 blocks. -/
theorem splitParts_law_witness :
    ∃ r, splitParts_ 7168 2560 TarHeaderStyle.WithHeaders = some r ∧
      SplitLaw r 7168 ∧
      r.partLengths.sum = 7168 + (r.num_parts - 1) * r.mv_header_size :=
  splitParts_law 7168 2560 TarHeaderStyle.WithHeaders (by decide) (by decide)
    (by decide) (by decide)

/-- C3, counterexample to the law as stated for all sizes: an archive of `2^52`
bytes split at `2^20` bytes has `2^32` parts, which the 32 bit `num_parts` stores as
zero; the law then gives zero, and there is no part at all. -/
theorem splitParts_law_counterexample :
    mvHeaderSize TarHeaderStyle.None < 2 ^ 20 ∧ 2 ^ 20 < 2 ^ 52 ∧ 2 ^ 52 < SIZE_MOD ∧
    ∃ r, splitParts_ (2 ^ 52) (2 ^ 20) TarHeaderStyle.None = some r ∧
      r.num_parts = 0 ∧
      ¬ SplitLaw r (2 ^ 52) ∧
      ¬ (r.partLengths.sum = 2 ^ 52 + (r.num_parts - 1) * r.mv_header_size) := by
  refine ⟨by decide, by decide, by decide,
    ⟨{ num_parts := 0, part_size := 2 ^ 20, last_part_size := 2 ^ 20, mv_header_size := 0 },
      by decide, rfl, ?_, ?_⟩⟩
  · unfold SplitLaw; norm_num
  · unfold SplitResult.partLengths; norm_num

/-! ## Finalising an archive -/

/-- The value of `fixSize` on an archive that has to be split, when the number of
parts fits into a `uint`. -/
theorem fixSize_split_value (t : TarFile) (split_size : Nat) (ths : TarHeaderStyle)
    (h1 : mvHeaderSize ths < split_size) (h2 : split_size < t.current_tar_offset_)
    (h3 : t.current_tar_offset_ < SIZE_MOD)
    (h4 : ceilParts t.current_tar_offset_ split_size (mvHeaderSize ths) < UINT_MOD) :
    t.fixSize split_size ths = some
      { t with
        size_ := t.current_tar_offset_
        num_parts_ := ceilParts t.current_tar_offset_ split_size (mvHeaderSize ths)
        part_size_ := split_size
        last_part_size_ :=
          if (t.current_tar_offset_ - mvHeaderSize ths) % (split_size - mvHeaderSize ths) = 0
          then split_size
          else mvHeaderSize ths +
            (t.current_tar_offset_ - mvHeaderSize ths) % (split_size - mvHeaderSize ths)
        header_size_ := mvHeaderSize ths } := by
  unfold TarFile.fixSize splitParts_
  simp only
  rw [if_neg (by omega), splitPartsWith_value _ _ _ h1 h2 h3 h4]

/-- The value of `fixSize` on an archive that fits into one part. -/
theorem fixSize_single_value (t : TarFile) (split_size : Nat) (ths : TarHeaderStyle)
    (h2 : t.current_tar_offset_ ≤ split_size) :
    t.fixSize split_size ths = some
      { t with
        size_ := t.current_tar_offset_
        num_parts_ := 1
        part_size_ := t.current_tar_offset_
        header_size_ := 0 } := by
  unfold TarFile.fixSize
  simp only
  rw [if_pos h2]

theorem ceilParts_ge_two (file_size split_size mv : Nat) (h1 : mv < split_size)
    (h2 : split_size < file_size) : 2 ≤ ceilParts file_size split_size mv := by
  rw [ceilParts_eq _ _ _ h1]
  have hd : 0 < split_size - mv := by omega
  have hdm := Nat.div_add_mod (file_size - mv) (split_size - mv)
  have hq1 : 1 ≤ (file_size - mv) / (split_size - mv) :=
    (Nat.one_le_div_iff hd).2 (by omega)
  split
  · next h0 =>
    rw [h0] at hdm
    by_contra hlt
    have hq : (file_size - mv) / (split_size - mv) = 1 := by omega
    rw [hq] at hdm
    omega
  · omega

/-- C4 (as amended).  Number of parts: after `fixSize(split_size, style)` with
`split_size > mv`, on an archive whose size is below `2^64` and whose number of
parts `ceil((size - mv) / (split_size - mv))` fits into the 32 bit `num_parts`,
`num_parts = 1` exactly when the size is at most `split_size`; otherwise
`num_parts` is that rounded-up quotient and at least 2, and `last_part_size` is
`split_size` when `size - mv` is a multiple of `split_size - mv` and
`mv + ((size - mv) mod (split_size - mv))` otherwise.  The last line is the example
of the source comment with a header of one byte: 13 bytes split at 5 give 3 parts,
the last of 5 bytes. -/
theorem fixSize_num_parts (t : TarFile) (split_size : Nat) (ths : TarHeaderStyle)
    (h1 : mvHeaderSize ths < split_size)
    (h3 : t.current_tar_offset_ < SIZE_MOD)
    (h4 : ceilParts t.current_tar_offset_ split_size (mvHeaderSize ths) < UINT_MOD) :
    (∃ u, t.fixSize split_size ths = some u ∧
      u.size_ = t.current_tar_offset_ ∧
      (u.num_parts_ = 1 ↔ u.size_ ≤ split_size) ∧
      (split_size < u.size_ →
        u.num_parts_ = ceilParts u.size_ split_size (mvHeaderSize ths) ∧
        2 ≤ u.num_parts_ ∧
        u.last_part_size_ =
          if (u.size_ - mvHeaderSize ths) % (split_size - mvHeaderSize ths) = 0
          then split_size
          else mvHeaderSize ths +
            (u.size_ - mvHeaderSize ths) % (split_size - mvHeaderSize ths))) ∧
    splitPartsWith 13 5 1 = some
      { num_parts := 3, part_size := 5, last_part_size := 5, mv_header_size := 1 } := by
  refine ⟨?_, by decide⟩
  by_cases h2 : t.current_tar_offset_ ≤ split_size
  · refine ⟨_, fixSize_single_value t split_size ths h2, rfl, ?_, ?_⟩
    · simp only [true_iff]; exact h2
    · intro h; simp only at h; omega
  · have h2' : split_size < t.current_tar_offset_ := by omega
    have h5 := ceilParts_ge_two _ _ _ h1 h2'
    refine ⟨_, fixSize_split_value t split_size ths h1 h2' h3 h4, rfl, ?_, ?_⟩
    · simp only
      constructor
      · intro h; omega
      · intro h; omega
    · intro _
      exact ⟨rfl, h5, rfl⟩

/-- C4, witness (scenario S2 without headers): 13 bytes split at 5 give 3 parts, the
last of 3 bytes. -/
theorem fixSize_num_parts_witness :
    Option.map (fun u : TarFile => (u.num_parts_, u.last_part_size_))
        ({ TarFile.new none with current_tar_offset_ := 13 }.fixSize 5 TarHeaderStyle.None)
      = some (3, 3) ∧
    ((∃ u, { TarFile.new none with current_tar_offset_ := 13 }.fixSize 5 TarHeaderStyle.None
        = some u ∧
      u.size_ = 13 ∧
      (u.num_parts_ = 1 ↔ u.size_ ≤ 5) ∧
      (5 < u.size_ →
        u.num_parts_ = ceilParts u.size_ 5 (mvHeaderSize TarHeaderStyle.None) ∧
        2 ≤ u.num_parts_ ∧
        u.last_part_size_ =
          if (u.size_ - mvHeaderSize TarHeaderStyle.None) %
              (5 - mvHeaderSize TarHeaderStyle.None) = 0
          then 5
          else mvHeaderSize TarHeaderStyle.None +
            (u.size_ - mvHeaderSize TarHeaderStyle.None) %
              (5 - mvHeaderSize TarHeaderStyle.None))) ∧
    splitPartsWith 13 5 1 = some
      { num_parts := 3, part_size := 5, last_part_size := 5, mv_header_size := 1 }) :=
  ⟨by decide,
   fixSize_num_parts { TarFile.new none with current_tar_offset_ := 13 } 5 TarHeaderStyle.None
    (by decide) (by decide) (by decide)⟩

/-- C4, counterexample to the claim as stated for all sizes: an archive of `2^52`
bytes finalised with a split size of `2^20` bytes and no multi-volume headers needs
`2^32` parts; `num_parts` comes out as 0, neither that number nor at least 2. -/
theorem fixSize_num_parts_counterexample :
    mvHeaderSize TarHeaderStyle.None < 2 ^ 20 ∧
    ∃ u, { TarFile.new none with current_tar_offset_ := 2 ^ 52 }.fixSize (2 ^ 20)
        TarHeaderStyle.None = some u ∧
      u.size_ = 2 ^ 52 ∧ 2 ^ 20 < u.size_ ∧
      ceilParts u.size_ (2 ^ 20) (mvHeaderSize TarHeaderStyle.None) = 2 ^ 32 ∧
      u.num_parts_ = 0 ∧
      ¬ (u.num_parts_ = ceilParts u.size_ (2 ^ 20) (mvHeaderSize TarHeaderStyle.None) ∧
          2 ≤ u.num_parts_) := by
  refine ⟨by decide, _, rfl, ?_⟩
  decide

/-- The method `size` on an archive with at least two and fewer than `2^32` parts. -/
theorem size_of_split (u : TarFile) (i : Nat) (hn : 2 ≤ u.num_parts_)
    (hu : u.num_parts_ < UINT_MOD) (hi : i < u.num_parts_) :
    u.size i = some (if i + 1 < u.num_parts_ then u.part_size_ else u.last_part_size_) := by
  unfold TarFile.size
  rw [if_neg (by omega), if_neg (by omega), subU_eq hu (by omega)]
  by_cases h : i + 1 < u.num_parts_
  · rw [if_pos (by omega), if_pos h]
  · rw [if_neg (by omega), if_neg h]

/-- C5 (as amended).  Part sizes are bounded: after `fixSize(split_size, style)` with
`split_size > mv`, on an archive whose size is below `2^64` and whose number of
parts `ceil((size - mv) / (split_size - mv))` fits into the 32 bit `num_parts`,
every part `i < num_parts` has `size(i) <= split_size`; in a split archive every
part but the last has exactly `part_size = split_size` bytes, and the last has
`last_part_size` bytes with `header_size < last_part_size <= part_size`. -/
theorem fixSize_part_sizes (t : TarFile) (split_size : Nat) (ths : TarHeaderStyle)
    (h1 : mvHeaderSize ths < split_size)
    (h3 : t.current_tar_offset_ < SIZE_MOD)
    (h4 : ceilParts t.current_tar_offset_ split_size (mvHeaderSize ths) < UINT_MOD) :
    ∃ u, t.fixSize split_size ths = some u ∧
      (∀ i, i < u.num_parts_ → ∃ s, u.size i = some s ∧ s ≤ split_size) ∧
      (1 < u.num_parts_ →
        u.part_size_ = split_size ∧
        (∀ i, i + 1 < u.num_parts_ → u.size i = some u.part_size_) ∧
        u.size (u.num_parts_ - 1) = some u.last_part_size_ ∧
        u.header_size_ < u.last_part_size_ ∧
        u.last_part_size_ ≤ u.part_size_) := by
  by_cases h2 : t.current_tar_offset_ ≤ split_size
  · refine ⟨_, fixSize_single_value t split_size ths h2, ?_, ?_⟩
    · intro i hi
      simp only at hi
      refine ⟨t.current_tar_offset_, ?_, h2⟩
      unfold TarFile.size
      simp only
      rw [if_neg (by omega)]
      simp
    · intro h; simp only at h; omega
  · have h2' : split_size < t.current_tar_offset_ := by omega
    have h5 := ceilParts_ge_two _ _ _ h1 h2'
    have hd : 0 < split_size - mvHeaderSize ths := by omega
    have hlt := Nat.mod_lt (t.current_tar_offset_ - mvHeaderSize ths) hd
    have hlast : mvHeaderSize ths <
        (if (t.current_tar_offset_ - mvHeaderSize ths) % (split_size - mvHeaderSize ths) = 0
          then split_size
          else mvHeaderSize ths +
            (t.current_tar_offset_ - mvHeaderSize ths) % (split_size - mvHeaderSize ths)) ∧
        (if (t.current_tar_offset_ - mvHeaderSize ths) % (split_size - mvHeaderSize ths) = 0
          then split_size
          else mvHeaderSize ths +
            (t.current_tar_offset_ - mvHeaderSize ths) % (split_size - mvHeaderSize ths))
          ≤ split_size := by
      split <;> omega
    refine ⟨_, fixSize_split_value t split_size ths h1 h2' h3 h4, ?_, ?_⟩
    · intro i hi
      simp only at hi
      rw [size_of_split _ i h5 h4 hi]
      refine ⟨_, rfl, ?_⟩
      simp only
      split
      · exact le_refl _
      · exact hlast.2
    · intro _
      refine ⟨rfl, ?_, ?_, hlast.1, hlast.2⟩
      · intro i hi
        simp only at hi
        rw [size_of_split _ i h5 h4 (by simp only; omega)]
        simp only
        rw [if_pos hi]
      · rw [size_of_split _ _ h5 h4 (by simp only; omega)]
        simp only
        rw [if_neg (by omega)]

/-- C5, witness: an archive of 14 blocks finalised with a split size of 5 blocks and
multi-volume headers. -/
theorem fixSize_part_sizes_witness :
    ∃ u, { TarFile.new none with current_tar_offset_ := 7168 }.fixSize 2560
        TarHeaderStyle.WithHeaders = some u ∧
      (∀ i, i < u.num_parts_ → ∃ s, u.size i = some s ∧ s ≤ 2560) ∧
      (1 < u.num_parts_ →
        u.part_size_ = 2560 ∧
        (∀ i, i + 1 < u.num_parts_ → u.size i = some u.part_size_) ∧
        u.size (u.num_parts_ - 1) = some u.last_part_size_ ∧
        u.header_size_ < u.last_part_size_ ∧
        u.last_part_size_ ≤ u.part_size_) :=
  fixSize_part_sizes { TarFile.new none with current_tar_offset_ := 7168 } 2560
    TarHeaderStyle.WithHeaders (by decide) (by decide) (by decide)

/-- C5, counterexample to the claim as stated for all sizes: an archive of
`2^52 + 2^21` bytes finalised with a split size of `2^20` bytes and no multi-volume
headers needs `2^32 + 2` parts; `num_parts` comes out as 3 and the last of the three
parts has `2^52` bytes, far more than the split size. -/
theorem fixSize_part_sizes_counterexample :
    mvHeaderSize TarHeaderStyle.None < 2 ^ 20 ∧
    ∃ u, { TarFile.new none with current_tar_offset_ := 2 ^ 52 + 2 ^ 21 }.fixSize (2 ^ 20)
        TarHeaderStyle.None = some u ∧
      u.num_parts_ = 3 ∧
      u.size 2 = some (2 ^ 52) ∧
      ¬ (u.last_part_size_ ≤ u.part_size_) ∧
      ¬ (∀ i, i < u.num_parts_ → ∃ s, u.size i = some s ∧ s ≤ 2 ^ 20) := by
  refine ⟨by decide,
    { TarFile.new none with
      size_ := 2 ^ 52 + 2 ^ 21, current_tar_offset_ := 2 ^ 52 + 2 ^ 21,
      num_parts_ := 3, part_size_ := 2 ^ 20, last_part_size_ := 2 ^ 52,
      header_size_ := 0 },
    by decide, rfl, by decide, by decide, ?_⟩
  intro h
  obtain ⟨s, hs, hle⟩ := h 2 (by decide)
  have h2 : ({ TarFile.new none with
      size_ := 2 ^ 52 + 2 ^ 21, current_tar_offset_ := 2 ^ 52 + 2 ^ 21,
      num_parts_ := 3, part_size_ := 2 ^ 20, last_part_size_ := 2 ^ 52,
      header_size_ := 0 } : TarFile).size 2 = some (2 ^ 52) := by decide
  rw [h2] at hs
  injection hs with hs
  omega

/-! ## Offsets of a sequence of entries -/

theorem entryOffsets_length (es : List TarEntry) (s : Nat) :
    (entryOffsets s es).length = es.length := by
  induction es generalizing s with
  | nil => rfl
  | cons e rest ih => simp [entryOffsets, ih]

theorem totalBlocked_append (xs ys : List TarEntry) :
    totalBlocked (xs ++ ys) = totalBlocked xs + totalBlocked ys := by
  induction xs with
  | nil => simp [totalBlocked]
  | cons e rest ih => simp [totalBlocked, ih, Nat.add_assoc]

theorem entryOffsets_append_one (es : List TarEntry) (e : TarEntry) (s : Nat) :
    entryOffsets s (es ++ [e]) = entryOffsets s es ++ [s + totalBlocked es] := by
  induction es generalizing s with
  | nil => simp [entryOffsets, totalBlocked]
  | cons x rest ih => simp [entryOffsets, totalBlocked, ih, Nat.add_assoc]

theorem entryOffsets_shift (es : List TarEntry) (s b : Nat) :
    entryOffsets (s + b) es = (entryOffsets s es).map (fun x => x + b) := by
  induction es generalizing s with
  | nil => rfl
  | cons x rest ih =>
    simp only [entryOffsets, List.map_cons]
    rw [← ih]
    congr 2
    omega

theorem entryOffsets_mem_range (es : List TarEntry) (s x : Nat)
    (hpos : ∀ e ∈ es, 0 < e.blockedSize) (hx : x ∈ entryOffsets s es) :
    s ≤ x ∧ x < s + totalBlocked es := by
  induction es generalizing s with
  | nil => simp [entryOffsets] at hx
  | cons e rest ih =>
    simp only [entryOffsets, List.mem_cons] at hx
    have he : 0 < e.blockedSize := hpos e (List.mem_cons_self _ _)
    simp only [totalBlocked]
    rcases hx with hx | hx
    · omega
    · have := ih (s + e.blockedSize) (fun a ha => hpos a (List.mem_cons_of_mem _ ha)) hx
      omega

theorem entryOffsets_pairwise (es : List TarEntry) (s : Nat)
    (hpos : ∀ e ∈ es, 0 < e.blockedSize) :
    (entryOffsets s es).Pairwise (fun a b => a < b) := by
  induction es generalizing s with
  | nil => exact List.Pairwise.nil
  | cons e rest ih =>
    simp only [entryOffsets]
    have he : 0 < e.blockedSize := hpos e (List.mem_cons_self _ _)
    have hrest : ∀ a ∈ rest, 0 < a.blockedSize := fun a ha => hpos a (List.mem_cons_of_mem _ ha)
    refine List.Pairwise.cons ?_ (ih _ hrest)
    intro x hx
    have := (entryOffsets_mem_range rest _ x hrest hx).1
    omega

theorem entryOffsets_get (es : List TarEntry) (s i : Nat) (hi : i < es.length) :
    (entryOffsets s es).get? i = some (s + totalBlocked (es.take i)) := by
  induction es generalizing s i with
  | nil => simp at hi
  | cons e rest ih =>
    cases i with
    | zero => simp [entryOffsets, totalBlocked]
    | succ j =>
      simp only [entryOffsets, List.get?_cons_succ, List.take_succ_cons, totalBlocked]
      rw [ih (s + e.blockedSize) j (by simpa using hi)]
      simp [Nat.add_assoc]

theorem zip_map_fst_entryOffsets (es : List TarEntry) (s : Nat) :
    ((entryOffsets s es).zip es).map Prod.fst = entryOffsets s es := by
  rw [List.map_fst_zip]
  rw [entryOffsets_length]

theorem zip_map_snd_entryOffsets (es : List TarEntry) (s : Nat) :
    ((entryOffsets s es).zip es).map Prod.snd = es := by
  rw [List.map_snd_zip]
  rw [entryOffsets_length]

/-! ## The map operations on sorted keys -/

theorem mapSet_append {α : Type} (m : List (Nat × α)) (k : Nat) (v : α)
    (h : ∀ a ∈ m, a.1 < k) : mapSet m k v = m ++ [(k, v)] := by
  induction m with
  | nil => rfl
  | cons a rest ih =>
    obtain ⟨k1, v1⟩ := a
    have hk : k1 < k := h (k1, v1) (List.mem_cons_self _ _)
    simp only [mapSet]
    rw [if_neg (by omega), if_neg (by omega)]
    rw [ih (fun b hb => h b (List.mem_cons_of_mem _ hb))]
    rfl

theorem mapGet_zip {α : Type} (ks : List Nat) (vs : List α) (i : Nat) (k : Nat) (v : α)
    (hnd : ks.Pairwise (fun a b => a < b)) (hk : ks.get? i = some k)
    (hv : vs.get? i = some v) : mapGet (ks.zip vs) k = some v := by
  induction ks generalizing vs i with
  | nil => simp at hk
  | cons k1 krest ih =>
    cases vs with
    | nil => simp at hv
    | cons v1 vrest =>
      simp only [List.zip_cons_cons, mapGet]
      cases i with
      | zero =>
        simp only [List.get?_cons_zero, Option.some.injEq] at hk hv
        rw [if_pos hk.symm, hv]
      | succ j =>
        simp only [List.get?_cons_succ] at hk hv
        have hmem : k ∈ krest := List.get?_mem hk
        have hlt : k1 < k := (List.pairwise_cons.1 hnd).1 k hmem
        rw [if_neg (by omega)]
        exact ih vrest j (List.pairwise_cons.1 hnd).2 hk hv

/-! ## Building an archive -/

theorem addEntryLast_built (t : TarFile) (es : List TarEntry) (e : TarEntry)
    (hb : t.Built es) (hpos : ∀ a ∈ es, 0 < a.blockedSize)
    (hfit : totalBlocked es + e.blockedSize < SIZE_MOD) :
    (t.addEntryLast e).Built (es ++ [e]) := by
  obtain ⟨hc, ho, hcur⟩ := hb
  unfold TarFile.Built TarFile.addEntryLast
  simp only
  rw [hc, ho, hcur, entryOffsets_append_one, totalBlocked_append, Nat.zero_add]
  refine ⟨?_, rfl, ?_⟩
  · rw [mapSet_append]
    · rw [List.zip_append (entryOffsets_length es 0)]
      rfl
    · intro a ha
      have hmem : a.1 ∈ entryOffsets 0 es := by
        have := List.mem_map_of_mem Prod.fst ha
        rwa [zip_map_fst_entryOffsets] at this
      have := (entryOffsets_mem_range es 0 a.1 hpos hmem).2
      omega
  · rw [addSz_eq hfit]
    simp [totalBlocked]

theorem addEntryFirstLoop_value (bs : Nat) (rest newc : List (Nat × TarEntry))
    (newo : List Nat)
    (hsorted : (rest.map Prod.fst).Pairwise (fun a b => a < b))
    (hnew : ∀ a ∈ newc, ∀ b ∈ rest, a.1 < b.1 + bs)
    (hfit : ∀ b ∈ rest, b.1 + bs < SIZE_MOD) :
    addEntryFirstLoop bs rest (newc, newo) =
      (newc ++ rest.map (fun a => (a.1 + bs, a.2)), newo ++ rest.map (fun a => a.1 + bs)) := by
  induction rest generalizing newc newo with
  | nil => simp [addEntryFirstLoop]
  | cons a tl ih =>
    simp only [addEntryFirstLoop]
    have ha : addSz a.1 bs = a.1 + bs := addSz_eq (hfit a (List.mem_cons_self _ _))
    rw [ha]
    rw [mapSet_append newc (a.1 + bs) a.2 (fun x hx => hnew x hx a (List.mem_cons_self _ _))]
    have hs := List.pairwise_cons.1 (by simpa using hsorted :
      List.Pairwise (fun a b => a < b) (a.1 :: tl.map Prod.fst))
    rw [ih (newc ++ [(a.1 + bs, a.2)]) (newo ++ [a.1 + bs]) hs.2 ?_
      (fun b hb => hfit b (List.mem_cons_of_mem _ hb))]
    · simp
    · intro x hx b hb
      rw [List.mem_append] at hx
      rcases hx with hx | hx
      · exact hnew x hx b (List.mem_cons_of_mem _ hb)
      · simp only [List.mem_singleton] at hx
        subst hx
        have := hs.1 b.1 (List.mem_map_of_mem Prod.fst hb)
        simp only
        omega

theorem addEntryFirst_built (t : TarFile) (es : List TarEntry) (e : TarEntry)
    (hb : t.Built es) (hpos : ∀ a ∈ es, 0 < a.blockedSize) (he : 0 < e.blockedSize)
    (hfit : totalBlocked es + e.blockedSize < SIZE_MOD) :
    (t.addEntryFirst e).Built (e :: es) := by
  obtain ⟨hc, ho, hcur⟩ := hb
  have hkeys : ∀ b ∈ (entryOffsets 0 es).zip es, b.1 < totalBlocked es := by
    intro b hb
    have hmem : b.1 ∈ entryOffsets 0 es := by
      have := List.mem_map_of_mem Prod.fst hb
      rwa [zip_map_fst_entryOffsets] at this
    have := (entryOffsets_mem_range es 0 b.1 hpos hmem).2
    omega
  have hloop := addEntryFirstLoop_value e.blockedSize ((entryOffsets 0 es).zip es)
    (mapSet [] 0 e) [0]
    (by rw [zip_map_fst_entryOffsets]; exact entryOffsets_pairwise es 0 hpos)
    (by
      intro a ha b _
      simp only [mapSet, List.mem_singleton] at ha
      subst ha
      simp only
      omega)
    (by
      intro b hb
      have := hkeys b hb
      omega)
  unfold TarFile.Built TarFile.addEntryFirst
  simp only
  rw [hc, hloop, hcur]
  have hshift : entryOffsets (0 + e.blockedSize) es
      = (entryOffsets 0 es).map (fun x => x + e.blockedSize) := entryOffsets_shift es 0 _
  refine ⟨?_, ?_, ?_⟩
  · simp only [entryOffsets, mapSet, hshift, List.zip_cons_cons, List.singleton_append,
      List.cons.injEq, true_and]
    rw [List.zip_map_left]
    apply List.map_congr_left
    intro a _
    rfl
  · simp only [entryOffsets, hshift, List.singleton_append, List.cons.injEq, true_and]
    have h := congrArg (List.map (fun x => x + e.blockedSize)) (zip_map_fst_entryOffsets es 0)
    rw [List.map_map] at h
    rw [← h]
    rfl
  · rw [addSz_eq hfit]
    simp only [totalBlocked]
    omega

theorem totalBlocked_le_opsEntries (ops : List BuildOp) (es : List TarEntry) :
    totalBlocked es ≤ totalBlocked (opsEntries es ops) := by
  induction ops generalizing es with
  | nil => exact le_refl _
  | cons op rest ih =>
    cases op with
    | last e =>
      simp only [opsEntries]
      refine le_trans ?_ (ih (es ++ [e]))
      rw [totalBlocked_append]
      omega
    | first e =>
      simp only [opsEntries]
      refine le_trans ?_ (ih (e :: es))
      simp only [totalBlocked]
      omega

theorem runOps_built (ops : List BuildOp) (t : TarFile) (es : List TarEntry)
    (hb : t.Built es) (hpos : ∀ a ∈ es, 0 < a.blockedSize)
    (hops : ∀ op ∈ ops, 0 < op.entry.blockedSize)
    (hfit : totalBlocked (opsEntries es ops) < SIZE_MOD) :
    (runOps t ops).Built (opsEntries es ops) ∧
      ∀ a ∈ opsEntries es ops, 0 < a.blockedSize := by
  induction ops generalizing t es with
  | nil => exact ⟨hb, hpos⟩
  | cons op rest ih =>
    have hop : 0 < op.entry.blockedSize := hops op (List.mem_cons_self _ _)
    have hrest : ∀ o ∈ rest, 0 < o.entry.blockedSize :=
      fun o ho => hops o (List.mem_cons_of_mem _ ho)
    cases op with
    | last e =>
      simp only [opsEntries, runOps] at hfit ⊢
      have hle := totalBlocked_le_opsEntries rest (es ++ [e])
      rw [totalBlocked_append] at hle
      simp only [totalBlocked, Nat.add_zero] at hle
      refine ih (t.addEntryLast e) (es ++ [e])
        (addEntryLast_built t es e hb hpos (by omega)) ?_ hrest hfit
      intro a ha
      rw [List.mem_append] at ha
      rcases ha with ha | ha
      · exact hpos a ha
      · simp only [List.mem_singleton] at ha
        subst ha
        exact hop
    | first e =>
      simp only [opsEntries, runOps] at hfit ⊢
      have hle := totalBlocked_le_opsEntries rest (e :: es)
      simp only [totalBlocked] at hle
      refine ih (t.addEntryFirst e) (e :: es)
        (addEntryFirst_built t es e hb hpos hop (by omega)) ?_ hrest hfit
      intro a ha
      rw [List.mem_cons] at ha
      rcases ha with ha | ha
      · subst ha
        exact hop
      · exact hpos a ha

/-- The assertion at tarfile.cc:567 never fails: the splitter returns whenever the
split size exceeds the header size. -/
theorem splitPartsWith_returns (file_size split_size mv : Nat) (h : mv < split_size) :
    ∃ r, splitPartsWith file_size split_size mv = some r := by
  unfold splitPartsWith
  simp only [gt_iff_lt, not_lt]
  rw [if_neg (by omega)]
  generalize hn : toU (subSz file_size mv / subSz split_size mv) = n
  have hnlt : n < UINT_MOD := by
    rw [← hn]; unfold toU; exact Nat.mod_lt _ (by decide)
  have hsub : subU (toU (n + 1)) 2 = subU n 1 := by
    simp only [subU_mod]
    unfold toU UINT_MOD at *
    omega
  rw [hsub]
  generalize mulSz (subU n 1) (subSz split_size mv) = X
  by_cases hs : addSz split_size X = file_size
  · rw [if_pos hs]; exact ⟨_, rfl⟩
  · rw [if_neg hs]
    have hassert : subSz (addSz mv file_size) (addSz split_size X) =
        addSz (subSz (subSz file_size split_size) X) mv := by
      simp only [subSz_mod]
      unfold addSz SIZE_MOD
      omega
    rw [if_pos hassert]
    exact ⟨_, rfl⟩

theorem fixSize_returns (t : TarFile) (split_size : Nat) (ths : TarHeaderStyle)
    (h : mvHeaderSize ths < split_size) : ∃ u, t.fixSize split_size ths = some u := by
  unfold TarFile.fixSize splitParts_
  simp only
  split
  · exact ⟨_, rfl⟩
  · obtain ⟨r, hr⟩ := splitPartsWith_returns t.current_tar_offset_ split_size _ h
    rw [hr]
    exact ⟨_, rfl⟩

theorem fixSize_size (t u : TarFile) (split_size : Nat) (ths : TarHeaderStyle)
    (h : t.fixSize split_size ths = some u) :
    u.size_ = t.current_tar_offset_ ∧ u.contents_ = t.contents_ ∧ u.offsets = t.offsets ∧
      u.current_tar_offset_ = t.current_tar_offset_ ∧ u.tar_entry_ = t.tar_entry_ := by
  unfold TarFile.fixSize at h
  simp only at h
  split at h
  · injection h with h; subst h; exact ⟨rfl, rfl, rfl, rfl, rfl⟩
  · split at h
    · exact absurd h (by simp)
    · injection h with h; subst h; exact ⟨rfl, rfl, rfl, rfl, rfl⟩

theorem built_offsetInvariant (t : TarFile) (es : List TarEntry) (hb : t.Built es)
    (hpos : ∀ a ∈ es, 0 < a.blockedSize) : t.entries = es ∧ t.OffsetInvariant := by
  obtain ⟨hc, ho, hcur⟩ := hb
  have he : t.entries = es := by
    unfold TarFile.entries
    rw [hc, zip_map_snd_entryOffsets]
  refine ⟨he, ?_, ?_, ?_, ?_⟩
  · rw [hc, ho, zip_map_fst_entryOffsets]
  · rw [he, ho]
  · rw [he]; exact hpos
  · rw [he, hcur]

theorem new_built (te : Option TarEntry) : (TarFile.new te).Built [] :=
  ⟨rfl, rfl, rfl⟩

/-- C7 (as amended).  Offset invariant: for every archive built from the empty one
by any sequence of `addEntryLast` and `addEntryFirst` calls with entries of positive
`blockedSize()` whose blocked sizes sum to less than `2^64`, the entries lie in
`contents_` in stream order, the offsets vector has the same keys as `contents_`,
is strictly increasing, starts at 0, each offset is the sum of the blocked sizes of
the entries before it, and `current_tar_offset_` is the sum of all blocked sizes;
`fixSize` returns whenever the split size exceeds the header size, and after it
`size_` is that sum. -/
theorem build_offset_invariant (te : Option TarEntry) (ops : List BuildOp)
    (hpos : ∀ op ∈ ops, 0 < op.entry.blockedSize)
    (hfit : totalBlocked (opsEntries [] ops) < SIZE_MOD) :
    (runOps (TarFile.new te) ops).entries = opsEntries [] ops ∧
    (runOps (TarFile.new te) ops).OffsetInvariant ∧
    (runOps (TarFile.new te) ops).offsets.Pairwise (fun a b => a < b) ∧
    (ops ≠ [] → (runOps (TarFile.new te) ops).offsets.head? = some 0) ∧
    (∀ i, i < (runOps (TarFile.new te) ops).entries.length →
      (runOps (TarFile.new te) ops).offsets.get? i =
        some (totalBlocked ((runOps (TarFile.new te) ops).entries.take i))) ∧
    (runOps (TarFile.new te) ops).current_tar_offset_ =
      totalBlocked (runOps (TarFile.new te) ops).entries ∧
    (∀ split_size ths u, (runOps (TarFile.new te) ops).fixSize split_size ths = some u →
      u.size_ = totalBlocked (runOps (TarFile.new te) ops).entries) ∧
    (∀ split_size ths, mvHeaderSize ths < split_size →
      ∃ u, (runOps (TarFile.new te) ops).fixSize split_size ths = some u) := by
  obtain ⟨hb, hp⟩ := runOps_built ops (TarFile.new te) [] (new_built te)
    (fun a ha => absurd ha (List.not_mem_nil a)) hpos hfit
  obtain ⟨he, hinv⟩ := built_offsetInvariant _ _ hb hp
  generalize runOps (TarFile.new te) ops = t at *
  obtain ⟨_, ho, hcur⟩ := hb
  refine ⟨he, hinv, ?_, ?_, ?_, ?_, ?_, ?_⟩
  · rw [ho]; exact entryOffsets_pairwise _ _ hp
  · intro hne
    rw [ho]
    have hlen : 0 < (opsEntries [] ops).length := by
      cases ops with
      | nil => exact absurd rfl hne
      | cons op rest =>
        have h1 := totalBlocked_le_opsEntries rest (opsEntries [] [op])
        have h2 : 0 < totalBlocked (opsEntries [] [op]) := by
          have := hpos op (List.mem_cons_self _ _)
          cases op <;> simpa [opsEntries, totalBlocked, BuildOp.entry] using this
        have h3 : opsEntries [] (op :: rest) = opsEntries (opsEntries [] [op]) rest := by
          cases op <;> rfl
        rw [h3]
        cases hx : opsEntries (opsEntries [] [op]) rest with
        | nil => rw [hx] at h1; simp [totalBlocked] at h1; omega
        | cons a l => simp
    cases hx : opsEntries [] ops with
    | nil => rw [hx] at hlen; simp at hlen
    | cons a l => simp [entryOffsets]
  · intro i hi
    rw [he] at hi ⊢
    rw [ho, entryOffsets_get _ _ _ hi, Nat.zero_add]
  · rw [he, hcur]
  · intro split_size ths u hu
    rw [(fixSize_size t u split_size ths hu).1, he, hcur]
  · intro split_size ths h
    exact fixSize_returns t split_size ths h

/-- C7, witness: two files appended and their directory prepended. -/
theorem build_offset_invariant_witness :
    (∀ op ∈ exampleOps, 0 < op.entry.blockedSize) ∧
    totalBlocked (opsEntries [] exampleOps) < SIZE_MOD ∧
    (runOps (TarFile.new none) exampleOps).offsets = [0, 512, 1536] ∧
    (runOps (TarFile.new none) exampleOps).OffsetInvariant ∧
    (runOps (TarFile.new none) exampleOps).current_tar_offset_ =
      totalBlocked (runOps (TarFile.new none) exampleOps).entries :=
  ⟨by decide, by decide, by decide,
   (build_offset_invariant none exampleOps (by decide) (by decide)).2.1,
   (build_offset_invariant none exampleOps (by decide) (by decide)).2.2.2.2.2.1⟩

/-- C7, counterexample to the claim as stated for all entries: appending two entries
of `2^63` bytes each makes the 64 bit accumulator wrap to 0, which is neither the sum
of the blocked sizes nor, after `fixSize`, the size of the archive. -/
theorem build_offset_invariant_counterexample :
    0 < hugeEntry.blockedSize ∧
    totalBlocked (opsEntries [] [BuildOp.last hugeEntry, BuildOp.last hugeEntry]) = 2 ^ 64 ∧
    (runOps (TarFile.new none)
      [BuildOp.last hugeEntry, BuildOp.last hugeEntry]).current_tar_offset_ = 0 ∧
    ((runOps (TarFile.new none) [BuildOp.last hugeEntry, BuildOp.last hugeEntry]).fixSize
      (2 ^ 20) TarHeaderStyle.None).map (fun u => u.size_) = some 0 ∧
    ¬ ((runOps (TarFile.new none)
        [BuildOp.last hugeEntry, BuildOp.last hugeEntry]).current_tar_offset_ =
      totalBlocked (runOps (TarFile.new none)
        [BuildOp.last hugeEntry, BuildOp.last hugeEntry]).entries) := by
  refine ⟨by decide, by decide, by decide, by decide, by decide⟩

/-! ## Binary search -/

theorem getD_mono (v : List Nat) (hs : v.Pairwise (fun a b => a < b)) (i j : Nat)
    (hij : i ≤ j) (hj : j < v.length) : v.getD i 0 ≤ v.getD j 0 := by
  rcases Nat.eq_or_lt_of_le hij with h | h
  · subst h; exact le_refl _
  · have hi : i < v.length := by omega
    rw [List.getD_eq_getElem v 0 hi, List.getD_eq_getElem v 0 hj]
    exact Nat.le_of_lt (List.pairwise_iff_getElem.1 hs i j hi hj h)

/-- On a strictly increasing vector the loop of `lower_bound` ends at the partition
point of the window it is given. -/
theorem lowerBoundLoop_spec (v : List Nat) (value : Nat)
    (hs : v.Pairwise (fun a b => a < b)) (fuel : Nat) :
    ∀ first len, len ≤ fuel → first + len ≤ v.length →
      (∀ i, i < first → v.getD i 0 ≤ value) →
      (∀ i, first + len ≤ i → i < v.length → value < v.getD i 0) →
      lowerBoundLoop v value fuel first len ≤ v.length ∧
      (∀ i, i < lowerBoundLoop v value fuel first len → v.getD i 0 ≤ value) ∧
      (∀ i, lowerBoundLoop v value fuel first len ≤ i → i < v.length →
        value < v.getD i 0) := by
  induction fuel with
  | zero =>
    intro first len hlen hbound hlow hhigh
    have h0 : len = 0 := by omega
    subst h0
    simp only [lowerBoundLoop]
    exact ⟨by omega, hlow, fun i hi hl => hhigh i (by omega) hl⟩
  | succ fuel ih =>
    intro first len hlen hbound hlow hhigh
    simp only [lowerBoundLoop]
    by_cases h0 : len = 0
    · rw [if_pos h0]
      subst h0
      exact ⟨by omega, hlow, fun i hi hl => hhigh i (by omega) hl⟩
    · rw [if_neg h0]
      have hhalf : len / 2 < len := Nat.div_lt_self (by omega) (by decide)
      have hmid : first + len / 2 < v.length := by omega
      by_cases hc : v.getD (first + len / 2) 0 ≤ value
      · rw [if_pos hc]
        apply ih (first + len / 2 + 1) (len - len / 2 - 1) (by omega) (by omega)
        · intro i hi
          by_cases hif : i < first
          · exact hlow i hif
          · exact le_trans (getD_mono v hs i (first + len / 2) (by omega) hmid) hc
        · intro i hi hl
          exact hhigh i (by omega) hl
      · rw [if_neg hc]
        apply ih first (len / 2) (by omega) (by omega) hlow
        intro i hi hl
        have := getD_mono v hs (first + len / 2) i hi hl
        omega

/-- The index returned by `lower_bound` on a strictly increasing vector: everything
before it is at most `value`, everything from it on is larger. -/
theorem lower_bound_spec (v : List Nat) (value : Nat) (hs : v.Pairwise (fun a b => a < b)) :
    lower_bound v value ≤ v.length ∧
    (∀ i, i < lower_bound v value → v.getD i 0 ≤ value) ∧
    (∀ i, lower_bound v value ≤ i → i < v.length → value < v.getD i 0) := by
  unfold lower_bound
  exact lowerBoundLoop_spec v value hs v.length 0 v.length (le_refl _) (by omega)
    (fun i hi => absurd hi (Nat.not_lt_zero i)) (fun i hi hl => absurd hl (by omega))

/-! ## Finding the entry at an offset -/

theorem offsetInvariant_built (t : TarFile) (hinv : t.OffsetInvariant) :
    t.Built t.entries := by
  obtain ⟨hk, ho, _, hcur⟩ := hinv
  refine ⟨?_, ho, hcur⟩
  rw [← ho]
  exact List.zip_of_prod hk rfl

theorem totalBlocked_take_succ (es : List TarEntry) (j : Nat) (e : TarEntry)
    (he : es.get? j = some e) :
    totalBlocked (es.take (j + 1)) = totalBlocked (es.take j) + e.blockedSize := by
  rw [List.get?_eq_getElem?] at he
  rw [List.take_succ, he, totalBlocked_append]
  simp [totalBlocked]

theorem totalBlocked_take_length (es : List TarEntry) :
    totalBlocked (es.take es.length) = totalBlocked es := by
  rw [List.take_length]

theorem entryOffsets_getD (es : List TarEntry) (i : Nat) (hi : i < es.length) :
    (entryOffsets 0 es).getD i 0 = totalBlocked (es.take i) := by
  rw [List.getD_eq_getElem?_getD, ← List.get?_eq_getElem?, entryOffsets_get es 0 i hi]
  simp

/-- What `findTarEntry` returns for an offset up to the size of a finalised,
non-empty archive that satisfies the offset invariant. -/
theorem findTarEntry_core (t : TarFile) (o : Nat) (hinv : t.OffsetInvariant)
    (hne : t.entries ≠ []) (ho : o ≤ t.size_) :
    ∃ j e, t.entries.get? j = some e ∧
      t.offsets.get? j = some (totalBlocked (t.entries.take j)) ∧
      t.findTarEntry o = some (some e, totalBlocked (t.entries.take j)) ∧
      mapGet t.contents_ (totalBlocked (t.entries.take j)) = some e ∧
      totalBlocked (t.entries.take j) ≤ o ∧
      (∀ x ∈ t.offsets, x ≤ o → x ≤ totalBlocked (t.entries.take j)) ∧
      (j + 1 < t.entries.length → o < totalBlocked (t.entries.take j) + e.blockedSize) ∧
      (j + 1 = t.entries.length →
        totalBlocked (t.entries.take j) + e.blockedSize = totalBlocked t.entries) := by
  obtain ⟨hc, hoff, _⟩ := offsetInvariant_built t hinv
  obtain ⟨_, _, hpos, _⟩ := hinv
  have hlenpos : 0 < t.entries.length := List.length_pos.2 hne
  have hvlen : t.offsets.length = t.entries.length := by rw [hoff, entryOffsets_length]
  have hsorted : t.offsets.Pairwise (fun a b => a < b) := by
    rw [hoff]; exact entryOffsets_pairwise _ _ hpos
  obtain ⟨hr1, hr2, hr3⟩ := lower_bound_spec t.offsets o hsorted
  have hgetD : ∀ i, i < t.entries.length →
      t.offsets.getD i 0 = totalBlocked (t.entries.take i) := by
    intro i hi; rw [hoff]; exact entryOffsets_getD _ i hi
  have hget : ∀ i, i < t.entries.length →
      t.offsets.get? i = some (totalBlocked (t.entries.take i)) := by
    intro i hi; rw [hoff, entryOffsets_get _ 0 i hi, Nat.zero_add]
  have hrpos : 0 < lower_bound t.offsets o := by
    by_contra h
    have h0 : lower_bound t.offsets o = 0 := by omega
    have := hr3 0 (by omega) (by omega)
    rw [hgetD 0 hlenpos] at this
    simp [totalBlocked] at this
  generalize hr : lower_bound t.offsets o = r at *
  have hj : r - 1 < t.entries.length := by omega
  obtain ⟨e, he⟩ : ∃ e, t.entries.get? (r - 1) = some e :=
    ⟨t.entries.get ⟨r - 1, hj⟩, List.get?_eq_get hj⟩
  have hfind : t.findTarEntry o = some (some e, totalBlocked (t.entries.take (r - 1))) := by
    have hmap : mapGet t.contents_ (totalBlocked (t.entries.take (r - 1))) = some e := by
      rw [hc]
      exact mapGet_zip _ _ (r - 1) _ e (by rw [← hoff]; exact hsorted)
        (by rw [← hoff]; exact hget _ hj) he
    unfold TarFile.findTarEntry
    rw [if_neg (by omega)]
    simp only [hr]
    by_cases hend : r = t.offsets.length
    · rw [if_pos hend, List.getLast?_eq_getElem?, ← List.get?_eq_getElem?, ← hend, hget _ hj]
      simp only [hmap]
    · rw [if_neg hend, if_neg (by omega), hget _ hj]
      simp only [hmap]
  refine ⟨r - 1, e, he, hget _ hj, hfind, ?_, ?_, ?_, ?_, ?_⟩
  · rw [hc]
    exact mapGet_zip _ _ (r - 1) _ e (by rw [← hoff]; exact hsorted)
      (by rw [← hoff]; exact hget _ hj) he
  · have := hr2 (r - 1) (by omega)
    rwa [hgetD _ hj] at this
  · intro x hx hxo
    obtain ⟨i, hi⟩ := List.mem_iff_get?.1 hx
    have hil : i < t.offsets.length := by
      by_contra hcon
      rw [List.get?_eq_none.2 (by omega)] at hi
      exact absurd hi (by simp)
    have hxi : t.offsets.getD i 0 = x := by
      rw [List.getD_eq_getElem?_getD, ← List.get?_eq_getElem?, hi]; rfl
    have hir : i < r := by
      by_contra hcon
      have := hr3 i (by omega) hil
      omega
    have := getD_mono t.offsets hsorted i (r - 1) (by omega) (by omega)
    rw [hxi, hgetD _ hj] at this
    exact this
  · intro hlt
    have h1 := hr3 r (le_refl _) (by omega)
    rw [hgetD r (by omega)] at h1
    have h2 := totalBlocked_take_succ t.entries (r - 1) e he
    have h3 : r - 1 + 1 = r := by omega
    rw [h3] at h2
    omega
  · intro heq
    have h2 := totalBlocked_take_succ t.entries (r - 1) e he
    rw [heq, totalBlocked_take_length] at h2
    omega

/-- C8.  `findTarEntry` locates the containing entry: for every finalised non-empty
archive that satisfies the offset invariant and every `o < size`, `findTarEntry(o)`
returns a pair `(e, off)` with `off` in `offsets`, `contents[off] = e` and
`off <= o < off + e.blockedSize()`; `off` is the greatest offset that is `<= o`. -/
theorem findTarEntry_locates (t : TarFile) (o : Nat) (hinv : t.OffsetInvariant)
    (hfin : t.size_ = t.current_tar_offset_) (hne : t.entries ≠ []) (ho : o < t.size_) :
    ∃ e off, t.findTarEntry o = some (some e, off) ∧
      off ∈ t.offsets ∧
      mapGet t.contents_ off = some e ∧
      off ≤ o ∧ o < off + e.blockedSize ∧
      ∀ x ∈ t.offsets, x ≤ o → x ≤ off := by
  obtain ⟨j, e, he, hoj, hfind, hmap, hle, hmax, hlt, hlast⟩ :=
    findTarEntry_core t o hinv hne (Nat.le_of_lt ho)
  refine ⟨e, _, hfind, List.get?_mem hoj, hmap, hle, ?_, hmax⟩
  have hj : j < t.entries.length := by
    by_contra hcon
    rw [List.get?_eq_none.2 (by omega)] at he
    exact absurd he (by simp)
  by_cases h : j + 1 < t.entries.length
  · exact hlt h
  · have := hlast (by omega)
    rw [this, ← hinv.2.2.2, ← hfin]
    exact ho

theorem exampleArchive_invariant : exampleArchive.OffsetInvariant := by
  unfold TarFile.OffsetInvariant
  decide

/-- C8, witness: offset 2000 of the example archive lies in its second file, which
starts at offset 1536. -/
theorem findTarEntry_locates_witness :
    exampleArchive.findTarEntry 2000 = some (some (fileEntry ['d', '/', 'b'] 3), 1536) ∧
    ∃ e off, exampleArchive.findTarEntry 2000 = some (some e, off) ∧
      off ∈ exampleArchive.offsets ∧
      mapGet exampleArchive.contents_ off = some e ∧
      off ≤ 2000 ∧ 2000 < off + e.blockedSize ∧
      ∀ x ∈ exampleArchive.offsets, x ≤ 2000 → x ≤ off :=
  ⟨by decide,
   findTarEntry_locates exampleArchive 2000 exampleArchive_invariant (by decide) (by decide)
    (by decide)⟩

/-- C9 (as amended).  `findTarEntry` at and past the end: for a finalised non-empty
archive that satisfies the offset invariant, `findTarEntry(size)` returns the last
entry together with its offset, although that entry ends exactly at `size` and so has
no byte there (its own copy serves nothing at that position); for every `o > size`,
on any archive, `findTarEntry(o)` returns no entry. -/
theorem findTarEntry_at_end (t : TarFile) (hinv : t.OffsetInvariant)
    (hfin : t.size_ = t.current_tar_offset_) (hne : t.entries ≠ []) :
    (∃ e off, t.findTarEntry t.size_ = some (some e, off) ∧
      t.entries.getLast? = some e ∧ t.offsets.getLast? = some off ∧
      off + e.blockedSize = t.size_ ∧
      ∀ framed bufsize, e.copy framed bufsize (t.size_ - off) = []) ∧
    ∀ (s : TarFile) (o : Nat), o > s.size_ → s.findTarEntry o = some (none, 0) := by
  constructor
  · obtain ⟨j, e, he, hoj, hfind, hmap, hle, hmax, hlt, hlast⟩ :=
      findTarEntry_core t t.size_ hinv hne (le_refl _)
    have hj : j < t.entries.length := by
      by_contra hcon
      rw [List.get?_eq_none.2 (by omega)] at he
      exact absurd he (by simp)
    have hvlen : t.offsets.length = t.entries.length := by
      rw [hinv.2.1, entryOffsets_length]
    have hjl : j + 1 = t.entries.length := by
      by_contra hcon
      have h1 := hlt (by omega)
      have h2 := totalBlocked_take_succ t.entries j e he
      have h3 : totalBlocked (t.entries.take (j + 1)) ≤ totalBlocked t.entries := by
        have := totalBlocked_append (t.entries.take (j + 1)) (t.entries.drop (j + 1))
        rw [List.take_append_drop] at this
        omega
      rw [hfin, hinv.2.2.2] at h1
      omega
    have hend := hlast hjl
    have hjeq : j = t.entries.length - 1 := by omega
    refine ⟨e, _, hfind, ?_, ?_, ?_, ?_⟩
    · rw [List.getLast?_eq_getElem?, ← List.get?_eq_getElem?, ← hjeq]; exact he
    · rw [List.getLast?_eq_getElem?, ← List.get?_eq_getElem?, hvlen, ← hjeq]; exact hoj
    · rw [hend, hfin, hinv.2.2.2]
    · intro framed bufsize
      unfold TarEntry.copy
      rw [if_neg]
      rw [hfin, hinv.2.2.2]
      omega
  · intro s o ho
    unfold TarFile.findTarEntry
    rw [if_pos ho]

/-- C9, witness: the example archive has 3584 bytes and its last file starts at
offset 1536. -/
theorem findTarEntry_at_end_witness :
    exampleArchive.size_ = 3584 ∧
    exampleArchive.findTarEntry 3584 = some (some (fileEntry ['d', '/', 'b'] 3), 1536) ∧
    ((∃ e off, exampleArchive.findTarEntry exampleArchive.size_ = some (some e, off) ∧
      exampleArchive.entries.getLast? = some e ∧ exampleArchive.offsets.getLast? = some off ∧
      off + e.blockedSize = exampleArchive.size_ ∧
      ∀ framed bufsize, e.copy framed bufsize (exampleArchive.size_ - off) = []) ∧
    ∀ (s : TarFile) (o : Nat), o > s.size_ → s.findTarEntry o = some (none, 0)) :=
  ⟨by decide, by decide,
   findTarEntry_at_end exampleArchive exampleArchive_invariant (by decide) (by decide)⟩

/-- C9, counterexample to the claim as stated: at `o = size` the example archive
returns its last entry, not null, although that entry has no byte at `o`: it occupies
offsets 1536 up to 3584 and a read of it at that position serves nothing. -/
theorem findTarEntry_at_end_counterexample :
    exampleArchive.OffsetInvariant ∧
    exampleArchive.size_ = 3584 ∧
    exampleArchive.findTarEntry exampleArchive.size_ =
      some (some (fileEntry ['d', '/', 'b'] 3), 1536) ∧
    1536 + (fileEntry ['d', '/', 'b'] 3).blockedSize = 3584 ∧
    (fileEntry ['d', '/', 'b'] 3).copy exampleFramed 512 (3584 - 1536) = [] ∧
    ¬ (∃ off, exampleArchive.findTarEntry exampleArchive.size_ = some (none, off)) := by
  refine ⟨exampleArchive_invariant, by decide, by decide, by decide, by decide, ?_⟩
  intro h
  obtain ⟨off, hoff⟩ := h
  have h2 : exampleArchive.findTarEntry exampleArchive.size_ =
      some (some (fileEntry ['d', '/', 'b'] 3), 1536) := by decide
  rw [h2] at hoff
  exact absurd hoff (by simp)

/-! ## Reading a part -/

theorem uint_mod_pos : 0 < UINT_MOD := by decide

theorem one_lt_uint_mod : 1 < UINT_MOD := by decide

/-- The layout that the splitter leaves behind, whatever the number of parts: the part
count fits 32 bits and, when there are at least two parts, the first part, the parts
between and the last part hold exactly `file_size` bytes of the tar stream. -/
theorem splitPartsWith_layout (S split_size mv : Nat) (r : SplitResult)
    (hfit : S < SIZE_MOD) (hgt : split_size < S)
    (hu : splitPartsWith S split_size mv = some r) :
    r.part_size = split_size ∧ r.mv_header_size = mv ∧ r.num_parts < UINT_MOD ∧
    (2 ≤ r.num_parts →
      mv < split_size ∧ mv < r.last_part_size ∧ r.last_part_size < SIZE_MOD ∧
      split_size + (r.num_parts - 2) * (split_size - mv) + (r.last_part_size - mv) = S) := by
  unfold splitPartsWith at hu
  simp only [gt_iff_lt, not_lt] at hu
  by_cases hmv : split_size ≤ mv
  · rw [if_pos hmv] at hu
    exact absurd hu (by simp)
  · rw [if_neg hmv] at hu
    have e1 : subSz S mv = S - mv := subSz_eq hfit (by omega)
    have e2 : subSz split_size mv = split_size - mv := subSz_eq (by omega) (by omega)
    rw [e1, e2] at hu
    have hd : 0 < split_size - mv := by omega
    have hdm := Nat.div_add_mod (S - mv) (split_size - mv)
    generalize hq : (S - mv) / (split_size - mv) = q at *
    generalize hn : toU q = n0 at hu
    have hn0 : n0 < UINT_MOD := by
      rw [← hn]; unfold toU; exact Nat.mod_lt _ uint_mod_pos
    have hn0q : n0 ≤ q := by
      rw [← hn]; unfold toU; exact Nat.mod_le _ _
    have hsub2 : subU (toU (n0 + 1)) 2 = subU n0 1 := by
      simp only [subU_mod]
      unfold toU UINT_MOD at *
      omega
    rw [hsub2] at hu
    have htoU : toU (n0 + 1) < UINT_MOD := by
      unfold toU; exact Nat.mod_lt _ uint_mod_pos
    by_cases hpos : n0 = 0
    · -- the quotient is a multiple of 2^32: at most one part is left
      subst hpos
      have h01 : toU (0 + 1) = 1 := by decide
      rw [h01] at hu
      by_cases hc1 : addSz split_size (mulSz (subU 0 1) (split_size - mv)) = S
      · rw [if_pos hc1] at hu
        injection hu with hu
        subst hu
        exact ⟨rfl, rfl, uint_mod_pos, fun h => by simp at h⟩
      · rw [if_neg hc1] at hu
        by_cases hc2 : subSz (addSz mv S) (addSz split_size (mulSz (subU 0 1) (split_size - mv)))
            = addSz (subSz (subSz S split_size) (mulSz (subU 0 1) (split_size - mv))) mv
        · rw [if_pos hc2] at hu
          injection hu with hu
          subst hu
          exact ⟨rfl, rfl, one_lt_uint_mod, fun h => by simp at h⟩
        · rw [if_neg hc2] at hu
          exact absurd hu (by simp)
    · have hs1 : subU n0 1 = n0 - 1 := subU_eq hn0 (by omega)
      rw [hs1] at hu
      have hmono : (n0 - 1) * (split_size - mv) ≤ (q - 1) * (split_size - mv) :=
        Nat.mul_le_mul_right _ (by omega)
      have hqd : (q - 1) * (split_size - mv) + (split_size - mv) = (split_size - mv) * q := by
        have : q = (q - 1) + 1 := by omega
        rw [Nat.mul_comm (split_size - mv) q]
        nth_rewrite 2 [this]
        rw [Nat.add_mul, Nat.one_mul]
      have hX : mulSz (n0 - 1) (split_size - mv) = (n0 - 1) * (split_size - mv) :=
        mulSz_eq (by omega)
      rw [hX] at hu
      have hT : addSz split_size ((n0 - 1) * (split_size - mv)) =
          split_size + (n0 - 1) * (split_size - mv) := addSz_eq (by omega)
      rw [hT] at hu
      have hTS : split_size + (n0 - 1) * (split_size - mv) ≤ S := by omega
      by_cases hc1 : split_size + (n0 - 1) * (split_size - mv) = S
      · rw [if_pos hc1] at hu
        injection hu with hu
        subst hu
        refine ⟨rfl, rfl, hn0, ?_⟩
        intro h2
        simp only at h2 ⊢
        refine ⟨by omega, by omega, by omega, ?_⟩
        have : (n0 - 2) * (split_size - mv) + (split_size - mv)
            = (n0 - 1) * (split_size - mv) := by
          have h : n0 - 1 = (n0 - 2) + 1 := by omega
          rw [h, Nat.add_mul, Nat.one_mul]
        omega
      · rw [if_neg hc1] at hu
        have hL : subSz (addSz mv S) (split_size + (n0 - 1) * (split_size - mv))
            = mv + S - (split_size + (n0 - 1) * (split_size - mv)) := by
          generalize (n0 - 1) * (split_size - mv) = X at *
          simp only [subSz_mod]
          unfold addSz SIZE_MOD
          unfold SIZE_MOD at hfit
          omega
        rw [hL] at hu
        by_cases hc2 : mv + S - (split_size + (n0 - 1) * (split_size - mv))
            = addSz (subSz (subSz S split_size) ((n0 - 1) * (split_size - mv))) mv
        · rw [if_pos hc2] at hu
          injection hu with hu
          subst hu
          refine ⟨rfl, rfl, htoU, ?_⟩
          intro h2
          simp only at h2 ⊢
          have hn1 : toU (n0 + 1) = n0 + 1 := by
            unfold toU UINT_MOD at *
            omega
          rw [hn1]
          have h3 : n0 + 1 - 2 = n0 - 1 := by omega
          rw [h3]
          refine ⟨by omega, by omega, by omega, ?_⟩
          omega
        · rw [if_neg hc2] at hu
          exact absurd hu (by simp)

/-- The layout that `fixSize` leaves behind, whatever the number of parts. -/
theorem fixSize_layout (t u : TarFile) (split_size : Nat) (ths : TarHeaderStyle)
    (hfit : t.current_tar_offset_ < SIZE_MOD)
    (hu : t.fixSize split_size ths = some u) :
    u.num_parts_ < UINT_MOD ∧
    (2 ≤ u.num_parts_ →
      u.header_size_ < u.part_size_ ∧ u.header_size_ < u.last_part_size_ ∧
      u.last_part_size_ < SIZE_MOD ∧
      u.part_size_ + (u.num_parts_ - 2) * (u.part_size_ - u.header_size_)
        + (u.last_part_size_ - u.header_size_) = u.size_) := by
  unfold TarFile.fixSize splitParts_ at hu
  simp only at hu
  by_cases hle : t.current_tar_offset_ ≤ split_size
  · rw [if_pos hle] at hu
    injection hu with hu
    subst hu
    exact ⟨one_lt_uint_mod, fun h => by simp at h⟩
  · rw [if_neg hle] at hu
    cases hr : splitPartsWith t.current_tar_offset_ split_size (mvHeaderSize ths) with
    | none =>
      rw [hr] at hu
      exact absurd hu (by simp)
    | some r =>
      rw [hr] at hu
      simp only at hu
      injection hu with hu
      subst hu
      obtain ⟨hp, hm, hn, hlaw⟩ := splitPartsWith_layout _ _ _ r hfit (by omega) hr
      simp only
      rw [hp, hm]
      exact ⟨hn, hlaw⟩

/-- The origin offset of every valid content position of a finalised archive lies
inside the logical tar stream, and no step of its computation wraps. -/
theorem origin_lt_size (u : TarFile) (hS : u.size_ < SIZE_MOD)
    (hU : u.num_parts_ < UINT_MOD)
    (hlaw : 2 ≤ u.num_parts_ →
      u.header_size_ < u.part_size_ ∧ u.header_size_ < u.last_part_size_ ∧
      u.last_part_size_ < SIZE_MOD ∧
      u.part_size_ + (u.num_parts_ - 2) * (u.part_size_ - u.header_size_)
        + (u.last_part_size_ - u.header_size_) = u.size_)
    (partnr off sz : Nat) (hsz : u.size partnr = some sz) (hoff : off < sz)
    (hhdr : 0 < partnr → u.header_size_ ≤ off) :
    ∃ p, u.calculateOriginTarOffset partnr off = some p ∧ p < u.size_ ∧
      (partnr = 0 → p = off) ∧
      (0 < partnr → p = off - u.header_size_ + u.part_size_
        + (partnr - 1) * (u.part_size_ - u.header_size_)) := by
  have hk : partnr < u.num_parts_ := by
    by_contra hcon
    unfold TarFile.size at hsz
    rw [if_pos hcon] at hsz
    exact absurd hsz (by simp)
  by_cases h1 : u.num_parts_ = 1
  · have hk0 : partnr = 0 := by omega
    subst hk0
    unfold TarFile.size at hsz
    rw [if_neg (by omega), if_pos h1] at hsz
    injection hsz with hsz
    refine ⟨off, ?_, by omega, fun _ => rfl, fun h => by simp at h⟩
    unfold TarFile.calculateOriginTarOffset
    rw [if_neg (by omega), if_pos rfl]
  · have h2 : 2 ≤ u.num_parts_ := by omega
    obtain ⟨hhp, hhl, hlM, hsum⟩ := hlaw h2
    rw [size_of_split u partnr h2 hU hk] at hsz
    injection hsz with hsz
    by_cases hk0 : partnr = 0
    · subst hk0
      rw [if_pos (by omega)] at hsz
      refine ⟨off, ?_, by omega, fun _ => rfl, fun h => by simp at h⟩
      unfold TarFile.calculateOriginTarOffset
      rw [if_neg (by omega), if_pos rfl]
    · have hh := hhdr (by omega)
      have hmono : (partnr - 1) * (u.part_size_ - u.header_size_)
          ≤ (u.num_parts_ - 2) * (u.part_size_ - u.header_size_) :=
        Nat.mul_le_mul_right _ (by omega)
      have hbound : off - u.header_size_ + u.part_size_
          + (partnr - 1) * (u.part_size_ - u.header_size_) < u.size_ := by
        by_cases hlastp : partnr + 1 < u.num_parts_
        · rw [if_pos hlastp] at hsz
          have hstep : (partnr - 1) * (u.part_size_ - u.header_size_)
              + (u.part_size_ - u.header_size_)
              ≤ (u.num_parts_ - 2) * (u.part_size_ - u.header_size_) := by
            have h : (partnr - 1 + 1) * (u.part_size_ - u.header_size_)
                ≤ (u.num_parts_ - 2) * (u.part_size_ - u.header_size_) :=
              Nat.mul_le_mul_right _ (by omega)
            rw [Nat.add_mul, Nat.one_mul] at h
            exact h
          omega
        · rw [if_neg hlastp] at hsz
          have heq : partnr - 1 = u.num_parts_ - 2 := by omega
          rw [heq]
          omega
      have hoffM : off < SIZE_MOD := by
        by_cases hlastp : partnr + 1 < u.num_parts_
        · rw [if_pos hlastp] at hsz; omega
        · rw [if_neg hlastp] at hsz; omega
      refine ⟨_, ?_, hbound, fun h => absurd h hk0, fun _ => rfl⟩
      unfold TarFile.calculateOriginTarOffset
      rw [if_neg (by omega), if_neg hk0, if_neg (by omega)]
      simp only
      have e1 : subSz off u.header_size_ = off - u.header_size_ := subSz_eq hoffM hh
      have e2 : subSz u.part_size_ u.header_size_ = u.part_size_ - u.header_size_ :=
        subSz_eq (by omega) (by omega)
      have e3 : subU partnr 1 = partnr - 1 := subU_eq (by omega) (by omega)
      have e4 : mulSz (partnr - 1) (u.part_size_ - u.header_size_)
          = (partnr - 1) * (u.part_size_ - u.header_size_) := mulSz_eq (by omega)
      have e5 : addSz (off - u.header_size_) u.part_size_
          = off - u.header_size_ + u.part_size_ := addSz_eq (by omega)
      have e6 : addSz (off - u.header_size_ + u.part_size_)
            ((partnr - 1) * (u.part_size_ - u.header_size_))
          = off - u.header_size_ + u.part_size_
            + (partnr - 1) * (u.part_size_ - u.header_size_) := addSz_eq (by omega)
      rw [e1, e2, e3, e4, e5, e6]

theorem streamByte_at (framed : TarEntry → Nat → Nat) (es : List TarEntry) (j : Nat)
    (e : TarEntry) (p : Nat) (he : es.get? j = some e)
    (hlo : totalBlocked (es.take j) ≤ p)
    (hhi : p < totalBlocked (es.take j) + e.blockedSize) :
    streamByte framed es p = some (framed e (p - totalBlocked (es.take j))) := by
  induction es generalizing j p with
  | nil => simp at he
  | cons x rest ih =>
    cases j with
    | zero =>
      simp only [List.get?_cons_zero, Option.some.injEq] at he
      subst he
      simp only [List.take_zero, totalBlocked, Nat.zero_add, Nat.sub_zero] at hhi ⊢
      simp only [streamByte]
      rw [if_pos hhi]
    | succ k =>
      simp only [List.get?_cons_succ] at he
      simp only [List.take_succ_cons, totalBlocked] at hlo hhi ⊢
      simp only [streamByte]
      rw [if_neg (by omega)]
      rw [ih k (p - x.blockedSize) he (by omega) (by omega)]
      rw [Nat.sub_sub]

theorem entryCopy_one (framed : TarEntry → Nat → Nat) (e : TarEntry) (o : Nat)
    (h : o < e.blockedSize) : e.copy framed 1 o = [framed e o] := by
  unfold TarEntry.copy
  rw [if_pos h]
  have : min 1 (e.blockedSize - o) = 1 := by omega
  rw [this]
  rfl

/-- C6.  Origin-offset round trip: for every archive that satisfies the offset
invariant and is finalised by `fixSize` (split or not), every part `partnr` and every
offset inside that part and outside its multi-volume header, a one byte `copy` at
`(partnr, offset)` produces exactly the byte that lies at position
`calculateOriginTarOffset(partnr, offset)` of the logical unsplit tar stream of the
same entries. -/
theorem copy_origin_roundtrip (framed : TarEntry → Nat → Nat)
    (mvheader : List Char → Nat → Nat → List Nat)
    (t u : TarFile) (split_size : Nat) (ths : TarHeaderStyle)
    (hinv : t.OffsetInvariant) (hfit : t.current_tar_offset_ < SIZE_MOD)
    (hu : t.fixSize split_size ths = some u)
    (partnr off sz : Nat) (hsz : u.size partnr = some sz) (hoff : off < sz)
    (hhdr : 0 < partnr → u.header_size_ ≤ off) :
    ∃ p b, u.calculateOriginTarOffset partnr off = some p ∧
      u.copy (TarEntry.copy framed) mvheader 1 (off : Int) partnr = some [b] ∧
      streamByte framed u.entries p = some b := by
  obtain ⟨hs, hc, ho, hcur, _⟩ := fixSize_size t u split_size ths hu
  obtain ⟨hU, hlaw⟩ := fixSize_layout t u split_size ths hfit hu
  have hent : u.entries = t.entries := by unfold TarFile.entries; rw [hc]
  have hinvu : u.OffsetInvariant := by
    unfold TarFile.OffsetInvariant
    rw [hent, hc, ho, hcur]
    exact hinv
  obtain ⟨p, hp, hplt, _, _⟩ :=
    origin_lt_size u (by rw [hs]; exact hfit) hU hlaw partnr off sz hsz hoff hhdr
  have hne : u.entries ≠ [] := by
    intro hnil
    have h0 := hinvu.2.2.2
    rw [hnil] at h0
    simp only [totalBlocked] at h0
    rw [hs, ← hcur, h0] at hplt
    exact absurd hplt (Nat.not_lt_zero p)
  obtain ⟨j, e, he, hoj, hfind, hmap, hle, hmax, hlt, hlast⟩ :=
    findTarEntry_core u p hinvu hne (Nat.le_of_lt hplt)
  have hj : j < u.entries.length := by
    by_contra hcon
    rw [List.get?_eq_none.2 (by omega)] at he
    exact absurd he (by simp)
  have hhi : p < totalBlocked (u.entries.take j) + e.blockedSize := by
    by_cases h : j + 1 < u.entries.length
    · exact hlt h
    · have := hlast (by omega)
      rw [this, ← hinvu.2.2.2, hcur, ← hs]
      exact hplt
  refine ⟨p, framed e (p - totalBlocked (u.entries.take j)), hp, ?_,
    streamByte_at framed u.entries j e p he hle hhi⟩
  have hpM : p < SIZE_MOD := by rw [hs] at hplt; omega
  have hsub : subSz p (totalBlocked (u.entries.take j)) = p - totalBlocked (u.entries.take j) :=
    subSz_eq hpM hle
  have hcopy1 : e.copy framed 1 (p - totalBlocked (u.entries.take j))
      = [framed e (p - totalBlocked (u.entries.take j))] :=
    entryCopy_one framed e _ (by omega)
  unfold TarFile.copy
  rw [if_neg (by omega)]
  simp only [Int.toNat_ofNat, hsz]
  rw [if_neg (by omega)]
  simp only [copyLoop]
  rw [if_neg (by decide), if_neg (by intro hcon; have := hhdr hcon.1; omega)]
  simp only [hp, hfind, hsub, hcopy1, List.length_singleton]
  rw [if_neg (by decide)]
  have h11 : subSz 1 1 = 0 := by decide
  simp only [h11, if_true]
  rfl

theorem exampleBuilt_invariant : exampleBuilt.OffsetInvariant := by
  unfold TarFile.OffsetInvariant
  decide

/-- C6, witness: byte 600 of the second part of the example archive is byte 2648 of
the tar stream, which is byte 1112 of its second file. -/
theorem copy_origin_roundtrip_witness :
    exampleArchive.calculateOriginTarOffset 1 600 = some 2648 ∧
    exampleArchive.copy (TarEntry.copy exampleFramed) exampleMvHeader 1 600 1 = some [91] ∧
    streamByte exampleFramed exampleArchive.entries 2648 = some 91 ∧
    ∃ p b, exampleArchive.calculateOriginTarOffset 1 600 = some p ∧
      exampleArchive.copy (TarEntry.copy exampleFramed) exampleMvHeader 1 ((600 : Nat) : Int) 1
        = some [b] ∧
      streamByte exampleFramed exampleArchive.entries p = some b :=
  ⟨by decide, by decide, by decide,
   copy_origin_roundtrip exampleFramed exampleMvHeader exampleBuilt exampleArchive 2560
    TarHeaderStyle.WithHeaders exampleBuilt_invariant (by decide) (by decide)
    1 600 1536 (by decide) (by decide) (by decide)⟩

/-! ## Archive names -/

set_option maxRecDepth 100000

/-- C2.  Scenario S1: with any type tables in which the type has the letter `s` and
the suffix `tar`, and a `toHex` that writes part 7 of 15 as `07`, writing the name of
S1 without a directory gives exactly
`s02_1501080787.579054757_<hash>_07-f_1119232.tar`: seconds unpadded, nanoseconds
padded to 9 digits, then the hash, the part number, the number of parts in
hexadecimal, and the size in decimal last. -/
theorem write_scenario_s1 {TC : Type} (h : NameHelpers TC) (t : TC)
    (hc : h.chartype t = 's') (hs : h.suffixtype t = ['t', 'a', 'r'])
    (hx : h.toHex 7 15 = ['0', '7']) :
    asStringWithDir h
      { type := t, version := 2, sec := 1501080787, nsec := 579054757, size := 1119232,
        header_hash := s1Hash, part_nr := 7, num_parts := 15 } none = some s1String := by
  unfold asStringWithDir writeTarFileNameIntoBuffer writeTarFileNameIntoBufferVersion2_
  simp only [hc, hs, hx]
  rw [if_neg (by decide), if_pos trivial]
  decide

/-- C2, witness: the tables modelled from the spec. -/
theorem write_scenario_s1_witness :
    asStringWithDir specHelpers s1Name none = some s1String :=
  write_scenario_s1 specHelpers 's' (by decide) (by decide) (by decide)

/-- C1, the failing input: the name of scenario S1 is written as the spec expects,
but parsing that string gives `num_parts = 0`, not 15: the digits of `num_parts` are
read at the start of the part number (tarfile.cc:307).  The same happens when the
part number is written without padding, where `num_parts` is read as 7. -/
theorem parse_write_s1_num_parts :
    s1Name.version = 2 ∧ s1Name.part_nr < s1Name.num_parts ∧
    asStringWithDir specHelpers s1Name none = some s1String ∧
    parseFileName specHelpers s1String = Parsed.ok { s1Name with num_parts := 0 } ∧
    parseFileName specHelpers s1String ≠ Parsed.ok s1Name ∧
    parseFileName specHelpers s1StringShort = Parsed.ok { s1Name with num_parts := 7 } := by
  decide

/-- C10, the failing input: `parseFileName` accepts a version 2 name whose
number-of-parts field is `zz`, which is not hexadecimal; the check of that field
reads the part number instead (tarfile.cc:307). -/
theorem parse_accepts_bad_num_parts :
    badPartsString = "s02_1.2_ab_07-zz_5.tar".toList ∧
    isHexDigit 'z' = false ∧
    parseFileName specHelpers badPartsString = Parsed.ok
      { type := 's', version := 2, sec := 1, nsec := 2, size := 5,
        header_hash := ['a', 'b'], part_nr := 7, num_parts := 7 } := by
  decide

/-! ## Index files -/

theorem strncmp_three (a b c : Char) (rest : List Char) (x y z : Char) (tl : List Char)
    (hx : x ≠ NUL) (hy : y ≠ NUL) :
    (0 = strncmp (a :: b :: c :: rest) (x :: y :: z :: tl) 3) ↔ (a = x ∧ b = y ∧ c = z) := by
  simp only [strncmp, List.headD_cons, List.tail_cons]
  constructor
  · intro h
    by_cases h1 : a = x
    · subst h1
      rw [if_neg (by simp), if_neg hx] at h
      by_cases h2 : b = y
      · subst h2
        rw [if_neg (by simp), if_neg hy] at h
        by_cases h3 : c = z
        · exact ⟨rfl, rfl, h3⟩
        · rw [if_pos h3] at h
          split at h <;> exact absurd h (by decide)
      · rw [if_pos h2] at h
        split at h <;> exact absurd h (by decide)
    · rw [if_pos h1] at h
      split at h <;> exact absurd h (by decide)
  · rintro ⟨rfl, rfl, rfl⟩
    rw [if_neg (by simp), if_neg hx, if_neg (by simp), if_neg hy, if_neg (by simp)]
    split <;> rfl

theorem isIndexFile_iff (name : List Char) (hlen : 20 ≤ name.length) :
    isIndexFile name = true ↔ (['z', '0', '1'] <+: name ∧ ['.', 'g', 'z'] <:+ name) := by
  unfold isIndexFile
  simp only
  rw [if_neg (by omega)]
  obtain ⟨a, b, c, rest, hname⟩ : ∃ a b c rest, name = a :: b :: c :: rest := by
    match name, hlen with
    | a :: b :: c :: rest, _ => exact ⟨a, b, c, rest, rfl⟩
  have hdl : (name.drop (name.length - 3)).length = 3 := by
    rw [List.length_drop]; omega
  obtain ⟨u, v, w, hdrop⟩ : ∃ u v w, name.drop (name.length - 3) = [u, v, w] := by
    match hd : name.drop (name.length - 3), hdl with
    | [u, v, w], _ => exact ⟨u, v, w, rfl⟩
  have hsuf : (['.', 'g', 'z'] <:+ name) ↔ name.drop (name.length - 3) = ['.', 'g', 'z'] := by
    rw [List.suffix_iff_eq_drop]
    constructor
    · intro h; exact h.symm
    · intro h; exact h.symm
  rw [hsuf, hdrop]
  have h1 := strncmp_three u v w [] '.' 'g' 'z' [] (by decide) (by decide)
  rw [hname]
  have h2 := strncmp_three a b c rest 'z' '0' '1' ['_'] (by decide) (by decide)
  simp only [Bool.and_eq_true, decide_eq_true_eq, h1, h2]
  constructor
  · rintro ⟨⟨rfl, rfl, rfl⟩, ⟨rfl, rfl, rfl⟩⟩
    exact ⟨⟨rest, rfl⟩, rfl⟩
  · rintro ⟨⟨t, ht⟩, hs⟩
    simp only [List.cons_append, List.nil_append, List.cons.injEq] at ht hs
    exact ⟨⟨ht.1.symm, ht.2.1.symm, ht.2.2.1.symm⟩, ⟨hs.1, hs.2.1, hs.2.2.1⟩⟩

/-- C15, evaluation.  `isIndexFile` compares only three characters with `z01_`
(`strncmp(s, "z01_", 3)`): the name `z01X5678901234567.gz` of 20 characters does not
start with the four characters `z01_`, and `isIndexFile` returns true for it.  The index
file name of the comment at storage_rclone.cc:51 is accepted; `z01_a.gz` is rejected by
the guard on names shorter than 20 characters. -/
theorem isIndexFile_prefix_slip :
    "z01X5678901234567.gz".toList.length = 20 ∧
    ¬ (['z', '0', '1', '_'] <+: "z01X5678901234567.gz".toList) ∧
    ['.', 'g', 'z'] <:+ "z01X5678901234567.gz".toList ∧
    isIndexFile "z01X5678901234567.gz".toList = true ∧
    isIndexFile indexName = true ∧
    isIndexFile shortIndexName = false := by
  decide

/-! ## Scanning a name -/

theorem findLoop_skip (c : Char) (pre rest : List Char) (i : Nat)
    (h : ∀ x ∈ pre, x ≠ c) : findLoop c (pre ++ c :: rest) i = some (i + pre.length) := by
  induction pre generalizing i with
  | nil => simp [findLoop]
  | cons x tl ih =>
    show (if x = c then some i else findLoop c (tl ++ c :: rest) (i + 1)) = _
    rw [if_neg (h x (List.mem_cons_self _ _))]
    rw [ih (i + 1) (fun y hy => h y (List.mem_cons_of_mem _ hy))]
    simp only [List.length_cons]
    congr 1
    omega

/-- Searching from the start of a field finds the separator that ends it. -/
theorem find_seg (A fld rest : List Char) (c : Char) (p : Nat) (hp : p = A.length)
    (h : ∀ x ∈ fld, x ≠ c) :
    find (A ++ (fld ++ c :: rest)) c p = some (p + fld.length) := by
  subst hp
  unfold find
  rw [List.drop_left]
  exact findLoop_skip c fld rest _ h

theorem rfindLoop_absent (c : Char) (s : List Char) (i : Nat) (f : Option Nat)
    (h : ∀ x ∈ s, x ≠ c) : rfindLoop c s i f = f := by
  induction s generalizing i f with
  | nil => rfl
  | cons x tl ih =>
    simp only [rfindLoop]
    rw [if_neg (h x (List.mem_cons_self _ _))]
    exact ih (i + 1) f (fun y hy => h y (List.mem_cons_of_mem _ hy))

theorem rfindLoop_append (c : Char) (a b : List Char) (i : Nat) (f : Option Nat) :
    rfindLoop c (a ++ b) i f = rfindLoop c b (i + a.length) (rfindLoop c a i f) := by
  induction a generalizing i f with
  | nil => simp [rfindLoop]
  | cons x tl ih =>
    show rfindLoop c (tl ++ b) (i + 1) (if x = c then some i else f) =
      rfindLoop c b (i + (tl.length + 1)) (rfindLoop c tl (i + 1) (if x = c then some i else f))
    rw [ih]
    congr 1
    omega

/-- The start of the basename of a name that is a directory part, empty or ending
with a slash, followed by a basename without a slash. -/
theorem basename_start (dir base : List Char)
    (hdir : dir = [] ∨ ∃ d, dir = d ++ ['/']) (hbase : ∀ x ∈ base, x ≠ '/') :
    (match rfind (dir ++ base) '/' with
      | none => 0
      | some p => p + 1) = dir.length := by
  unfold rfind
  rw [rfindLoop_append, rfindLoop_absent '/' base _ _ hbase]
  rcases hdir with h | ⟨d, h⟩
  · subst h; rfl
  · subst h
    rw [rfindLoop_append]
    simp [rfindLoop]

/-- A field of decimal digits is accepted and handed back. -/
theorem digitsOnly_seg (A fld rest : List Char) (p len : Nat) (hp : p = A.length)
    (hl : len = fld.length) (h : fld.all isDigit = true) :
    digitsOnly (A ++ (fld ++ rest)) p len = some fld := by
  subst hp hl
  unfold digitsOnly
  rw [List.drop_left, List.take_left]
  rw [if_pos]
  refine ⟨?_, h⟩
  simp only [List.length_append]
  omega

/-- A field of hexadecimal digits is accepted and handed back. -/
theorem hexDigitsOnly_seg (A fld rest : List Char) (p len : Nat) (hp : p = A.length)
    (hl : len = fld.length) (h : fld.all isHexDigit = true) :
    hexDigitsOnly (A ++ (fld ++ rest)) p len = some fld := by
  subst hp hl
  unfold hexDigitsOnly
  rw [List.drop_left, List.take_left]
  rw [if_pos]
  refine ⟨?_, h⟩
  simp only [List.length_append]
  omega

theorem isDigit_ne (c x : Char) (hx : isDigit x = true) (hc : isDigit c = false) : x ≠ c := by
  intro h
  subst h
  rw [hx] at hc
  exact absurd hc (by decide)

theorem isHexDigit_ne (c x : Char) (hx : isHexDigit x = true) (hc : isHexDigit c = false) :
    x ≠ c := by
  intro h
  subst h
  rw [hx] at hc
  exact absurd hc (by decide)

theorem isDigit_isHexDigit (x : Char) (hx : isDigit x = true) : isHexDigit x = true := by
  unfold isHexDigit
  rw [hx]
  rfl

/-- The version that `atoi` stores: the value of the digits when it fits a `long`,
reduced to 32 bits. -/
theorem atoi_eq_iff (vs : List Char) (k : Int) (hk : k = 1 ∨ k = 2) :
    atoi vs = k ↔
      (digitsValue 10 vs < 2 ^ 63 ∧ (digitsValue 10 vs % 2 ^ 32 : Nat) = k.toNat) := by
  unfold atoi strtol
  generalize digitsValue 10 vs = v
  by_cases hv : v ≤ 2 ^ 63 - 1
  · rw [if_pos hv]
    rcases hk with rfl | rfl
    · constructor
      · intro h; refine ⟨by omega, ?_⟩; simp only [Int.toNat_one]; omega
      · rintro ⟨_, h⟩; simp only [Int.toNat_one] at h; omega
    · constructor
      · intro h; refine ⟨by omega, ?_⟩
        have : (2 : Int).toNat = 2 := rfl
        rw [this]; omega
      · rintro ⟨_, h⟩
        have : (2 : Int).toNat = 2 := rfl
        rw [this] at h; omega
  · rw [if_neg hv]
    rcases hk with rfl | rfl
    · constructor
      · intro h; norm_num at h
      · rintro ⟨h, _⟩; omega
    · constructor
      · intro h; norm_num at h
      · rintro ⟨h, _⟩; omega

/-- The length `q - p - 1` of the field between the separators at `p` and `q`. -/
theorem subSz_field (p q len : Nat) (hq : q = p + 1 + len) (hlt : q < SIZE_MOD) :
    subSz (subSz q p) 1 = len := by
  have h1 : subSz q p = len + 1 := by
    rw [subSz_eq hlt (by omega)]
    omega
  rw [h1, subSz_eq (by omega) (by omega)]
  omega

/-- The first steps of `parseFileName` on a name that is a directory part followed by
a type letter, a field of digits and an underscore: the version is read from the
digits. -/
theorem parseFileName_head {TC : Type} (h : NameHelpers TC) (t : TC)
    (dir : List Char) (c : Char) (vs rest : List Char)
    (hdir : dir = [] ∨ ∃ d, dir = d ++ ['/'])
    (hbase : ∀ x ∈ c :: (vs ++ '_' :: rest), x ≠ '/')
    (htype : h.typeFromChar c = some t) (hc : c ≠ '_')
    (hvs : vs.all isDigit = true)
    (hlen : (dir ++ c :: (vs ++ '_' :: rest)).length < SIZE_MOD) :
    parseFileName h (dir ++ c :: (vs ++ '_' :: rest)) =
      if atoi vs = 1 then
        parseFileNameVersion1_ h t (atoi vs) (dir ++ c :: (vs ++ '_' :: rest)) dir.length
          (dir.length + (vs.length + 1))
      else if atoi vs = 2 then
        parseFileNameVersion2_ h t (atoi vs) (dir ++ c :: (vs ++ '_' :: rest)) dir.length
          (dir.length + (vs.length + 1))
      else Parsed.fatal := by
  have hp0 := basename_start dir (c :: (vs ++ '_' :: rest)) hdir hbase
  have hget : (dir ++ c :: (vs ++ '_' :: rest)).getD dir.length NUL = c := by
    rw [List.getD_eq_getElem?_getD, List.getElem?_append_right (le_refl _)]
    simp
  have hfind : find (dir ++ c :: (vs ++ '_' :: rest)) '_' dir.length
      = some (dir.length + (vs.length + 1)) := by
    have := find_seg dir (c :: vs) rest '_' dir.length rfl (by
      intro x hx
      rw [List.mem_cons] at hx
      rcases hx with hx | hx
      · rw [hx]; exact hc
      · exact isDigit_ne '_' x (List.all_eq_true.1 hvs x hx) (by decide))
    simpa using this
  have hsub : subSz (subSz (dir.length + (vs.length + 1)) dir.length) 1 = vs.length := by
    simp only [List.length_append, List.length_cons] at hlen
    have h1 : subSz (dir.length + (vs.length + 1)) dir.length = vs.length + 1 := by
      rw [subSz_eq (by omega) (by omega)]
      omega
    rw [h1, subSz_eq (by omega) (by omega)]
    omega
  have hdig : digitsOnly (dir ++ c :: (vs ++ '_' :: rest)) (dir.length + 1) vs.length
      = some vs := by
    have := digitsOnly_seg (dir ++ [c]) vs ('_' :: rest) (dir.length + 1) vs.length
      (by simp) rfl hvs
    simpa using this
  have hne : ¬ (dir ++ c :: (vs ++ '_' :: rest)).length = 0 := by simp
  unfold parseFileName
  rw [if_neg hne]
  generalize dir.length = p0 at hp0 hget hfind hsub hdig ⊢
  generalize rfind (dir ++ c :: (vs ++ '_' :: rest)) '/' = r at hp0 ⊢
  cases r with
  | none =>
    have e : 0 = p0 := hp0
    subst e
    simp only [hget, htype, hfind, hsub, hdig]
  | some p =>
    have e : p + 1 = p0 := hp0
    subst e
    simp only [hget, htype, hfind, hsub, hdig]

/-- C12 (as amended).  Unsupported version is fatal: for every name whose basename
starts with a valid type letter followed by an all-digit version field (terminated
by `_`) whose value, reduced to 32 bits as `atoi` stores it in the `int` version, is
neither 1 nor 2, `parseFileName` does not return false but ends in the fatal error
(error log followed by a failing assertion). -/
theorem parse_unsupported_version {TC : Type} (h : NameHelpers TC) (t : TC)
    (dir : List Char) (c : Char) (vs rest : List Char)
    (hdir : dir = [] ∨ ∃ d, dir = d ++ ['/'])
    (hbase : ∀ x ∈ c :: (vs ++ '_' :: rest), x ≠ '/')
    (htype : h.typeFromChar c = some t) (hc : c ≠ '_')
    (hvs : vs.all isDigit = true)
    (hlen : (dir ++ c :: (vs ++ '_' :: rest)).length < SIZE_MOD)
    (hv : ¬ (digitsValue 10 vs < 2 ^ 63 ∧
      (digitsValue 10 vs % 2 ^ 32 = 1 ∨ digitsValue 10 vs % 2 ^ 32 = 2))) :
    parseFileName h (dir ++ c :: (vs ++ '_' :: rest)) = Parsed.fatal := by
  rw [parseFileName_head h t dir c vs rest hdir hbase htype hc hvs hlen]
  have h1 : ¬ atoi vs = 1 := by
    rw [atoi_eq_iff vs 1 (Or.inl rfl)]
    rintro ⟨ha, hb⟩
    exact hv ⟨ha, Or.inl hb⟩
  have h2 : ¬ atoi vs = 2 := by
    rw [atoi_eq_iff vs 2 (Or.inr rfl)]
    rintro ⟨ha, hb⟩
    exact hv ⟨ha, Or.inr hb⟩
  rw [if_neg h1, if_neg h2]

/-- C12, witness: version 3 in a directory. -/
theorem parse_unsupported_version_witness :
    parseFileName specHelpers version3Name = Parsed.fatal :=
  parse_unsupported_version specHelpers 's' "backup/".toList 's' ['0', '3']
    "1.2_3_ab_0.tar".toList (Or.inr ⟨"backup".toList, by decide⟩) (by decide) (by decide)
    (by decide) (by decide) (by decide) (by decide)

/-- C12, counterexample to the claim as stated: the version field `4294967297` is all
digits and its value `2^32 + 1` is neither 1 nor 2, but `atoi` stores it in the 32 bit
`version` as 1; the name is then parsed as a version 1 name and accepted. -/
theorem parse_unsupported_version_counterexample :
    digitsValue 10 "4294967297".toList = 2 ^ 32 + 1 ∧
    parseFileName specHelpers wrappedVersionName = Parsed.ok
      { type := 's', version := 1, sec := 1, nsec := 2, size := 3,
        header_hash := ['a', 'b'], part_nr := 0, num_parts := 0 } ∧
    parseFileName specHelpers wrappedVersionName ≠ Parsed.fatal := by
  decide

/-! ## Decimal numbers in a name -/

theorem digitChar_dec : ∀ d, d < 10 →
    isDigit (digitChar d) = true ∧ hexVal (digitChar d) = d := by
  decide

theorem digitsValue_snoc (base : Nat) (s : List Char) (c : Char) :
    digitsValue base (s ++ [c]) = digitsValue base s * base + hexVal c := by
  unfold digitsValue
  rw [List.foldl_append]
  rfl

theorem fmtBase_isDigit (fuel n : Nat) : (fmtBase 10 fuel n).all isDigit = true := by
  induction fuel generalizing n with
  | zero => rfl
  | succ fuel ih =>
    simp only [fmtBase]
    split
    · next hlt => simp [(digitChar_dec n hlt).1]
    · rw [List.all_append, ih]
      simp [(digitChar_dec (n % 10) (Nat.mod_lt _ (by decide))).1]

theorem fmtBase_value (fuel n : Nat) (h : n < 10 ^ fuel) :
    digitsValue 10 (fmtBase 10 fuel n) = n := by
  induction fuel generalizing n with
  | zero => simp at h; subst h; rfl
  | succ fuel ih =>
    simp only [fmtBase]
    split
    · next hlt =>
      have := digitsValue_snoc 10 [] (digitChar n)
      simp only [List.nil_append] at this
      rw [this, (digitChar_dec n hlt).2]
      simp [digitsValue]
    · rw [digitsValue_snoc, ih (n / 10) (by
        rw [pow_succ] at h
        exact Nat.div_lt_of_lt_mul (by omega)),
        (digitChar_dec (n % 10) (Nat.mod_lt _ (by decide))).2]
      omega

theorem fmtBase_length (fuel n k : Nat) (hk : 1 ≤ k) (h : n < 10 ^ k) :
    (fmtBase 10 fuel n).length ≤ k := by
  induction fuel generalizing n k with
  | zero => simp [fmtBase]
  | succ fuel ih =>
    simp only [fmtBase]
    split
    · simpa using hk
    · next hge =>
      rw [List.length_append, List.length_singleton]
      have hk2 : 2 ≤ k := by
        by_contra hcon
        have : k = 1 := by omega
        subst this
        omega
      have := ih (n / 10) (k - 1) (by omega) (by
        have hk' : k = (k - 1) + 1 := by omega
        rw [hk', pow_succ] at h
        exact Nat.div_lt_of_lt_mul (by omega))
      omega

theorem fmtBase_ne_nil (fuel n : Nat) : fmtBase 10 (fuel + 1) n ≠ [] := by
  simp only [fmtBase]
  split
  · simp
  · simp

theorem digitsValue_zeros (k : Nat) (s : List Char) :
    digitsValue 10 (List.replicate k '0' ++ s) = digitsValue 10 s := by
  unfold digitsValue
  rw [List.foldl_append]
  have : List.foldl (fun acc c => acc * 10 + hexVal c) 0 (List.replicate k '0') = 0 := by
    induction k with
    | zero => rfl
    | succ k ih =>
      rw [List.replicate_succ, List.foldl_cons]
      exact ih
  rw [this]

theorem padZero_isDigit (w : Nat) (s : List Char) (h : s.all isDigit = true) :
    (padZero w s).all isDigit = true := by
  unfold padZero
  rw [List.all_append, h, Bool.and_true, List.all_eq_true]
  intro x hx
  rw [(List.mem_replicate.1 hx).2]
  decide

theorem padZero_value (w : Nat) (s : List Char) :
    digitsValue 10 (padZero w s) = digitsValue 10 s := by
  unfold padZero
  exact digitsValue_zeros _ s

theorem padZero_length (w : Nat) (s : List Char) :
    (padZero w s).length = max w s.length := by
  unfold padZero
  rw [List.length_append, List.length_replicate]
  omega

/-- The decimal text of a value below `2^63`: digits only, at most 19 of them, and
`atol` reads the value back. -/
theorem fmtDec_spec (n : Nat) (h : n < 2 ^ 63) :
    (fmtDec n).all isDigit = true ∧ (fmtDec n).length ≤ 19 ∧
    digitsValue 10 (fmtDec n) = n := by
  unfold fmtDec
  have hm : n % SIZE_MOD = n := Nat.mod_eq_of_lt (by unfold SIZE_MOD; omega)
  rw [hm]
  refine ⟨fmtBase_isDigit 64 n, fmtBase_length 64 n 19 (by decide) (by omega), ?_⟩
  exact fmtBase_value 64 n (lt_of_lt_of_le h (by norm_num))

theorem atol_of_value (s : List Char) (n : Nat) (hv : digitsValue 10 s = n)
    (h : n < 2 ^ 63) : atol s = (n : Int) := by
  unfold atol strtol
  rw [hv, if_pos (by omega)]

theorem cstr_of_no_nul (s : List Char) (h : ∀ x ∈ s, x ≠ NUL) : cstr s = s := by
  induction s with
  | nil => rfl
  | cons x tl ih =>
    simp only [cstr]
    rw [if_neg (h x (List.mem_cons_self _ _)), ih (fun y hy => h y (List.mem_cons_of_mem _ hy))]

theorem snprintf_of_short (n : Nat) (s : List Char) (h : s.length ≤ n - 1) :
    snprintf n s = s := by
  unfold snprintf
  exact List.take_of_length_le h

theorem digits_no_nul (s : List Char) (h : s.all isDigit = true) : ∀ x ∈ s, x ≠ NUL :=
  fun x hx => isDigit_ne NUL x (List.all_eq_true.1 h x hx) (by decide)

theorem hex_no_nul (s : List Char) (h : s.all isHexDigit = true) : ∀ x ∈ s, x ≠ NUL :=
  fun x hx => isHexDigit_ne NUL x (List.all_eq_true.1 h x hx) (by decide)

/-! ## Version 1 names -/

theorem asUnsigned_of_nonneg (x : Int) (h0 : 0 ≤ x) (h1 : x < 2 ^ 63) :
    asUnsigned x = x.toNat := by
  unfold asUnsigned SIZE_MOD
  rw [Int.emod_eq_of_lt h0 (by norm_num; omega)]

/-- The text of a time stamp inside the range of the format: digits, a dot, nine
digits, nothing cut off. -/
theorem secsAndNanos_value (w : Nat) (hw : w ≤ 19) (sec nsec : Int)
    (hs0 : 0 ≤ sec) (hs1 : sec < 2 ^ 63) (hn0 : 0 ≤ nsec) (hn1 : nsec < 10 ^ 9) :
    secsAndNanos w sec nsec =
      padZero w (fmtDec sec.toNat) ++ ['.'] ++ padZero 9 (fmtDec nsec.toNat) := by
  unfold secsAndNanos
  rw [asUnsigned_of_nonneg sec hs0 hs1, asUnsigned_of_nonneg nsec hn0 (by omega)]
  obtain ⟨hd1, hl1, _⟩ := fmtDec_spec sec.toNat (by omega)
  obtain ⟨hd2, _, _⟩ := fmtDec_spec nsec.toNat (by omega)
  have hl2 : (fmtDec nsec.toNat).length ≤ 9 := by
    unfold fmtDec
    rw [Nat.mod_eq_of_lt (by unfold SIZE_MOD; omega)]
    exact fmtBase_length 64 _ 9 (by decide) (by omega)
  rw [snprintf_of_short]
  · apply cstr_of_no_nul
    intro x hx
    simp only [List.mem_append, List.mem_singleton] at hx
    rcases hx with (hx | hx) | hx
    · exact digits_no_nul _ (padZero_isDigit w _ hd1) x hx
    · rw [hx]; decide
    · exact digits_no_nul _ (padZero_isDigit 9 _ hd2) x hx
  · simp only [List.length_append, List.length_singleton, padZero_length]
    omega

/-- The writer of version 1 names on members inside the ranges of its formats. -/
theorem write_version1_value {TC : Type} (h : NameHelpers TC) (n : TarFileName TC)
    (hv : n.version = 1)
    (hchar : h.chartype n.type ≠ NUL)
    (hsuf : ∀ x ∈ h.suffixtype n.type, x ≠ NUL)
    (hs0 : 0 ≤ n.sec) (hs1 : n.sec < 2 ^ 63) (hn0 : 0 ≤ n.nsec) (hn1 : n.nsec < 10 ^ 9)
    (hsize : n.size < 2 ^ 63)
    (hhash : n.header_hash.all isHexDigit = true)
    (hlen : n.header_hash.length + (h.suffixtype n.type).length ≤ 900) :
    asStringWithDir h n none = some (version1Text h n) := by
  obtain ⟨hd1, hl1, _⟩ := fmtDec_spec n.sec.toNat (by omega)
  obtain ⟨hd2, _, _⟩ := fmtDec_spec n.nsec.toNat (by omega)
  obtain ⟨hd3, hl3, _⟩ := fmtDec_spec n.size hsize
  have hl2 : (fmtDec n.nsec.toNat).length ≤ 9 := by
    unfold fmtDec
    rw [Nat.mod_eq_of_lt (by unfold SIZE_MOD; omega)]
    exact fmtBase_length 64 _ 9 (by decide) (by omega)
  have hsizes : cstr (snprintf 32 (fmtDec n.size)) = fmtDec n.size := by
    rw [snprintf_of_short 32 _ (by omega)]
    exact cstr_of_no_nul _ (digits_no_nul _ hd3)
  unfold asStringWithDir writeTarFileNameIntoBuffer
  rw [if_pos hv]
  unfold writeTarFileNameIntoBufferVersion1_
  simp only [Option.map_some', Option.some.injEq]
  rw [secsAndNanos_value 12 (by decide) n.sec n.nsec hs0 hs1 hn0 hn1, hsizes,
    cstr_of_no_nul _ (hex_no_nul _ hhash), cstr_of_no_nul _ hsuf]
  have hnonul : ∀ x ∈ version1Text h n, x ≠ NUL := by
    intro x hx
    unfold version1Text at hx
    simp only [List.mem_append, List.mem_cons, List.mem_singleton, List.not_mem_nil,
      or_false] at hx
    rcases hx with hx | (hx | hx) | hx | hx | hx | hx | hx | hx | hx | hx | hx | hx | hx
    · rw [hx]; exact hchar
    · rw [hx]; decide
    · rw [hx]; decide
    · rw [hx]; decide
    · exact digits_no_nul _ (padZero_isDigit 12 _ hd1) x hx
    · rw [hx]; decide
    · exact digits_no_nul _ (padZero_isDigit 9 _ hd2) x hx
    · rw [hx]; decide
    · exact digits_no_nul _ hd3 x hx
    · rw [hx]; decide
    · exact hex_no_nul _ hhash x hx
    · rw [hx]; decide
    · rw [hx]; decide
    · rcases hx with hx | hx
      · rw [hx]; decide
      · exact hsuf x hx
  have hshape : [h.chartype n.type] ++ ['0', '1', '_'] ++
      (padZero 12 (fmtDec n.sec.toNat) ++ ['.'] ++ padZero 9 (fmtDec n.nsec.toNat)) ++ ['_'] ++
      fmtDec n.size ++ ['_'] ++ n.header_hash ++ ['_'] ++ ['0'] ++ ['.'] ++ h.suffixtype n.type
      = version1Text h n := by
    unfold version1Text
    simp only [List.append_assoc, List.cons_append, List.nil_append, List.singleton_append]
  rw [hshape, snprintf_of_short]
  · exact cstr_of_no_nul _ hnonul
  · rw [← hshape]
    simp only [List.length_append, List.length_singleton, List.length_cons, List.length_nil,
      padZero_length]
    omega

theorem digits_ne_sep (s : List Char) (c : Char) (h : s.all isDigit = true)
    (hc : isDigit c = false) : ∀ x ∈ s, x ≠ c :=
  fun x hx => isDigit_ne c x (List.all_eq_true.1 h x hx) hc

theorem hex_ne_sep (s : List Char) (c : Char) (h : s.all isHexDigit = true)
    (hc : isHexDigit c = false) : ∀ x ∈ s, x ≠ c :=
  fun x hx => isHexDigit_ne c x (List.all_eq_true.1 h x hx) hc

/-- The parser of version 1 names on a name that is laid out as the grammar says:
after the first `p1 + 1` characters come the fields `S.N_Z_H_P.X`. -/
theorem parseFileNameVersion1_fields {TC : Type} (h : NameHelpers TC) (t : TC) (v : Int)
    (A S N Z H P X : List Char) (p0 p1 : Nat) (hA : A.length = p1 + 1)
    (hS : S.all isDigit = true) (hN : N.all isDigit = true) (hZ : Z.all isDigit = true)
    (hH : H.all isHexDigit = true) (hP : P.all isHexDigit = true)
    (hlen : (A ++ (S ++ '.' :: (N ++ '_' :: (Z ++ '_' :: (H ++ '_' :: (P ++ '.' :: X)))))).length
      < SIZE_MOD) :
    parseFileNameVersion1_ h t v
      (A ++ (S ++ '.' :: (N ++ '_' :: (Z ++ '_' :: (H ++ '_' :: (P ++ '.' :: X)))))) p0 p1 =
    if h.suffixtype t ≠ X then Parsed.no
    else Parsed.ok
      { type := t, version := v, sec := atol S, nsec := atol N, size := (atol Z).toNat,
        header_hash := H, part_nr := toU (strtol P 16).toNat, num_parts := 0 } := by
  simp only [List.length_append, List.length_cons] at hlen
  generalize hname : A ++ (S ++ '.' :: (N ++ '_' :: (Z ++ '_' :: (H ++ '_' :: (P ++ '.' :: X)))))
    = name at *
  have n1 : name = A ++ (S ++ '.' :: (N ++ '_' :: (Z ++ '_' :: (H ++ '_' :: (P ++ '.' :: X))))) :=
    hname.symm
  have n2 : name = (A ++ S ++ ['.']) ++ (N ++ '_' :: (Z ++ '_' :: (H ++ '_' :: (P ++ '.' :: X)))) := by
    rw [n1]; simp [List.append_assoc]
  have n3 : name = (A ++ S ++ ['.'] ++ N ++ ['_']) ++ (Z ++ '_' :: (H ++ '_' :: (P ++ '.' :: X))) := by
    rw [n1]; simp [List.append_assoc]
  have n4 : name = (A ++ S ++ ['.'] ++ N ++ ['_'] ++ Z ++ ['_']) ++ (H ++ '_' :: (P ++ '.' :: X)) := by
    rw [n1]; simp [List.append_assoc]
  have n5 : name = (A ++ S ++ ['.'] ++ N ++ ['_'] ++ Z ++ ['_'] ++ H ++ ['_'])
      ++ (P ++ '.' :: X) := by
    rw [n1]; simp [List.append_assoc]
  have n6 : name = (A ++ S ++ ['.'] ++ N ++ ['_'] ++ Z ++ ['_'] ++ H ++ ['_'] ++ P ++ ['.'])
      ++ X := by
    rw [n1]; simp [List.append_assoc]
  obtain ⟨p2, hp2⟩ : ∃ p2, p2 = p1 + 1 + S.length := ⟨_, rfl⟩
  obtain ⟨p3, hp3⟩ : ∃ p3, p3 = p2 + 1 + N.length := ⟨_, rfl⟩
  obtain ⟨p4, hp4⟩ : ∃ p4, p4 = p3 + 1 + Z.length := ⟨_, rfl⟩
  obtain ⟨p5, hp5⟩ : ∃ p5, p5 = p4 + 1 + H.length := ⟨_, rfl⟩
  obtain ⟨p6, hp6⟩ : ∃ p6, p6 = p5 + 1 + P.length := ⟨_, rfl⟩
  have f2 : find name '.' (p1 + 1) = some p2 := by
    rw [n1, hp2]
    exact find_seg A S _ '.' (p1 + 1) hA.symm (digits_ne_sep S '.' hS (by decide))
  have f3 : find name '_' (p2 + 1) = some p3 := by
    rw [n2, hp3]
    exact find_seg _ N _ '_' (p2 + 1) (by simp; omega) (digits_ne_sep N '_' hN (by decide))
  have f4 : find name '_' (p3 + 1) = some p4 := by
    rw [n3, hp4]
    exact find_seg _ Z _ '_' (p3 + 1) (by simp; omega) (digits_ne_sep Z '_' hZ (by decide))
  have f5 : find name '_' (p4 + 1) = some p5 := by
    rw [n4, hp5]
    exact find_seg _ H _ '_' (p4 + 1) (by simp; omega) (hex_ne_sep H '_' hH (by decide))
  have f6 : find name '.' (p5 + 1) = some p6 := by
    rw [n5, hp6]
    exact find_seg _ P _ '.' (p5 + 1) (by simp; omega) (hex_ne_sep P '.' hP (by decide))
  have s1 : subSz (subSz p2 p1) 1 = S.length := by
    exact subSz_field _ _ _ (by omega) (by omega)
  have s2 : subSz (subSz p3 p2) 1 = N.length := by
    exact subSz_field _ _ _ (by omega) (by omega)
  have s3 : subSz (subSz p4 p3) 1 = Z.length := by
    exact subSz_field _ _ _ (by omega) (by omega)
  have s4 : subSz (subSz p5 p4) 1 = H.length := by
    exact subSz_field _ _ _ (by omega) (by omega)
  have s5 : subSz (subSz p6 p5) 1 = P.length := by
    exact subSz_field _ _ _ (by omega) (by omega)
  have d1 : digitsOnly name (p1 + 1) S.length = some S := by
    rw [n1]
    exact digitsOnly_seg A S _ (p1 + 1) S.length hA.symm rfl hS
  have d2 : digitsOnly name (p2 + 1) N.length = some N := by
    rw [n2]
    exact digitsOnly_seg _ N _ (p2 + 1) N.length (by simp; omega) rfl hN
  have d3 : digitsOnly name (p3 + 1) Z.length = some Z := by
    rw [n3]
    exact digitsOnly_seg _ Z _ (p3 + 1) Z.length (by simp; omega) rfl hZ
  have d4 : hexDigitsOnly name (p4 + 1) H.length = some H := by
    rw [n4]
    exact hexDigitsOnly_seg _ H _ (p4 + 1) H.length (by simp; omega) rfl hH
  have d5 : hexDigitsOnly name (p5 + 1) P.length = some P := by
    rw [n5]
    exact hexDigitsOnly_seg _ P _ (p5 + 1) P.length (by simp; omega) rfl hP
  have hx : substr name (p6 + 1) = X := by
    unfold substr
    rw [n6]
    exact List.drop_left' (by simp; omega)
  unfold parseFileNameVersion1_
  simp only [f2, f3, f4, f5, f6, s1, s2, s3, s4, s5, d1, d2, d3, d4, d5, hx]

/-- C11 (as amended).  Version 1 names: for every `TarFileName` with version 1 whose
seconds are in `0 .. 2^63 - 1`, whose nanoseconds are in `0 .. 10^9 - 1`, whose size
is below `2^63` and whose hash consists of hexadecimal digits (the type tables being
consistent and the name fitting the buffer), the emitted name is
`<type>01_<sec, 12 digits>.<nsec, 9 digits>_<size>_<hash>_0.<suffix>`, the part field
being 0 whatever `part_nr` holds; parsing the emitted name succeeds and recovers type,
version, sec, nsec, size and header_hash, with `part_nr = 0`. -/
theorem version1_roundtrip {TC : Type} (h : NameHelpers TC) (n : TarFileName TC)
    (hv : n.version = 1)
    (htype : h.typeFromChar (h.chartype n.type) = some n.type)
    (hchar : h.chartype n.type ≠ NUL ∧ h.chartype n.type ≠ '/' ∧ h.chartype n.type ≠ '_')
    (hsuf : ∀ x ∈ h.suffixtype n.type, x ≠ NUL ∧ x ≠ '/')
    (hs0 : 0 ≤ n.sec) (hs1 : n.sec < 2 ^ 63) (hn0 : 0 ≤ n.nsec) (hn1 : n.nsec < 10 ^ 9)
    (hsize : n.size < 2 ^ 63)
    (hhash : n.header_hash.all isHexDigit = true)
    (hlen : n.header_hash.length + (h.suffixtype n.type).length ≤ 900) :
    asStringWithDir h n none = some (version1Text h n) ∧
    parseFileName h (version1Text h n) = Parsed.ok
      { type := n.type, version := 1, sec := n.sec, nsec := n.nsec, size := n.size,
        header_hash := n.header_hash, part_nr := 0, num_parts := 0 } := by
  refine ⟨write_version1_value h n hv hchar.1 (fun x hx => (hsuf x hx).1) hs0 hs1 hn0 hn1 hsize
    hhash hlen, ?_⟩
  obtain ⟨hd1, hl1, hv1⟩ := fmtDec_spec n.sec.toNat (by omega)
  obtain ⟨hd2, _, hv2⟩ := fmtDec_spec n.nsec.toNat (by omega)
  obtain ⟨hd3, hl3, hv3⟩ := fmtDec_spec n.size hsize
  have hl2 : (fmtDec n.nsec.toNat).length ≤ 9 := by
    unfold fmtDec
    rw [Nat.mod_eq_of_lt (by unfold SIZE_MOD; omega)]
    exact fmtBase_length 64 _ 9 (by decide) (by omega)
  have hS := padZero_isDigit 12 _ hd1
  have hN := padZero_isDigit 9 _ hd2
  have hshape : version1Text h n = [] ++ h.chartype n.type :: (['0', '1'] ++ '_' ::
      (padZero 12 (fmtDec n.sec.toNat) ++ '.' :: (padZero 9 (fmtDec n.nsec.toNat) ++ '_' ::
        (fmtDec n.size ++ '_' :: (n.header_hash ++ '_' :: (['0'] ++ '.' ::
          h.suffixtype n.type)))))) := rfl
  have hshape2 : version1Text h n = [h.chartype n.type, '0', '1', '_'] ++
      (padZero 12 (fmtDec n.sec.toNat) ++ '.' :: (padZero 9 (fmtDec n.nsec.toNat) ++ '_' ::
        (fmtDec n.size ++ '_' :: (n.header_hash ++ '_' :: (['0'] ++ '.' ::
          h.suffixtype n.type))))) := rfl
  have hlenM : (version1Text h n).length < SIZE_MOD := by
    rw [hshape2]
    simp only [List.length_append, List.length_cons, List.length_nil, padZero_length]
    unfold SIZE_MOD
    omega
  have hnoslash : ∀ x ∈ h.chartype n.type :: (['0', '1'] ++ '_' ::
      (padZero 12 (fmtDec n.sec.toNat) ++ '.' :: (padZero 9 (fmtDec n.nsec.toNat) ++ '_' ::
        (fmtDec n.size ++ '_' :: (n.header_hash ++ '_' :: (['0'] ++ '.' ::
          h.suffixtype n.type)))))), x ≠ '/' := by
    intro x hx
    simp only [List.mem_append, List.mem_cons, List.mem_singleton, List.not_mem_nil,
      or_false] at hx
    rcases hx with hx | (hx | hx) | hx | hx | hx | hx | hx | hx | hx | hx | hx | hx | hx
    · rw [hx]; exact hchar.2.1
    · rw [hx]; decide
    · rw [hx]; decide
    · rw [hx]; decide
    · exact digits_ne_sep _ '/' hS (by decide) x hx
    · rw [hx]; decide
    · exact digits_ne_sep _ '/' hN (by decide) x hx
    · rw [hx]; decide
    · exact digits_ne_sep _ '/' hd3 (by decide) x hx
    · rw [hx]; decide
    · exact hex_ne_sep _ '/' hhash (by decide) x hx
    · rw [hx]; decide
    · rw [hx]; decide
    · rcases hx with hx | hx
      · rw [hx]; decide
      · exact (hsuf x hx).2
  have hhead := parseFileName_head h n.type [] (h.chartype n.type) ['0', '1']
    (padZero 12 (fmtDec n.sec.toNat) ++ '.' :: (padZero 9 (fmtDec n.nsec.toNat) ++ '_' ::
        (fmtDec n.size ++ '_' :: (n.header_hash ++ '_' :: (['0'] ++ '.' ::
          h.suffixtype n.type)))))
    (Or.inl rfl) hnoslash htype hchar.2.2 (by decide) (by rw [← hshape]; exact hlenM)
  rw [hshape, hhead]
  have hatoi : atoi ['0', '1'] = 1 := by decide
  rw [hatoi, if_pos rfl]
  have hfields := parseFileNameVersion1_fields h n.type 1 [h.chartype n.type, '0', '1', '_']
    (padZero 12 (fmtDec n.sec.toNat)) (padZero 9 (fmtDec n.nsec.toNat)) (fmtDec n.size)
    n.header_hash ['0'] (h.suffixtype n.type) 0 3 rfl hS hN hd3 hhash (by decide)
    (by rw [← hshape2]; exact hlenM)
  have e1 : atol (padZero 12 (fmtDec n.sec.toNat)) = n.sec := by
    rw [atol_of_value _ n.sec.toNat (by rw [padZero_value]; exact hv1) (by omega)]
    omega
  have e2 : atol (padZero 9 (fmtDec n.nsec.toNat)) = n.nsec := by
    rw [atol_of_value _ n.nsec.toNat (by rw [padZero_value]; exact hv2) (by omega)]
    omega
  have e3 : (atol (fmtDec n.size)).toNat = n.size := by
    rw [atol_of_value _ n.size hv3 hsize]
    rfl
  have e4 : toU (strtol ['0'] 16).toNat = 0 := by decide
  rw [if_neg (by simp), e1, e2, e3, e4] at hfields
  exact hfields
/-- C11, witness: the index archive of the comment at storage_rclone.cc:51, with a
part number that the name does not keep. -/
theorem version1_roundtrip_witness :
    version1Text specHelpers indexFileName = indexName ∧
    asStringWithDir specHelpers indexFileName none = some (version1Text specHelpers indexFileName) ∧
    parseFileName specHelpers (version1Text specHelpers indexFileName) = Parsed.ok
      { type := 'z', version := 1, sec := 1506595429, nsec := 268937346, size := 0,
        header_hash := indexFileName.header_hash, part_nr := 0, num_parts := 0 } :=
  ⟨by decide,
   version1_roundtrip specHelpers indexFileName rfl (by decide) (by decide) (by decide)
    (by decide) (by decide) (by decide) (by decide) (by decide) (by decide) (by decide)⟩

/-- C11, counterexample to the claim as stated for every name: a time stamp one
second before 1970 is printed as the unsigned number `18446744073709551615` and read
back as `2^63 - 1`; a size of `2^63` is read back as `2^63 - 1`; a hash that is not
hexadecimal gives a name that the parser rejects. -/
theorem version1_roundtrip_counterexample :
    beforeEpochName.version = 1 ∧
    asStringWithDir specHelpers beforeEpochName none =
      some "s01_18446744073709551615.000000000_5_ab_0.tar".toList ∧
    parseFileName specHelpers "s01_18446744073709551615.000000000_5_ab_0.tar".toList =
      Parsed.ok { beforeEpochName with sec := 2 ^ 63 - 1 } ∧
    asStringWithDir specHelpers hugeSizeName none =
      some "s01_000000000001.000000002_9223372036854775808_ab_0.tar".toList ∧
    parseFileName specHelpers "s01_000000000001.000000002_9223372036854775808_ab_0.tar".toList =
      Parsed.ok { hugeSizeName with size := 2 ^ 63 - 1 } ∧
    asStringWithDir specHelpers badHashName none =
      some "s01_000000000001.000000002_5_xy_0.tar".toList ∧
    parseFileName specHelpers "s01_000000000001.000000002_5_xy_0.tar".toList = Parsed.no := by
  decide

/-! ## Parts of a split archive -/

/-- The origin of a position in a later part, when nothing wraps. -/
theorem origin_value (u : TarFile) (partnr off : Nat) (hp : 0 < partnr)
    (hlt : partnr < u.num_parts_) (hU : u.num_parts_ < UINT_MOD)
    (hps : u.header_size_ ≤ u.part_size_) (hh : u.header_size_ ≤ off)
    (hfit : off - u.header_size_ + u.part_size_
      + (partnr - 1) * (u.part_size_ - u.header_size_) < SIZE_MOD) :
    u.calculateOriginTarOffset partnr off =
      some (off - u.header_size_ + u.part_size_
        + (partnr - 1) * (u.part_size_ - u.header_size_)) := by
  unfold TarFile.calculateOriginTarOffset
  rw [if_neg (by omega), if_neg (by omega), if_neg (by omega)]
  have e1 : subSz off u.header_size_ = off - u.header_size_ := subSz_eq (by omega) hh
  have e2 : subSz u.part_size_ u.header_size_ = u.part_size_ - u.header_size_ :=
    subSz_eq (by omega) hps
  have e3 : subU partnr 1 = partnr - 1 := subU_eq (by omega) (by omega)
  have e4 : mulSz (partnr - 1) (u.part_size_ - u.header_size_) =
      (partnr - 1) * (u.part_size_ - u.header_size_) := mulSz_eq (by omega)
  have e5 : addSz (off - u.header_size_) u.part_size_ = off - u.header_size_ + u.part_size_ :=
    addSz_eq (by omega)
  have e6 : addSz (off - u.header_size_ + u.part_size_)
      ((partnr - 1) * (u.part_size_ - u.header_size_)) =
      off - u.header_size_ + u.part_size_
        + (partnr - 1) * (u.part_size_ - u.header_size_) := addSz_eq hfit
  simp only [e1, e2, e3, e4, e5, e6]

/-- C25.  Parts continue seamlessly: for every archive that `fixSize` has split into
two or more parts, `calculateOriginTarOffset(1, header_size) = part_size`, and for
every `k` with `0 <= k < num_parts - 1`,
`calculateOriginTarOffset(k+1, header_size) = calculateOriginTarOffset(k, part_size)`,
both being the logical offset `part_size + k * (part_size - header_size)`: the first
content byte of a part follows the last byte of the part before it. -/
theorem parts_continue (t u : TarFile) (split_size : Nat) (ths : TarHeaderStyle)
    (hfit : t.current_tar_offset_ < SIZE_MOD)
    (hu : t.fixSize split_size ths = some u) (hsplit : 2 ≤ u.num_parts_) :
    u.calculateOriginTarOffset 1 u.header_size_ = some u.part_size_ ∧
    ∀ k, k + 1 < u.num_parts_ →
      u.calculateOriginTarOffset (k + 1) u.header_size_ =
        u.calculateOriginTarOffset k u.part_size_ ∧
      u.calculateOriginTarOffset (k + 1) u.header_size_ =
        some (u.part_size_ + k * (u.part_size_ - u.header_size_)) := by
  obtain ⟨hU, hlaw⟩ := fixSize_layout t u split_size ths hfit hu
  obtain ⟨h1, h2, h3, h4⟩ := hlaw hsplit
  have hS : u.size_ < SIZE_MOD := by rw [(fixSize_size t u split_size ths hu).1]; exact hfit
  have key : ∀ k, k + 1 < u.num_parts_ →
      u.calculateOriginTarOffset (k + 1) u.header_size_ =
        some (u.part_size_ + k * (u.part_size_ - u.header_size_)) := by
    intro k hk
    have hle : k * (u.part_size_ - u.header_size_) ≤
        (u.num_parts_ - 2) * (u.part_size_ - u.header_size_) :=
      Nat.mul_le_mul_right _ (by omega)
    rw [origin_value u (k + 1) u.header_size_ (by omega) hk hU (by omega) (le_refl _)
      (by simp only [Nat.add_sub_cancel]; omega)]
    simp only [Nat.add_sub_cancel]
    congr 1
    omega
  refine ⟨?_, ?_⟩
  · have := key 0 (by omega)
    simpa using this
  · intro k hk
    refine ⟨?_, key k hk⟩
    rw [key k hk]
    rcases Nat.eq_zero_or_pos k with h0 | hpos
    · subst h0
      unfold TarFile.calculateOriginTarOffset
      rw [if_neg (by omega), if_pos rfl]
      simp
    · have hle : k * (u.part_size_ - u.header_size_) ≤
          (u.num_parts_ - 2) * (u.part_size_ - u.header_size_) :=
        Nat.mul_le_mul_right _ (by omega)
      have hk1 : k * (u.part_size_ - u.header_size_) =
          (k - 1) * (u.part_size_ - u.header_size_) + (u.part_size_ - u.header_size_) := by
        have : k = (k - 1) + 1 := by omega
        nth_rewrite 1 [this]
        rw [Nat.succ_mul]
      rw [origin_value u k u.part_size_ hpos (by omega) hU (by omega) (by omega) (by omega)]
      congr 1
      omega

/-- C25, witness: the example archive of two parts; its second part starts at the
logical offset 2560. -/
theorem parts_continue_witness :
    exampleArchive.calculateOriginTarOffset 1 512 = some 2560 ∧
    exampleArchive.calculateOriginTarOffset 0 2560 = some 2560 ∧
    (exampleArchive.calculateOriginTarOffset 1 exampleArchive.header_size_ =
        some exampleArchive.part_size_ ∧
      ∀ k, k + 1 < exampleArchive.num_parts_ →
        exampleArchive.calculateOriginTarOffset (k + 1) exampleArchive.header_size_ =
          exampleArchive.calculateOriginTarOffset k exampleArchive.part_size_ ∧
        exampleArchive.calculateOriginTarOffset (k + 1) exampleArchive.header_size_ =
          some (exampleArchive.part_size_ +
            k * (exampleArchive.part_size_ - exampleArchive.header_size_))) :=
  ⟨by decide, by decide,
   parts_continue exampleBuilt exampleArchive 2560 TarHeaderStyle.WithHeaders (by decide)
    (by decide) (by decide)⟩

/-- The origin of a content position of a split archive, in closed form. -/
theorem contentPos_origin (u : TarFile) (hS : u.size_ < SIZE_MOD) (hU : u.num_parts_ < UINT_MOD)
    (hn : 2 ≤ u.num_parts_)
    (hlaw : u.header_size_ < u.part_size_ ∧ u.header_size_ < u.last_part_size_ ∧
      u.last_part_size_ < SIZE_MOD ∧
      u.part_size_ + (u.num_parts_ - 2) * (u.part_size_ - u.header_size_)
        + (u.last_part_size_ - u.header_size_) = u.size_)
    (k o : Nat) (hc : u.contentPos k o) :
    (k = 0 ∧ o < u.part_size_ ∧ u.calculateOriginTarOffset k o = some o) ∨
    (1 ≤ k ∧ k < u.num_parts_ ∧ u.header_size_ ≤ o ∧
      (k + 1 < u.num_parts_ → o < u.part_size_) ∧
      (¬ k + 1 < u.num_parts_ → o < u.last_part_size_) ∧
      u.calculateOriginTarOffset k o =
        some (u.part_size_ + (k - 1) * (u.part_size_ - u.header_size_)
          + (o - u.header_size_))) := by
  obtain ⟨hk, hc⟩ := hc
  rcases hc with ⟨h0, ho⟩ | ⟨h1, hh, sz, hsz, ho⟩
  · left
    refine ⟨h0, ho, ?_⟩
    subst h0
    unfold TarFile.calculateOriginTarOffset
    rw [if_neg (by omega), if_pos rfl]
  · right
    have hsz2 := size_of_split u k hn hU hk
    rw [hsz] at hsz2
    injection hsz2 with hsz2
    obtain ⟨p, hp, _, _, hval⟩ := origin_lt_size u hS hU (fun _ => hlaw) k o sz hsz ho
      (fun _ => hh)
    refine ⟨h1, hk, hh, ?_, ?_, ?_⟩
    · intro hlt
      rw [if_pos hlt] at hsz2
      omega
    · intro hlt
      rw [if_neg hlt] at hsz2
      omega
    · rw [hp, hval (by omega)]
      congr 1
      omega

/-- C30.  The part/offset mapping tiles the logical stream: for every archive that
`fixSize` has split into two or more parts, `calculateOriginTarOffset` on the content
positions (every position of part 0, and the positions from `header_size` up to the
size of the part in the later parts) returns an offset below `size`, is strictly
increasing in the lexicographic order on (part, position), is injective, and reaches
every offset below `size`. -/
theorem parts_tile (t u : TarFile) (split_size : Nat) (ths : TarHeaderStyle)
    (hfit : t.current_tar_offset_ < SIZE_MOD)
    (hu : t.fixSize split_size ths = some u) (hsplit : 2 ≤ u.num_parts_) :
    (∀ k o, u.contentPos k o →
      ∃ p, u.calculateOriginTarOffset k o = some p ∧ p < u.size_) ∧
    (∀ k o k' o' p p', u.contentPos k o → u.contentPos k' o' →
      u.calculateOriginTarOffset k o = some p →
      u.calculateOriginTarOffset k' o' = some p' →
      (k < k' ∨ (k = k' ∧ o < o')) → p < p') ∧
    (∀ k o k' o', u.contentPos k o → u.contentPos k' o' →
      u.calculateOriginTarOffset k o = u.calculateOriginTarOffset k' o' →
      k = k' ∧ o = o') ∧
    (∀ p, p < u.size_ →
      ∃ k o, u.contentPos k o ∧ u.calculateOriginTarOffset k o = some p) := by
  obtain ⟨hU, hlaw⟩ := fixSize_layout t u split_size ths hfit hu
  have hl := hlaw hsplit
  obtain ⟨h1, h2, h3, h4⟩ := hl
  have hS : u.size_ < SIZE_MOD := by rw [(fixSize_size t u split_size ths hu).1]; exact hfit
  have horg := contentPos_origin u hS hU hsplit ⟨h1, h2, h3, h4⟩
  generalize hd : u.part_size_ - u.header_size_ = d at h4 horg
  have hdpos : 0 < d := by omega
  -- the products that occur, as facts about `d`
  have hstep : ∀ k, 1 ≤ k → (k - 1) * d + d = k * d := by
    intro k hk
    have : k = (k - 1) + 1 := by omega
    nth_rewrite 2 [this]
    rw [Nat.succ_mul]
  have hmono : ∀ a b, a ≤ b → a * d ≤ b * d := fun a b h => Nat.mul_le_mul_right d h
  have hlt : ∀ k o k' o' p p', u.contentPos k o → u.contentPos k' o' →
      u.calculateOriginTarOffset k o = some p →
      u.calculateOriginTarOffset k' o' = some p' →
      (k < k' ∨ (k = k' ∧ o < o')) → p < p' := by
    intro k o k' o' p p' hc hc' hp hp' hord
    rcases horg k o hc with ⟨hk0, ho, he⟩ | ⟨hk1, hkn, hh, hmid, hlast, he⟩
    · rw [he] at hp
      injection hp with hp
      rcases horg k' o' hc' with ⟨hk0', ho', he'⟩ | ⟨hk1', hkn', hh', hmid', hlast', he'⟩
      · rw [he'] at hp'
        injection hp' with hp'
        omega
      · rw [he'] at hp'
        injection hp' with hp'
        omega
    · rw [he] at hp
      injection hp with hp
      rcases horg k' o' hc' with ⟨hk0', ho', he'⟩ | ⟨hk1', hkn', hh', hmid', hlast', he'⟩
      · omega
      · rw [he'] at hp'
        injection hp' with hp'
        rcases hord with hkk | ⟨hkk, hoo⟩
        · have := hmid (by omega)
          have h5 := hstep k hk1
          have h6 := hmono k (k' - 1) (by omega)
          omega
        · subst hkk
          omega
  refine ⟨?_, hlt, ?_, ?_⟩
  · intro k o hc
    rcases horg k o hc with ⟨hk0, ho, he⟩ | ⟨hk1, hkn, hh, hmid, hlast, he⟩
    · exact ⟨o, he, by omega⟩
    · refine ⟨_, he, ?_⟩
      by_cases hm : k + 1 < u.num_parts_
      · have := hmid hm
        have h5 := hstep k hk1
        have h6 := hmono k (u.num_parts_ - 2) (by omega)
        omega
      · have := hlast hm
        have h7 : k - 1 = u.num_parts_ - 2 := by omega
        rw [h7]
        omega
  · intro k o k' o' hc hc' heq
    obtain ⟨p, hp, _⟩ : ∃ p, u.calculateOriginTarOffset k o = some p ∧ True := by
      rcases horg k o hc with ⟨_, _, he⟩ | ⟨_, _, _, _, _, he⟩
      · exact ⟨_, he, trivial⟩
      · exact ⟨_, he, trivial⟩
    have hp' : u.calculateOriginTarOffset k' o' = some p := by rw [← heq]; exact hp
    by_contra hne
    have hcases : (k < k' ∨ (k = k' ∧ o < o')) ∨ (k' < k ∨ (k' = k ∧ o' < o)) := by
      by_cases hkk : k = k'
      · by_cases hoo : o = o'
        · exact absurd ⟨hkk, hoo⟩ hne
        · rcases Nat.lt_or_gt_of_ne hoo with h | h
          · exact Or.inl (Or.inr ⟨hkk, h⟩)
          · exact Or.inr (Or.inr ⟨hkk.symm, h⟩)
      · rcases Nat.lt_or_gt_of_ne hkk with h | h
        · exact Or.inl (Or.inl h)
        · exact Or.inr (Or.inl h)
    rcases hcases with h | h
    · exact absurd (hlt k o k' o' p p hc hc' hp hp' h) (lt_irrefl p)
    · exact absurd (hlt k' o' k o p p hc' hc hp' hp h) (lt_irrefl p)
  · intro p hp
    by_cases hfirst : p < u.part_size_
    · have hc : u.contentPos 0 p := ⟨by omega, Or.inl ⟨rfl, hfirst⟩⟩
      refine ⟨0, p, hc, ?_⟩
      rcases horg 0 p hc with ⟨_, _, he⟩ | ⟨hk1, _⟩
      · exact he
      · omega
    · obtain ⟨q, hq⟩ : ∃ q, q = p - u.part_size_ := ⟨_, rfl⟩
      have hdm : d * (q / d) + q % d = q := Nat.div_add_mod q d
      have hml : q % d < d := Nat.mod_lt q hdpos
      rw [Nat.mul_comm] at hdm
      generalize q / d = a at hdm
      generalize q % d = r at hdm hml
      by_cases hmid : a + 2 < u.num_parts_
      · have hsz := size_of_split u (a + 1) hsplit hU (by omega)
        rw [if_pos (by omega)] at hsz
        have hc : u.contentPos (a + 1) (r + u.header_size_) :=
          ⟨by omega, Or.inr ⟨by omega, by omega, _, hsz, by omega⟩⟩
        refine ⟨_, _, hc, ?_⟩
        rcases horg _ _ hc with ⟨hk0, _⟩ | ⟨_, _, _, _, _, he⟩
        · omega
        · rw [he]
          congr 1
          simp only [Nat.add_sub_cancel]
          omega
      · have h8 := hmono (u.num_parts_ - 2) a (by omega)
        have hsz := size_of_split u (u.num_parts_ - 1) hsplit hU (by omega)
        rw [if_neg (by omega)] at hsz
        have hc : u.contentPos (u.num_parts_ - 1)
            (q - (u.num_parts_ - 2) * d + u.header_size_) :=
          ⟨by omega, Or.inr ⟨by omega, by omega, _, hsz, by omega⟩⟩
        refine ⟨_, _, hc, ?_⟩
        rcases horg _ _ hc with ⟨hk0, _⟩ | ⟨_, _, _, _, _, he⟩
        · omega
        · rw [he]
          congr 1
          have h9 : u.num_parts_ - 1 - 1 = u.num_parts_ - 2 := by omega
          rw [h9]
          simp only [Nat.add_sub_cancel]
          omega

/-- C30, witness: the example archive of two parts and 3584 bytes. -/
theorem parts_tile_witness :
    exampleArchive.size_ = 3584 ∧
    exampleArchive.calculateOriginTarOffset 1 512 = some 2560 ∧
    ((∀ k o, exampleArchive.contentPos k o →
      ∃ p, exampleArchive.calculateOriginTarOffset k o = some p ∧ p < exampleArchive.size_) ∧
    (∀ k o k' o' p p', exampleArchive.contentPos k o → exampleArchive.contentPos k' o' →
      exampleArchive.calculateOriginTarOffset k o = some p →
      exampleArchive.calculateOriginTarOffset k' o' = some p' →
      (k < k' ∨ (k = k' ∧ o < o')) → p < p') ∧
    (∀ k o k' o', exampleArchive.contentPos k o → exampleArchive.contentPos k' o' →
      exampleArchive.calculateOriginTarOffset k o =
        exampleArchive.calculateOriginTarOffset k' o' →
      k = k' ∧ o = o') ∧
    (∀ p, p < exampleArchive.size_ →
      ∃ k o, exampleArchive.contentPos k o ∧
        exampleArchive.calculateOriginTarOffset k o = some p)) :=
  ⟨by decide, by decide,
   parts_tile exampleBuilt exampleArchive 2560 TarHeaderStyle.WithHeaders (by decide)
    (by decide) (by decide)⟩

/-! ## The steps of the splitter -/

/-- The result of `splitParts_` in terms of its intermediate values. -/
theorem splitPartsWith_steps (file_size split_size mv : Nat) :
    splitPartsWith file_size split_size mv =
      if ¬ (split_size > mv) then none
      else if (splitSteps file_size split_size mv).stores = file_size then
        some { num_parts := (splitSteps file_size split_size mv).num_parts,
               part_size := split_size, last_part_size := split_size, mv_header_size := mv }
      else if (splitSteps file_size split_size mv).last_part_size =
          addSz (splitSteps file_size split_size mv).stored_in_last_part mv then
        some { num_parts := (splitSteps file_size split_size mv).num_parts_inc,
               part_size := split_size,
               last_part_size := (splitSteps file_size split_size mv).last_part_size,
               mv_header_size := mv }
      else none :=
  rfl

/-- The intermediate values of the splitter when the number of parts fits a `uint`. -/
theorem splitSteps_value (file_size split_size mv : Nat)
    (h1 : mv < split_size) (h2 : split_size < file_size) (h3 : file_size < SIZE_MOD)
    (h4 : ceilParts file_size split_size mv < UINT_MOD) :
    (splitSteps file_size split_size mv).num_parts = (file_size - mv) / (split_size - mv) ∧
    1 ≤ (file_size - mv) / (split_size - mv) ∧
    (splitSteps file_size split_size mv).stores =
      split_size + ((file_size - mv) / (split_size - mv) - 1) * (split_size - mv) ∧
    (splitSteps file_size split_size mv).stores + (file_size - mv) % (split_size - mv) =
      file_size ∧
    ((file_size - mv) % (split_size - mv) ≠ 0 →
      (splitSteps file_size split_size mv).num_parts_inc =
        (file_size - mv) / (split_size - mv) + 1 ∧
      (splitSteps file_size split_size mv).stored_in_last_part =
        (file_size - mv) % (split_size - mv) ∧
      (splitSteps file_size split_size mv).last_part_size =
        (file_size - mv) % (split_size - mv) + mv) := by
  rw [ceilParts_eq _ _ _ h1] at h4
  unfold splitSteps
  have hd : 0 < split_size - mv := by omega
  have hdm := Nat.div_add_mod (file_size - mv) (split_size - mv)
  have hlt := Nat.mod_lt (file_size - mv) hd
  have e1 : subSz file_size mv = file_size - mv := subSz_eq h3 (by omega)
  have e2 : subSz split_size mv = split_size - mv := subSz_eq (by omega) (by omega)
  simp only [e1, e2]
  generalize hq : (file_size - mv) / (split_size - mv) = q at *
  generalize hr : (file_size - mv) % (split_size - mv) = r at *
  have hq1 : 1 ≤ q := by
    rw [← hq]
    exact (Nat.one_le_div_iff hd).2 (by omega)
  have hqlt : q < UINT_MOD := by
    split at h4 <;> omega
  have e3 : toU q = q := toU_eq hqlt
  have e4 : subU q 1 = q - 1 := subU_eq hqlt hq1
  have hmul : (q - 1) * (split_size - mv) + (split_size - mv) = (split_size - mv) * q := by
    have : q = (q - 1) + 1 := by omega
    rw [Nat.mul_comm (split_size - mv) q]
    nth_rewrite 2 [this]
    rw [Nat.add_mul, Nat.one_mul]
  have e5 : mulSz (q - 1) (split_size - mv) = (q - 1) * (split_size - mv) :=
    mulSz_eq (by omega)
  have e6 : addSz split_size ((q - 1) * (split_size - mv)) =
      split_size + (q - 1) * (split_size - mv) := addSz_eq (by omega)
  simp only [e3, e4, e5, e6]
  refine ⟨trivial, hq1, trivial, by omega, ?_⟩
  intro hr0
  have hq2 : q + 1 < UINT_MOD := by
    rw [if_neg hr0] at h4; exact h4
  have e7 : toU (q + 1) = q + 1 := toU_eq hq2
  have e8 : subU (q + 1) 2 = q - 1 := by
    rw [subU_eq hq2 (by omega)]; omega
  have e9 : subSz file_size split_size = file_size - split_size := subSz_eq h3 (by omega)
  have e10 : subSz (file_size - split_size) ((q - 1) * (split_size - mv)) = r := by
    rw [subSz_eq (by omega) (by omega)]; omega
  have e11 : subSz (addSz mv file_size) (split_size + (q - 1) * (split_size - mv)) = r + mv := by
    generalize (q - 1) * (split_size - mv) = S at *
    simp only [subSz_mod]
    unfold addSz SIZE_MOD
    unfold SIZE_MOD at h3
    omega
  simp only [e7, e8, e9, e5, e10, e11]
  exact ⟨trivial, trivial, trivial⟩

/-- C31 (as amended).  Splitter arithmetic is safe: for every
`file_size > split_size > mv` with `file_size` a 64 bit value and a number of parts
that fits the 32 bit `num_parts`, no unsigned subtraction of `splitParts_` underflows
(`file_size - mv`, `split_size - mv`, `num_parts - 1`, `file_size - stores`, and in the
branch that adds a final part `file_size - stored_in_first_part`, `num_parts - 2` and
the subtraction of the middle parts), the computed `num_parts` is at least 1 before
the increment, `stores <= file_size`, the assertion
`last_part_size == stored_in_last_part + mv_header_size` holds, and the function
returns. -/
theorem splitParts_safe (file_size split_size : Nat) (ths : TarHeaderStyle)
    (h1 : mvHeaderSize ths < split_size) (h2 : split_size < file_size)
    (h3 : file_size < SIZE_MOD)
    (h4 : ceilParts file_size split_size (mvHeaderSize ths) < UINT_MOD) :
    mvHeaderSize ths ≤ file_size ∧ mvHeaderSize ths ≤ split_size ∧
    1 ≤ (splitSteps file_size split_size (mvHeaderSize ths)).num_parts ∧
    (splitSteps file_size split_size (mvHeaderSize ths)).stores ≤ file_size ∧
    ((splitSteps file_size split_size (mvHeaderSize ths)).stores ≠ file_size →
      2 ≤ (splitSteps file_size split_size (mvHeaderSize ths)).num_parts_inc ∧
      split_size ≤ file_size ∧
      ((splitSteps file_size split_size (mvHeaderSize ths)).num_parts_inc - 2)
        * (split_size - mvHeaderSize ths) ≤ file_size - split_size ∧
      (splitSteps file_size split_size (mvHeaderSize ths)).last_part_size =
        (splitSteps file_size split_size (mvHeaderSize ths)).stored_in_last_part
          + mvHeaderSize ths) ∧
    ∃ r, splitParts_ file_size split_size ths = some r := by
  obtain ⟨hn, hq1, hst, hsum, hinc⟩ :=
    splitSteps_value file_size split_size (mvHeaderSize ths) h1 h2 h3 h4
  refine ⟨by omega, by omega, by omega, by omega, ?_,
    splitPartsWith_returns file_size split_size (mvHeaderSize ths) h1⟩
  intro hne
  have hr0 : (file_size - mvHeaderSize ths) % (split_size - mvHeaderSize ths) ≠ 0 := by
    intro h0
    rw [h0] at hsum
    exact hne (by omega)
  obtain ⟨hi, hsl, hlp⟩ := hinc hr0
  refine ⟨by omega, by omega, ?_, by omega⟩
  rw [hi]
  have e : (file_size - mvHeaderSize ths) / (split_size - mvHeaderSize ths) + 1 - 2 =
      (file_size - mvHeaderSize ths) / (split_size - mvHeaderSize ths) - 1 := by omega
  rw [e]
  omega

/-- C31, witness: 14 blocks split at 5 blocks with multi-volume headers. -/
theorem splitParts_safe_witness :
    splitSteps 7168 2560 512 =
      { num_parts := 3, stores := 6656, num_parts_inc := 4, last_part_size := 1024,
        stored_in_last_part := 512 } ∧
    (mvHeaderSize TarHeaderStyle.WithHeaders ≤ 7168 ∧
      mvHeaderSize TarHeaderStyle.WithHeaders ≤ 2560 ∧
      1 ≤ (splitSteps 7168 2560 (mvHeaderSize TarHeaderStyle.WithHeaders)).num_parts ∧
      (splitSteps 7168 2560 (mvHeaderSize TarHeaderStyle.WithHeaders)).stores ≤ 7168 ∧
      ((splitSteps 7168 2560 (mvHeaderSize TarHeaderStyle.WithHeaders)).stores ≠ 7168 →
        2 ≤ (splitSteps 7168 2560 (mvHeaderSize TarHeaderStyle.WithHeaders)).num_parts_inc ∧
        2560 ≤ 7168 ∧
        ((splitSteps 7168 2560 (mvHeaderSize TarHeaderStyle.WithHeaders)).num_parts_inc - 2)
          * (2560 - mvHeaderSize TarHeaderStyle.WithHeaders) ≤ 7168 - 2560 ∧
        (splitSteps 7168 2560 (mvHeaderSize TarHeaderStyle.WithHeaders)).last_part_size =
          (splitSteps 7168 2560
            (mvHeaderSize TarHeaderStyle.WithHeaders)).stored_in_last_part
            + mvHeaderSize TarHeaderStyle.WithHeaders) ∧
      ∃ r, splitParts_ 7168 2560 TarHeaderStyle.WithHeaders = some r) :=
  ⟨by decide,
   splitParts_safe 7168 2560 TarHeaderStyle.WithHeaders (by decide) (by decide) (by decide)
    (by decide)⟩

/-- C31, counterexample to the claim as stated for every `file_size > split_size > mv`:
with `file_size = 2^52`, `split_size = 2^20` and no multi-volume header the quotient
`2^32` does not fit the 32 bit `num_parts`, which becomes 0; `num_parts - 1` then
wraps to `2^32 - 1`, and `stores` comes out as `file_size`, so that the function
returns 0 parts. -/
theorem splitParts_safe_counterexample :
    mvHeaderSize TarHeaderStyle.None < 2 ^ 20 ∧ 2 ^ 20 < 2 ^ 52 ∧
    (2 ^ 52 - mvHeaderSize TarHeaderStyle.None) / (2 ^ 20 - mvHeaderSize TarHeaderStyle.None)
      = 2 ^ 32 ∧
    (splitSteps (2 ^ 52) (2 ^ 20) (mvHeaderSize TarHeaderStyle.None)).num_parts = 0 ∧
    ¬ 1 ≤ (splitSteps (2 ^ 52) (2 ^ 20) (mvHeaderSize TarHeaderStyle.None)).num_parts ∧
    subU (splitSteps (2 ^ 52) (2 ^ 20) (mvHeaderSize TarHeaderStyle.None)).num_parts 1
      = 2 ^ 32 - 1 ∧
    (splitParts_ (2 ^ 52) (2 ^ 20) TarHeaderStyle.None).map (fun r => r.num_parts) = some 0 := by
  decide

/-! ## Prepending an entry -/

theorem opsEntries_last (xs l : List TarEntry) :
    opsEntries xs (l.map BuildOp.last) = xs ++ l := by
  induction l generalizing xs with
  | nil => simp [opsEntries]
  | cons a rest ih =>
    simp only [List.map_cons, opsEntries]
    rw [ih]
    simp

/-- The members that the building steps do not touch. -/
theorem runOps_frame (ops : List BuildOp) (t : TarFile) :
    (runOps t ops).size_ = t.size_ ∧ (runOps t ops).num_parts_ = t.num_parts_ ∧
    (runOps t ops).part_size_ = t.part_size_ ∧
    (runOps t ops).last_part_size_ = t.last_part_size_ ∧
    (runOps t ops).header_size_ = t.header_size_ ∧
    (runOps t ops).tar_entry_ = t.tar_entry_ := by
  induction ops generalizing t with
  | nil => exact ⟨rfl, rfl, rfl, rfl, rfl, rfl⟩
  | cons op rest ih =>
    cases op with
    | last e => exact ih (t.addEntryLast e)
    | first e => exact ih (t.addEntryFirst e)

theorem tarFile_eq (a b : TarFile) (h1 : a.size_ = b.size_)
    (h2 : a.current_tar_offset_ = b.current_tar_offset_) (h3 : a.contents_ = b.contents_)
    (h4 : a.offsets = b.offsets) (h5 : a.num_parts_ = b.num_parts_)
    (h6 : a.part_size_ = b.part_size_) (h7 : a.last_part_size_ = b.last_part_size_)
    (h8 : a.header_size_ = b.header_size_) (h9 : a.tar_entry_ = b.tar_entry_) : a = b := by
  cases a
  cases b
  simp only at h1 h2 h3 h4 h5 h6 h7 h8 h9
  subst h1 h2 h3 h4 h5 h6 h7 h8 h9
  rfl

/-- C24 (as amended).  Prepending re-bases every entry: for every archive that
satisfies the offset invariant and every entry `e` of positive blocked size such that
the accumulator plus `e.blockedSize()` stays below `2^64`, after `addEntryFirst(e)`
the entry `e` is at offset 0, every previously contained entry sits at its old offset
plus `e.blockedSize()` in the same relative order and is registered with that offset,
`current_tar_offset_` has grown by `e.blockedSize()`, the offset invariant holds again,
and the state is the one that `addEntryLast` builds from an empty archive over the
entry list with `e` placed first. -/
theorem addEntryFirst_rebases (t : TarFile) (e : TarEntry) (hinv : t.OffsetInvariant)
    (he : 0 < e.blockedSize) (hfit : t.current_tar_offset_ + e.blockedSize < SIZE_MOD) :
    mapGet (t.addEntryFirst e).contents_ 0 = some e ∧
    (t.addEntryFirst e).contents_ =
      (0, e) :: t.contents_.map (fun a => (a.1 + e.blockedSize, a.2)) ∧
    (t.addEntryFirst e).offsets = 0 :: t.offsets.map (fun o => o + e.blockedSize) ∧
    t.addEntryFirstRegistrations e =
      (e, 0) :: (e, 0) :: t.contents_.map (fun a => (a.2, a.1 + e.blockedSize)) ∧
    (t.addEntryFirst e).current_tar_offset_ = t.current_tar_offset_ + e.blockedSize ∧
    (t.addEntryFirst e).OffsetInvariant ∧
    t.addEntryFirst e = runOps t.emptied ((e :: t.entries).map BuildOp.last) := by
  have hb := offsetInvariant_built t hinv
  have hpos := hinv.2.2.1
  have hcur := hinv.2.2.2
  have hfit2 : totalBlocked t.entries + e.blockedSize < SIZE_MOD := by rw [← hcur]; exact hfit
  have hb1 := addEntryFirst_built t t.entries e hb hpos he hfit2
  have hinv1 := (built_offsetInvariant _ _ hb1 (by
    intro a ha
    rcases List.mem_cons.1 ha with h | h
    · rw [h]; exact he
    · exact hpos a h)).2
  have hshift : entryOffsets (0 + e.blockedSize) t.entries
      = (entryOffsets 0 t.entries).map (fun x => x + e.blockedSize) :=
    entryOffsets_shift t.entries 0 _
  have hc1 : (t.addEntryFirst e).contents_ =
      (0, e) :: t.contents_.map (fun a => (a.1 + e.blockedSize, a.2)) := by
    rw [hb1.1, hb.1]
    simp only [entryOffsets, List.zip_cons_cons, hshift]
    rw [List.zip_map_left]
    rfl
  have ho1 : (t.addEntryFirst e).offsets = 0 :: t.offsets.map (fun o => o + e.blockedSize) := by
    rw [hb1.2.1, hb.2.1]
    simp only [entryOffsets, hshift]
  have hkeys : ∀ a ∈ t.contents_, a.1 + e.blockedSize < SIZE_MOD := by
    intro a ha
    have hmem : a.1 ∈ entryOffsets 0 t.entries := by
      rw [← hinv.2.1, ← hinv.1]
      exact List.mem_map_of_mem Prod.fst ha
    have := (entryOffsets_mem_range t.entries 0 a.1 hpos hmem).2
    omega
  refine ⟨?_, hc1, ho1, ?_, ?_, hinv1, ?_⟩
  · rw [hc1]
    simp [mapGet]
  · unfold TarFile.addEntryFirstRegistrations
    congr 2
    apply List.map_congr_left
    intro a ha
    rw [addSz_eq (hkeys a ha)]
  · rw [hb1.2.2, hcur]
    simp only [totalBlocked]
    omega
  · obtain ⟨hb2, _⟩ := runOps_built ((e :: t.entries).map BuildOp.last) t.emptied []
      ⟨rfl, rfl, rfl⟩ (fun a ha => absurd ha (List.not_mem_nil a))
      (by
        intro op hop
        obtain ⟨a, ha, rfl⟩ := List.mem_map.1 hop
        rcases List.mem_cons.1 ha with h | h
        · rw [h]; exact he
        · exact hpos a h)
      (by
        rw [opsEntries_last]
        simp only [List.nil_append, totalBlocked]
        omega)
    rw [opsEntries_last, List.nil_append] at hb2
    obtain ⟨f1, f2, f3, f4, f5, f6⟩ := runOps_frame ((e :: t.entries).map BuildOp.last) t.emptied
    apply tarFile_eq
    · rw [f1]; rfl
    · rw [hb1.2.2, hb2.2.2]
    · rw [hb1.1, hb2.1]
    · rw [hb1.2.1, hb2.2.1]
    · rw [f2]; rfl
    · rw [f3]; rfl
    · rw [f4]; rfl
    · rw [f5]; rfl
    · rw [f6]; rfl

/-- C24, witness: the directory of the example is put in front of its two files. -/
theorem addEntryFirst_rebases_witness :
    ((runOps (TarFile.new none)
        [BuildOp.last (fileEntry ['d', '/', 'a'] 1),
         BuildOp.last (fileEntry ['d', '/', 'b'] 3)]).addEntryFirst (dirEntry ['d'])).offsets
      = [0, 512, 1536] ∧
    (exampleBuilt.addEntryFirst (dirEntry ['e'])).offsets = [0, 512, 1024, 2048] ∧
    (mapGet (exampleBuilt.addEntryFirst (dirEntry ['e'])).contents_ 0 = some (dirEntry ['e']) ∧
    (exampleBuilt.addEntryFirst (dirEntry ['e'])).contents_ =
      (0, dirEntry ['e']) ::
        exampleBuilt.contents_.map (fun a => (a.1 + (dirEntry ['e']).blockedSize, a.2)) ∧
    (exampleBuilt.addEntryFirst (dirEntry ['e'])).offsets =
      0 :: exampleBuilt.offsets.map (fun o => o + (dirEntry ['e']).blockedSize) ∧
    exampleBuilt.addEntryFirstRegistrations (dirEntry ['e']) =
      (dirEntry ['e'], 0) :: (dirEntry ['e'], 0) ::
        exampleBuilt.contents_.map (fun a => (a.2, a.1 + (dirEntry ['e']).blockedSize)) ∧
    (exampleBuilt.addEntryFirst (dirEntry ['e'])).current_tar_offset_ =
      exampleBuilt.current_tar_offset_ + (dirEntry ['e']).blockedSize ∧
    (exampleBuilt.addEntryFirst (dirEntry ['e'])).OffsetInvariant ∧
    exampleBuilt.addEntryFirst (dirEntry ['e']) =
      runOps exampleBuilt.emptied ((dirEntry ['e'] :: exampleBuilt.entries).map BuildOp.last)) :=
  ⟨by decide, by decide,
   addEntryFirst_rebases exampleBuilt (dirEntry ['e']) exampleBuilt_invariant (by decide)
    (by decide)⟩

theorem hugeArchive_invariant : hugeArchive.OffsetInvariant := by
  unfold TarFile.OffsetInvariant
  decide

/-- C24, counterexample to the claim as stated for every archive and entry: the
archive holds an entry of `2^63` bytes at offset 0 and a directory at offset `2^63`;
prepending another entry of `2^63` bytes moves the directory to the wrapped offset
`2^63 + 2^63 = 0`, where it replaces the new entry in `contents_`, and the accumulator
wraps to 512. -/
theorem addEntryFirst_rebases_counterexample :
    hugeArchive.OffsetInvariant ∧
    hugeArchive.offsets = [0, 2 ^ 63] ∧
    hugeArchive.current_tar_offset_ = 2 ^ 63 + 512 ∧
    mapGet (hugeArchive.addEntryFirst hugeEntry).contents_ 0 = some (dirEntry ['d']) ∧
    mapGet (hugeArchive.addEntryFirst hugeEntry).contents_ 0 ≠ some hugeEntry ∧
    (hugeArchive.addEntryFirst hugeEntry).offsets = [0, 2 ^ 63, 0] ∧
    (hugeArchive.addEntryFirst hugeEntry).contents_.length = 2 ∧
    (hugeArchive.addEntryFirst hugeEntry).current_tar_offset_ = 512 :=
  ⟨hugeArchive_invariant, by decide, by decide, by decide, by decide, by decide, by decide,
   by decide⟩

/-! ## The multi-volume header -/

/-- The header size of an archive that `fixSize` has split is the one of the header
style. -/
theorem fixSize_header (t u : TarFile) (split_size : Nat) (ths : TarHeaderStyle)
    (hfit : t.current_tar_offset_ < SIZE_MOD)
    (hu : t.fixSize split_size ths = some u) (hsplit : 2 ≤ u.num_parts_) :
    u.header_size_ = mvHeaderSize ths := by
  unfold TarFile.fixSize at hu
  simp only at hu
  by_cases hle : t.current_tar_offset_ ≤ split_size
  · rw [if_pos hle] at hu
    injection hu with hu
    subst hu
    simp at hsplit
  · rw [if_neg hle] at hu
    unfold splitParts_ at hu
    cases hr : splitPartsWith t.current_tar_offset_ split_size (mvHeaderSize ths) with
    | none => rw [hr] at hu; simp at hu
    | some r =>
      rw [hr] at hu
      simp only at hu
      injection hu with hu
      subst hu
      exact (splitPartsWith_layout _ _ _ r hfit (by omega) hr).2.1

/-- C26 (as amended).  Multi-volume header contents: for every archive that `fixSize`
has split with multi-volume headers and whose entry `tar_entry_` has the header size
`H`, the file size `S` and a path of fewer than 100 characters, and for every part `k`
with `1 <= k < num_parts` for which the assertion of `copy` holds (the part starts
after the header of the entry), the multi-volume header that `copy` synthesises for
part `k` carries `file_offset = part_size + (k-1)*(part_size - header_size) - H` and
the size `S - file_offset` computed as a `size_t`: it is `S - file_offset` when the part
resumes inside the file (`file_offset <= S`), and the wrapped value
`2^64 + S - file_offset` when the part starts past the end of the file, in its padding.
A read of the first block of part `k` returns the block of that header; for `k = 1` the
file offset is `part_size - H`. -/
theorem multivol_header (ecopy : TarEntry → Nat → Nat → List Nat)
    (mvheader : List Char → Nat → Nat → List Nat)
    (t u : TarFile) (split_size : Nat) (te : TarEntry) (k : Nat)
    (hfit : t.current_tar_offset_ < SIZE_MOD)
    (hu : t.fixSize split_size TarHeaderStyle.WithHeaders = some u)
    (hte : u.tar_entry_ = some te) (hk1 : 1 ≤ k) (hkn : k < u.num_parts_)
    (hpath : te.tarpath.length < 100) (hSfit : te.st_size < SIZE_MOD)
    (hH : te.headerSize < u.part_size_ + (k - 1) * (u.part_size_ - u.header_size_)) :
    u.multivolFields k = some (te,
      u.part_size_ + (k - 1) * (u.part_size_ - u.header_size_) - te.headerSize,
      subSz te.st_size
        (u.part_size_ + (k - 1) * (u.part_size_ - u.header_size_) - te.headerSize)) ∧
    u.copy ecopy mvheader 512 0 k = some ((List.range 512).map (fun i =>
      (mvheader te.tarpath
        (u.part_size_ + (k - 1) * (u.part_size_ - u.header_size_) - te.headerSize)
        (subSz te.st_size
          (u.part_size_ + (k - 1) * (u.part_size_ - u.header_size_) - te.headerSize))).getD
        i 0)) ∧
    (u.part_size_ + (k - 1) * (u.part_size_ - u.header_size_) - te.headerSize ≤ te.st_size →
      subSz te.st_size
        (u.part_size_ + (k - 1) * (u.part_size_ - u.header_size_) - te.headerSize) =
      te.st_size -
        (u.part_size_ + (k - 1) * (u.part_size_ - u.header_size_) - te.headerSize)) ∧
    (te.st_size < u.part_size_ + (k - 1) * (u.part_size_ - u.header_size_) - te.headerSize →
      subSz te.st_size
        (u.part_size_ + (k - 1) * (u.part_size_ - u.header_size_) - te.headerSize) =
      te.st_size + SIZE_MOD -
        (u.part_size_ + (k - 1) * (u.part_size_ - u.header_size_) - te.headerSize)) ∧
    (k = 1 → u.multivolFields k =
      some (te, u.part_size_ - te.headerSize,
        subSz te.st_size (u.part_size_ - te.headerSize))) := by
  have hsplit : 2 ≤ u.num_parts_ := by omega
  obtain ⟨hU, hlaw⟩ := fixSize_layout t u split_size _ hfit hu
  obtain ⟨h1, h2, h3, h4⟩ := hlaw hsplit
  have hSz : u.size_ < SIZE_MOD := by rw [(fixSize_size t u split_size _ hu).1]; exact hfit
  have hhdr : u.header_size_ = 512 := by
    rw [fixSize_header t u split_size _ hfit hu hsplit]
    rfl
  have hle : (k - 1) * (u.part_size_ - u.header_size_) ≤
      (u.num_parts_ - 2) * (u.part_size_ - u.header_size_) :=
    Nat.mul_le_mul_right _ (by omega)
  have horg : u.calculateOriginTarOffset k u.header_size_ =
      some (u.part_size_ + (k - 1) * (u.part_size_ - u.header_size_)) := by
    rw [origin_value u k u.header_size_ (by omega) hkn hU (by omega) (le_refl _)
      (by simp only [Nat.sub_self, Nat.zero_add]; omega)]
    simp only [Nat.sub_self, Nat.zero_add]
  generalize hX : (k - 1) * (u.part_size_ - u.header_size_) = X at *
  have hfields : u.multivolFields k = some (te, u.part_size_ + X - te.headerSize,
      subSz te.st_size (u.part_size_ + X - te.headerSize)) := by
    unfold TarFile.multivolFields
    rw [hte]
    simp only
    rw [horg]
    simp only [gt_iff_lt, not_lt]
    rw [if_neg (by omega), if_neg (by omega)]
    have e1 : subSz (u.part_size_ + X) te.headerSize = u.part_size_ + X - te.headerSize :=
      subSz_eq (by omega) (by omega)
    rw [e1]
  refine ⟨hfields, ?_, ?_, ?_, ?_⟩
  · have hsz := size_of_split u k hsplit hU hkn
    unfold TarFile.copy
    rw [if_neg (by decide)]
    simp only [hsz]
    have hpos : ¬ ((0 : Int).toNat ≥ if k + 1 < u.num_parts_ then u.part_size_
        else u.last_part_size_) := by
      split <;> simp <;> omega
    rw [if_neg hpos]
    show copyLoop ecopy mvheader u k (511 + 1) 512 0 = _
    unfold copyLoop
    rw [if_neg (by decide), if_pos ⟨by omega, by rw [hhdr]; decide⟩]
    simp only [hfields]
    have e3 : subSz u.header_size_ 0 = 512 := by rw [hhdr]; decide
    have e4 : addSz 0 512 = 512 := by decide
    have e5 : subSz 512 512 = 0 := by decide
    rw [if_neg (by rw [hhdr]; decide)]
    simp only [e3, lt_self_iff_false, if_false, e4, e5]
    rw [if_neg (by rw [hhdr]; decide)]
    have e6 : copyLoop ecopy mvheader u k 511 0 512 = some [] := by
      unfold copyLoop
      simp
    simp only [e6, List.append_nil, T_BLOCKSIZE, zero_add]
    congr 1
  · intro hS
    exact subSz_eq hSfit hS
  · intro hS
    rw [subSz_mod]
    unfold SIZE_MOD at *
    omega
  · intro hk
    subst hk
    rw [hfields]
    simp only [Nat.sub_self, Nat.zero_mul] at hX
    subst hX
    rfl

/-- C26, witness: the third part of the archive of the large file resumes at byte
4096 of the file, with 2560 bytes of the file left. -/
theorem multivol_header_witness :
    bigArchive.num_parts_ = 4 ∧
    bigArchive.multivolFields 2 = some (bigFile, 4096, 2560) ∧
    bigArchive.multivolFields 1 = some (bigFile, 2048, 4608) ∧
    bigArchive.multivolFields 2 = some (bigFile,
      bigArchive.part_size_ + (2 - 1) * (bigArchive.part_size_ - bigArchive.header_size_)
        - bigFile.headerSize,
      subSz bigFile.st_size
        (bigArchive.part_size_ + (2 - 1) * (bigArchive.part_size_ - bigArchive.header_size_)
          - bigFile.headerSize)) :=
  ⟨by decide, by decide, by decide,
   (multivol_header (TarEntry.copy exampleFramed) exampleMvHeader bigBuilt bigArchive 2560
    bigFile 2 (by decide) (by decide) (by decide) (by decide) (by decide) (by decide)
    (by decide) (by decide)).1⟩

/-- C26, counterexample to the claim as stated for every part: the archive of a file of
100 bytes (a header block and a payload block) is split at 768 bytes, so that the second
part starts in the padding of the file, at byte 256 of its payload block; there
`S - file_offset` would be negative, and the size that `copy` puts into the header is
the wrapped value `2^64 - 156`. -/
theorem multivol_header_counterexample :
    smallBuilt.fixSize 768 TarHeaderStyle.WithHeaders = some smallArchive ∧
    smallArchive.num_parts_ = 2 ∧
    smallArchive.tar_entry_ = some smallFile ∧
    smallFile.st_size = 100 ∧
    smallArchive.part_size_ - smallFile.headerSize = 256 ∧
    smallArchive.multivolFields 1 = some (smallFile, 256, 2 ^ 64 - 156) := by
  decide

/-! ## The length of a read -/

theorem hashLoop_eq (self_id : Nat) (tars : List HashedTar) (ctx : List Nat) :
    hashLoop self_id tars ctx =
      ctx ++ ((tars.filter (fun tf => decide (tf.id ≠ self_id))).map
        (fun tf => tf.sha256_hash_)).flatten := by
  induction tars generalizing ctx with
  | nil => simp [hashLoop]
  | cons tf rest ih =>
    unfold hashLoop
    by_cases h : tf.id = self_id
    · rw [if_pos h, ih]
      simp [List.filter_cons, h]
    · rw [if_neg h, ih]
      simp [List.filter_cons, h, List.append_assoc]

/-- C27.  Global hash: `calculateSHA256Hash(tars, content)` sets the hash of the
archive to SHA-256 of the concatenation, in collection order, of the hashes of every
archive in `tars` other than the archive itself, followed by the bytes of `content`,
and leaves the identity of the archive alone; the result does not depend on the
previous hash of the archive, nor on whether or where the archive itself occurs in
`tars`. -/
theorem calculateSHA256Hash_spec (sha256 : List Nat → List Nat) (self : HashedTar)
    (tars : List HashedTar) (content : List Nat) :
    (calculateSHA256Hash sha256 self tars content).sha256_hash_ =
      sha256 (((tars.filter (fun tf => decide (tf.id ≠ self.id))).map
        (fun tf => tf.sha256_hash_)).flatten ++ content) ∧
    (calculateSHA256Hash sha256 self tars content).id = self.id ∧
    (∀ old, calculateSHA256Hash sha256 { self with sha256_hash_ := old } tars content =
      calculateSHA256Hash sha256 self tars content) ∧
    (∀ pre post old,
      (calculateSHA256Hash sha256 self
        (pre ++ { id := self.id, sha256_hash_ := old } :: post) content) =
      calculateSHA256Hash sha256 self (pre ++ post) content) := by
  refine ⟨?_, rfl, ?_, ?_⟩
  · unfold calculateSHA256Hash
    simp only [hashLoop_eq, List.nil_append]
  · intro old
    rfl
  · intro pre post old
    unfold calculateSHA256Hash
    simp only [hashLoop_eq, List.nil_append, List.filter_append, List.filter_cons]
    simp

/-- C27, witness: three archives, the second being the archive itself; the identity
function stands in for SHA-256. -/
theorem calculateSHA256Hash_spec_witness :
    (calculateSHA256Hash (fun b => b) { id := 2, sha256_hash_ := [9] }
      [{ id := 1, sha256_hash_ := [1, 2] }, { id := 2, sha256_hash_ := [9] },
       { id := 3, sha256_hash_ := [3] }] [7, 8]).sha256_hash_ = [1, 2, 3, 7, 8] :=
  (calculateSHA256Hash_spec (fun b => b) { id := 2, sha256_hash_ := [9] }
      [{ id := 1, sha256_hash_ := [1, 2] }, { id := 2, sha256_hash_ := [9] },
       { id := 3, sha256_hash_ := [3] }] [7, 8]).1

/-- C28.  `TarFile::updateMtim(out)`: when the time stamp of the archive is in the
future the output time stamp is left untouched; otherwise the output becomes the later
of its previous value and the time stamp of the archive under the lexicographic
comparison of (seconds, nanoseconds): it is one of the two and neither of them is
after it; in both cases the time stamp of the archive is unchanged. -/
theorem updateMtim_spec (isInTheFuture : Timespec → Bool) (mtim_ mtim : Timespec) :
    (updateMtim isInTheFuture mtim_ mtim).1 = mtim_ ∧
    (isInTheFuture mtim_ = true → (updateMtim isInTheFuture mtim_ mtim).2 = mtim) ∧
    (isInTheFuture mtim_ = false →
      ((updateMtim isInTheFuture mtim_ mtim).2 = mtim ∨
        (updateMtim isInTheFuture mtim_ mtim).2 = mtim_) ∧
      ¬ (updateMtim isInTheFuture mtim_ mtim).2.before mtim ∧
      ¬ (updateMtim isInTheFuture mtim_ mtim).2.before mtim_ ∧
      (mtim.before mtim_ → (updateMtim isInTheFuture mtim_ mtim).2 = mtim_) ∧
      (¬ mtim.before mtim_ → (updateMtim isInTheFuture mtim_ mtim).2 = mtim)) := by
  unfold updateMtim Timespec.before
  refine ⟨?_, ?_, ?_⟩
  · split
    · rfl
    · split <;> rfl
  · intro h
    rw [if_pos h]
  · intro h
    rw [if_neg (by rw [h]; decide)]
    by_cases hc : mtim_.tv_sec > mtim.tv_sec ∨
        (mtim_.tv_sec = mtim.tv_sec ∧ mtim_.tv_nsec > mtim.tv_nsec)
    · rw [if_pos hc]
      dsimp only
      refine ⟨Or.inr rfl, by omega, by omega, fun _ => rfl, fun hn => ?_⟩
      exact absurd (by omega) hn
    · rw [if_neg hc]
      dsimp only
      refine ⟨Or.inl rfl, by omega, by omega, fun hb => ?_, fun _ => rfl⟩
      exact absurd (by omega) hc

/-- C28, witness: an archive stamped two nanoseconds after the output value, and an
archive stamped in the future. -/
theorem updateMtim_spec_witness :
    (updateMtim exampleInTheFuture { tv_sec := 100, tv_nsec := 5 }
      { tv_sec := 100, tv_nsec := 3 }).2 = { tv_sec := 100, tv_nsec := 5 } ∧
    (updateMtim exampleInTheFuture { tv_sec := 3000000000, tv_nsec := 5 }
      { tv_sec := 100, tv_nsec := 3 }).2 = { tv_sec := 100, tv_nsec := 3 } :=
  ⟨((updateMtim_spec exampleInTheFuture { tv_sec := 100, tv_nsec := 5 }
      { tv_sec := 100, tv_nsec := 3 }).2.2 (by decide)).2.2.2.1 (Or.inr ⟨rfl, by decide⟩),
   (updateMtim_spec exampleInTheFuture { tv_sec := 3000000000, tv_nsec := 5 }
      { tv_sec := 100, tv_nsec := 3 }).2.1 (by decide)⟩


/-! ## The listing of a remote storage -/

/-- One step of the listing loop in terms of the three classes of a line. -/
theorem listLine_value {TC : Type} [DecidableEq TC] (h : NameHelpers TC) (REG_FILE : TC)
    (st : Listing TC) (line : ListedLine)
    (hnf : parseFileName h line.file_name ≠ Parsed.fatal) :
    listLine h REG_FILE st line = some
      { files := st.files ++ ((acceptedOf h REG_FILE line).map Prod.fst).toList
        bad_files := st.bad_files ++ (badOf h REG_FILE line).toList
        other_files := st.other_files ++ (otherOf h line).toList
        contents := st.contents ++ ((acceptedOf h REG_FILE line).map Prod.snd).toList } ∧
    ((acceptedOf h REG_FILE line).toList.length + (badOf h REG_FILE line).toList.length
      + (otherOf h line).toList.length = 1) := by
  unfold listLine acceptedOf badOf otherOf
  cases hp : parseFileName h line.file_name with
  | fatal => exact absurd hp hnf
  | no => simp
  | ok tfn =>
    simp only
    split <;> simp

/-- The listing loop over lines none of which has a name with an unsupported
version. -/
theorem listLines_value {TC : Type} [DecidableEq TC] (h : NameHelpers TC) (REG_FILE : TC)
    (lines : List ListedLine) (st : Listing TC)
    (hnf : ∀ l ∈ lines, parseFileName h l.file_name ≠ Parsed.fatal) :
    listLines h REG_FILE st lines = some
      { files := st.files ++ (lines.filterMap (acceptedOf h REG_FILE)).map Prod.fst
        bad_files := st.bad_files ++ lines.filterMap (badOf h REG_FILE)
        other_files := st.other_files ++ lines.filterMap (otherOf h)
        contents := st.contents ++ (lines.filterMap (acceptedOf h REG_FILE)).map Prod.snd } ∧
    ((lines.filterMap (acceptedOf h REG_FILE)).length
      + (lines.filterMap (badOf h REG_FILE)).length
      + (lines.filterMap (otherOf h)).length = lines.length) := by
  induction lines generalizing st with
  | nil => simp [listLines]
  | cons l rest ih =>
    obtain ⟨h1, h2⟩ := listLine_value h REG_FILE st l (hnf l (List.mem_cons_self _ _))
    have ih' := ih
      { files := st.files ++ ((acceptedOf h REG_FILE l).map Prod.fst).toList
        bad_files := st.bad_files ++ (badOf h REG_FILE l).toList
        other_files := st.other_files ++ (otherOf h l).toList
        contents := st.contents ++ ((acceptedOf h REG_FILE l).map Prod.snd).toList }
      (fun x hx => hnf x (List.mem_cons_of_mem _ hx))
    obtain ⟨h3, h4⟩ := ih'
    unfold listLines
    rw [h1]
    simp only
    rw [h3]
    constructor
    · cases ha : acceptedOf h REG_FILE l <;> cases hb : badOf h REG_FILE l <;>
        cases ho : otherOf h l <;>
        simp [List.filterMap_cons, ha, hb, ho, List.append_assoc]
    · cases ha : acceptedOf h REG_FILE l <;> cases hb : badOf h REG_FILE l <;>
        cases ho : otherOf h l <;>
        simp [List.filterMap_cons, ha, hb, ho] at h2 ⊢ <;> omega

theorem atolC_range (s : List Char) : -(2 ^ 63) ≤ atolC s ∧ atolC s ≤ 2 ^ 63 - 1 := by
  unfold atolC strtol
  split
  · split <;> omega
  · split <;> omega
  · split <;> omega

theorem toOff_asUnsigned (x : Int) (h1 : -(2 ^ 63) ≤ x) (h2 : x ≤ 2 ^ 63 - 1) :
    toOff (asUnsigned x) = x := by
  unfold toOff asUnsigned SIZE_MOD
  have hm : ((x % ((2 ^ 64 : Nat) : Int)).toNat : Int) = x % ((2 ^ 64 : Nat) : Int) :=
    Int.toNat_of_nonneg (Int.emod_nonneg _ (by norm_num))
  have hlt : x % ((2 ^ 64 : Nat) : Int) < ((2 ^ 64 : Nat) : Int) :=
    Int.emod_lt_of_pos _ (by norm_num)
  have hmod : (x % ((2 ^ 64 : Nat) : Int)).toNat % 2 ^ 64 = (x % ((2 ^ 64 : Nat) : Int)).toNat := by
    apply Nat.mod_eq_of_lt
    omega
  rw [hmod]
  split <;> omega

/-- C13 (as amended).  Remote listing and bad names: for every listing that is fetched
and scanned without error and in which no file name has an unsupported version (the
fatal error of `parseFileName`), each line whose file name cannot be decoded as an
archive name is appended to `other_files`, in order, every line is processed, and
`rcloneListBeakFiles` returns OK. -/
theorem listing_bad_names {TC : Type} [DecidableEq TC] (h : NameHelpers TC) (REG_FILE : TC)
    (lines : List ListedLine)
    (hnf : ∀ l ∈ lines, parseFileName h l.file_name ≠ Parsed.fatal) :
    ∃ st, rcloneListBeakFiles h REG_FILE false lines false = ListOutcome.returned RC.OK st ∧
      st.other_files = (lines.filter
        (fun l => decide (parseFileName h l.file_name = Parsed.no))).map
          (fun l => l.file_name) ∧
      (∀ l ∈ lines, parseFileName h l.file_name = Parsed.no → l.file_name ∈ st.other_files) ∧
      st.files.length + st.bad_files.length + st.other_files.length = lines.length := by
  obtain ⟨h1, h2⟩ := listLines_value h REG_FILE lines (Listing.empty TC) hnf
  have hother : lines.filterMap (otherOf h) = (lines.filter
      (fun l => decide (parseFileName h l.file_name = Parsed.no))).map
        (fun l => l.file_name) := by
    clear h1 h2 hnf
    induction lines with
    | nil => rfl
    | cons l rest ih =>
      rw [List.filterMap_cons, List.filter_cons, ih]
      unfold otherOf
      cases hp : parseFileName h l.file_name <;> simp
  simp only [Listing.empty, List.nil_append] at h1
  have hr : rcloneListBeakFiles h REG_FILE false lines false = ListOutcome.returned RC.OK
      { files := (lines.filterMap (acceptedOf h REG_FILE)).map Prod.fst
        bad_files := lines.filterMap (badOf h REG_FILE)
        other_files := lines.filterMap (otherOf h)
        contents := (lines.filterMap (acceptedOf h REG_FILE)).map Prod.snd } := by
    unfold rcloneListBeakFiles
    simp only [Listing.empty]
    rw [h1]
    rfl
  refine ⟨_, hr, hother, ?_, ?_⟩
  · intro l hl hp
    simp only
    rw [hother]
    exact List.mem_map.2 ⟨l, List.mem_filter.2 ⟨hl, by simp [hp]⟩, rfl⟩
  · simp only [List.length_map]
    exact h2

/-- C13, witness: a listing of a file that is no archive and of a data archive. -/
theorem listing_bad_names_witness :
    ∃ st, rcloneListBeakFiles specHelpers 'z' false [readmeLine, dataLine] false
        = ListOutcome.returned RC.OK st ∧
      st.other_files = ([readmeLine, dataLine].filter
        (fun l => decide (parseFileName specHelpers l.file_name = Parsed.no))).map
          (fun l => l.file_name) ∧
      (∀ l ∈ [readmeLine, dataLine], parseFileName specHelpers l.file_name = Parsed.no →
        l.file_name ∈ st.other_files) ∧
      st.files.length + st.bad_files.length + st.other_files.length
        = [readmeLine, dataLine].length :=
  listing_bad_names specHelpers 'z' [readmeLine, dataLine] (by decide)

/-- C13, counterexample to the claim as stated for every listing: the name `s03_x` has
a valid type letter and the version 3; `parseFileName` ends in its fatal assertion and
the listing is aborted, the line after it is never processed. -/
theorem listing_bad_names_counterexample :
    parseFileName specHelpers version3Line.file_name = Parsed.fatal ∧
    rcloneListBeakFiles specHelpers 'z' false [readmeLine, version3Line, dataLine] false
      = ListOutcome.aborted := by
  decide

/-- C14 (as amended).  Remote size-match policy: a successfully decoded listed archive
is accepted (added to `files` and to the index, with the remote size, the time stamp of
the name and the mode regular, owner-readable) if and only if either its type is not
`REG_FILE` and its declared size equals the remote size, or its type is `REG_FILE` and
its declared size is zero, whatever the remote size; every other decoded archive is
added to `bad_files`. -/
theorem size_match_policy {TC : Type} [DecidableEq TC] (h : NameHelpers TC) (REG_FILE : TC)
    (st : Listing TC) (line : ListedLine) (tfn : TarFileName TC)
    (hp : parseFileName h line.file_name = Parsed.ok tfn) :
    (((tfn.type ≠ REG_FILE ∧ tfn.size = asUnsigned (atolC line.size)) ∨
        (tfn.type = REG_FILE ∧ tfn.size = 0)) →
      listLine h REG_FILE st line = some
        { st with
          files := st.files ++ [tfn]
          contents := st.contents ++
            [(line.file_name,
              { st_size := atolC line.size,
                st_mtim := { tv_sec := tfn.sec, tv_nsec := tfn.nsec },
                st_mode := S_IRUSR ||| S_IFREG })] }) ∧
    (¬ ((tfn.type ≠ REG_FILE ∧ tfn.size = asUnsigned (atolC line.size)) ∨
        (tfn.type = REG_FILE ∧ tfn.size = 0)) →
      listLine h REG_FILE st line = some { st with bad_files := st.bad_files ++ [tfn] }) := by
  have hoff := toOff_asUnsigned (atolC line.size) (atolC_range _).1 (atolC_range _).2
  unfold listLine
  rw [hp]
  simp only
  constructor
  · intro hc
    rw [if_pos hc, hoff]
  · intro hc
    rw [if_neg hc]

/-- C14, witness: a data archive of 3 bytes with 3 bytes on the remote is accepted,
with 4 bytes on the remote it is added to `bad_files`. -/
theorem size_match_policy_witness :
    listLine specHelpers 'z' (Listing.empty Char) dataLine = some
      { Listing.empty Char with
        files := [{ type := 's', version := 1, sec := 1, nsec := 2, size := 3,
                    header_hash := ['a', 'b'], part_nr := 0, num_parts := 0 }]
        contents := [(dataLine.file_name,
          { st_size := 3, st_mtim := { tv_sec := 1, tv_nsec := 2 },
            st_mode := S_IRUSR ||| S_IFREG })] } ∧
    listLine specHelpers 'z' (Listing.empty Char) shortDataLine = some
      { Listing.empty Char with
        bad_files := [{ type := 's', version := 1, sec := 1, nsec := 2, size := 3,
                        header_hash := ['a', 'b'], part_nr := 0, num_parts := 0 }] } :=
  ⟨(size_match_policy specHelpers 'z' (Listing.empty Char) dataLine
      { type := 's', version := 1, sec := 1, nsec := 2, size := 3,
        header_hash := ['a', 'b'], part_nr := 0, num_parts := 0 } (by decide)).1 (by decide),
   (size_match_policy specHelpers 'z' (Listing.empty Char) shortDataLine
      { type := 's', version := 1, sec := 1, nsec := 2, size := 3,
        header_hash := ['a', 'b'], part_nr := 0, num_parts := 0 } (by decide)).2 (by decide)⟩

/-- C14, counterexample to the claim as stated: the line of the comment at
storage_rclone.cc:51 is an index archive (the `REG_FILE` kind) that declares the size 0
and has 12288 bytes on the remote; the remote size differs from the declared size, and
the archive is accepted. -/
theorem size_match_policy_counterexample :
    parseFileName specHelpers indexLine.file_name = Parsed.ok
      { type := 'z', version := 1, sec := 1506595429, nsec := 268937346, size := 0,
        header_hash := indexFileName.header_hash, part_nr := 0, num_parts := 0 } ∧
    asUnsigned (atolC indexLine.size) = 12288 ∧
    ¬ ((0 : Nat) = asUnsigned (atolC indexLine.size)) ∧
    (listLine specHelpers 'z' (Listing.empty Char) indexLine).map
      (fun s => (s.files.length, s.bad_files.length, s.contents.length)) = some (1, 0, 1) := by
  decide

/-- C32 (as amended).  Remote listing classifies every line exactly once: for every
listing that `rcloneListBeakFiles` processes without error, each line contributes
exactly one element to exactly one of `files`, `bad_files` and `other_files`
(undecodable names to `other_files`; decoded names to `files` when the type is not
`REG_FILE` and the declared size is the remote size, or when the type is `REG_FILE` and
the declared size is zero; the other decoded names to `bad_files`), and the index
receives an entry exactly for the names added to `files`, in order, with the size equal
to the remote size, the time stamp equal to the (sec, nsec) decoded from the name and
the mode regular, owner-readable. -/
theorem listing_classifies {TC : Type} [DecidableEq TC] (h : NameHelpers TC) (REG_FILE : TC)
    (lines : List ListedLine)
    (hnf : ∀ l ∈ lines, parseFileName h l.file_name ≠ Parsed.fatal) :
    rcloneListBeakFiles h REG_FILE false lines false = ListOutcome.returned RC.OK
      { files := (lines.filterMap (acceptedOf h REG_FILE)).map Prod.fst
        bad_files := lines.filterMap (badOf h REG_FILE)
        other_files := lines.filterMap (otherOf h)
        contents := (lines.filterMap (acceptedOf h REG_FILE)).map Prod.snd } ∧
    (∀ l ∈ lines,
      (acceptedOf h REG_FILE l).toList.length + (badOf h REG_FILE l).toList.length
        + (otherOf h l).toList.length = 1) ∧
    ((lines.filterMap (acceptedOf h REG_FILE)).length
      + (lines.filterMap (badOf h REG_FILE)).length
      + (lines.filterMap (otherOf h)).length = lines.length) ∧
    (∀ l tfn nm fs, acceptedOf h REG_FILE l = some (tfn, (nm, fs)) →
      parseFileName h l.file_name = Parsed.ok tfn ∧ nm = l.file_name ∧
      ((tfn.type ≠ REG_FILE ∧ tfn.size = asUnsigned (atolC l.size)) ∨
        (tfn.type = REG_FILE ∧ tfn.size = 0)) ∧
      fs.st_size = atolC l.size ∧ fs.st_mtim = { tv_sec := tfn.sec, tv_nsec := tfn.nsec } ∧
      fs.st_mode = S_IFREG ||| S_IRUSR) ∧
    (∀ l tfn, badOf h REG_FILE l = some tfn →
      parseFileName h l.file_name = Parsed.ok tfn ∧
      ¬ ((tfn.type ≠ REG_FILE ∧ tfn.size = asUnsigned (atolC l.size)) ∨
        (tfn.type = REG_FILE ∧ tfn.size = 0))) ∧
    (∀ l nm, otherOf h l = some nm →
      parseFileName h l.file_name = Parsed.no ∧ nm = l.file_name) := by
  obtain ⟨h1, h2⟩ := listLines_value h REG_FILE lines (Listing.empty TC) hnf
  simp only [Listing.empty, List.nil_append] at h1
  refine ⟨?_, ?_, h2, ?_, ?_, ?_⟩
  · unfold rcloneListBeakFiles
    simp only [Listing.empty]
    rw [h1]
    rfl
  · intro l hl
    exact (listLine_value h REG_FILE (Listing.empty TC) l (hnf l hl)).2
  · intro l tfn nm fs ha
    unfold acceptedOf at ha
    cases hp : parseFileName h l.file_name with
    | fatal => rw [hp] at ha; simp at ha
    | no => rw [hp] at ha; simp at ha
    | ok t =>
      rw [hp] at ha
      simp only at ha
      by_cases hc : (t.type ≠ REG_FILE ∧ t.size = asUnsigned (atolC l.size)) ∨
          (t.type = REG_FILE ∧ t.size = 0)
      · rw [if_pos hc] at ha
        injection ha with ha
        injection ha with ha1 ha2
        injection ha2 with ha2 ha3
        subst ha1 ha2 ha3
        refine ⟨rfl, rfl, hc, ?_, rfl, ?_⟩
        · exact toOff_asUnsigned _ (atolC_range _).1 (atolC_range _).2
        · show S_IRUSR ||| S_IFREG = S_IFREG ||| S_IRUSR
          decide
      · rw [if_neg hc] at ha
        simp at ha
  · intro l tfn hb
    unfold badOf at hb
    cases hp : parseFileName h l.file_name with
    | fatal => rw [hp] at hb; simp at hb
    | no => rw [hp] at hb; simp at hb
    | ok t =>
      rw [hp] at hb
      simp only at hb
      by_cases hc : (t.type ≠ REG_FILE ∧ t.size = asUnsigned (atolC l.size)) ∨
          (t.type = REG_FILE ∧ t.size = 0)
      · rw [if_pos hc] at hb
        simp at hb
      · rw [if_neg hc] at hb
        injection hb with hb
        subst hb
        exact ⟨rfl, hc⟩
  · intro l nm ho
    unfold otherOf at ho
    cases hp : parseFileName h l.file_name with
    | fatal => rw [hp] at ho; simp at ho
    | no =>
      rw [hp] at ho
      simp only at ho
      injection ho with ho
      exact ⟨rfl, ho.symm⟩
    | ok t => rw [hp] at ho; simp at ho

/-- C32, witness: a listing of four lines, one of each class and the index archive. -/
theorem listing_classifies_witness :
    rcloneListBeakFiles specHelpers 'z' false
      [readmeLine, dataLine, shortDataLine, indexLine] false = ListOutcome.returned RC.OK
      { files :=
          [{ type := 's', version := 1, sec := 1, nsec := 2, size := 3,
             header_hash := ['a', 'b'], part_nr := 0, num_parts := 0 },
           { type := 'z', version := 1, sec := 1506595429, nsec := 268937346, size := 0,
             header_hash := indexFileName.header_hash, part_nr := 0, num_parts := 0 }]
        bad_files :=
          [{ type := 's', version := 1, sec := 1, nsec := 2, size := 3,
             header_hash := ['a', 'b'], part_nr := 0, num_parts := 0 }]
        other_files := [readmeLine.file_name]
        contents :=
          [(dataLine.file_name,
            { st_size := 3, st_mtim := { tv_sec := 1, tv_nsec := 2 },
              st_mode := S_IFREG ||| S_IRUSR }),
           (indexLine.file_name,
            { st_size := 12288, st_mtim := { tv_sec := 1506595429, tv_nsec := 268937346 },
              st_mode := S_IFREG ||| S_IRUSR })] } ∧
    rcloneListBeakFiles specHelpers 'z' false
      [readmeLine, dataLine, shortDataLine, indexLine] false = ListOutcome.returned RC.OK
      { files := ([readmeLine, dataLine, shortDataLine, indexLine].filterMap
          (acceptedOf specHelpers 'z')).map Prod.fst
        bad_files := [readmeLine, dataLine, shortDataLine, indexLine].filterMap
          (badOf specHelpers 'z')
        other_files := [readmeLine, dataLine, shortDataLine, indexLine].filterMap
          (otherOf specHelpers)
        contents := ([readmeLine, dataLine, shortDataLine, indexLine].filterMap
          (acceptedOf specHelpers 'z')).map Prod.snd } :=
  ⟨by decide,
   (listing_classifies specHelpers 'z' [readmeLine, dataLine, shortDataLine, indexLine]
    (by decide)).1⟩

/-- C32, counterexample to the claim as stated: an index archive (the `REG_FILE` kind)
that declares 5 bytes and has 5 bytes on the remote is decoded and its size is not
mismatched, and it is added to `bad_files`, not to `files`. -/
theorem listing_classifies_counterexample :
    parseFileName specHelpers sizedIndexLine.file_name = Parsed.ok
      { type := 'z', version := 1, sec := 1, nsec := 2, size := 5,
        header_hash := ['a', 'b'], part_nr := 0, num_parts := 0 } ∧
    asUnsigned (atolC sizedIndexLine.size) = 5 ∧
    rcloneListBeakFiles specHelpers 'z' false [sizedIndexLine] false = ListOutcome.returned RC.OK
      { files := []
        bad_files := [{ type := 'z', version := 1, sec := 1, nsec := 2, size := 5,
                        header_hash := ['a', 'b'], part_nr := 0, num_parts := 0 }]
        other_files := []
        contents := [] } := by
  decide


/-! ## The verbose output of rclone -/

/-- C33, evaluation.  A line of the verbose output with the path between ` : ` and
`: ` gives indices that enclose the path; a line without ` : ` (here `Checks: 0`, and
`abc`) leaves the first loop with `from = len - 1` and the second with `to = len - 2`,
so that `from <= to` fails and `to - from` wraps to `2^64 - 1`. -/
theorem parse_rclone_verbose_indices :
    parseRcloneVerboseIndices "I : a/b.tar: Copied".toList = some (4, 11, 7) ∧
    parseRcloneVerboseIndices "Checks: 0".toList = some (8, 7, 2 ^ 64 - 1) ∧
    parseRcloneVerboseIndices "abc".toList = some (2, 1, 2 ^ 64 - 1) ∧
    ¬ (2 ≤ 1) := by
  decide

/-! ## `dirname_`, `basename_` and `Path::lookup` -/

theorem rfind_absent (s : List Char) (c : Char) (h : ∀ x ∈ s, x ≠ c) : rfind s c = none := by
  unfold rfind
  exact rfindLoop_absent c s 0 none h

theorem rfind_last (pre post : List Char) (c : Char) (h : ∀ x ∈ post, x ≠ c) :
    rfind (pre ++ c :: post) c = some pre.length := by
  unfold rfind
  rw [rfindLoop_append]
  simp only [rfindLoop, if_true, Nat.zero_add]
  exact rfindLoop_absent c post _ _ h

theorem dirname_strip (s : List Char) :
    (if s.length > 0 ∧ back s = '/' then s.take (s.length - 1) else s) = stripSlash s := by
  unfold stripSlash back
  rw [← List.dropLast_eq_take]
  cases hl : s.getLast? with
  | none =>
    have : s = [] := List.getLast?_eq_none_iff.1 hl
    subst this
    simp
  | some x =>
    have hne : s ≠ [] := by
      intro h
      subst h
      simp at hl
    have hpos : s.length > 0 := List.length_pos.2 hne
    by_cases hx : x = '/'
    · subst hx
      simp [hpos]
    · have h1 : ¬ (some x = some '/') := by
        intro h
        injection h with h
        exact hx h
      rw [if_neg h1, if_neg]
      rintro ⟨_, h⟩
      exact hx h

/-- C23.  The contract of `dirname_` (without drive letters): for every string `s`,
with `s'` being `s` without one trailing `/`, `dirname_(s)` returns none when `s'` is
empty or contains no `/`, returns the root (the empty string) when the last `/` of `s'`
is at index 0, and otherwise returns the prefix of `s'` before its last `/`; it leaves
`s'` in its argument. -/
theorem dirname_contract (s : List Char) :
    (dirname_ s).2 = stripSlash s ∧
    (stripSlash s = [] → (dirname_ s).1 = ([], false)) ∧
    ((∀ x ∈ stripSlash s, x ≠ '/') → (dirname_ s).1 = ([], false)) ∧
    (∀ pre post, stripSlash s = pre ++ '/' :: post → (∀ x ∈ post, x ≠ '/') →
      (pre = [] → (dirname_ s).1 = ([], true)) ∧
      (pre ≠ [] → (dirname_ s).1 = (pre, true))) := by
  unfold dirname_
  simp only [dirname_strip]
  generalize stripSlash s = t
  refine ⟨?_, ?_, ?_, ?_⟩
  · split
    · rfl
    · split
      · rfl
      · split <;> rfl
  · intro h
    subst h
    simp
  · intro h
    by_cases h0 : t.length = 0
    · rw [if_pos h0]
    · rw [if_neg h0, rfind_absent t '/' h]
  · intro pre post ht hpost
    subst ht
    rw [if_neg (by simp), rfind_last pre post '/' hpost]
    simp only
    constructor
    · intro hp
      subst hp
      simp
    · intro hp
      have : pre.length ≠ 0 := by
        intro h
        exact hp (List.length_eq_zero.1 h)
      rw [if_neg this]
      simp

/-- C23, witness: the table of the comment at filesystem.cc:110-120. -/
theorem dirname_contract_witness :
    (dirname_ "/a".toList).1 = ([], true) ∧
    (dirname_ "/a/".toList).1 = ([], true) ∧
    (dirname_ "/a/b".toList).1 = ("/a".toList, true) ∧
    (dirname_ "/a/b/".toList).1 = ("/a".toList, true) ∧
    (dirname_ "a/b".toList).1 = ("a".toList, true) ∧
    (dirname_ "a/b/".toList).1 = ("a".toList, true) ∧
    (dirname_ "".toList).1 = ([], false) ∧
    (dirname_ "/".toList).1 = ([], false) ∧
    (dirname_ "a".toList).1 = ([], false) ∧
    (dirname_ "a/".toList).1 = ([], false) :=
  ⟨by decide, by decide,
   ((dirname_contract "/a/b".toList).2.2.2 "/a".toList "b".toList (by decide) (by decide)).2
     (by decide),
   by decide, by decide, by decide, by decide, by decide, by decide, by decide⟩

/-- C21, evaluation.  `Path::lookup("a///")` drops one slash itself and `dirname_`
drops a second one; `basename_("a/")` then is `a/`, and the path returned has the
string `a/` and the name `a/`, both ending with a slash, below the path `a`.  With one
or two trailing slashes the path `a` itself is returned. -/
theorem lookup_trailing_slashes :
    (Path.lookup Interner.init "a///".toList).map (fun r => r.1) =
      some [{ id := 2, atom := "a/".toList, depth := 1, str := "a/".toList },
            { id := 1, atom := "a".toList, depth := 0, str := "a".toList }] ∧
    basename_ "a/".toList = some "a/".toList ∧
    (Path.lookup Interner.init "a//".toList).map (fun r => r.1) =
      some [{ id := 1, atom := "a".toList, depth := 0, str := "a".toList }] ∧
    (Path.lookup Interner.init "a/".toList).map (fun r => r.1) =
      some [{ id := 1, atom := "a".toList, depth := 0, str := "a".toList }] := by
  decide

/-- C22 (as amended).  `Path::lookup` rejects a path that ends badly: for every
non-empty string whose last character is a NUL byte or a newline, whatever the state of
the interner, `Path::lookup` fails on its assertion instead of interning a path. -/
theorem lookup_rejects (st : Interner) (p : List Char) (c : Char)
    (hc : c = NUL ∨ c = '\n') : Path.lookup st (p ++ [c]) = none := by
  unfold Path.lookup
  rw [List.length_append, List.length_singleton]
  unfold lookupLoop
  have hb : back (p ++ [c]) = c := by
    unfold back
    simp
  rw [hb, if_pos]
  rcases hc with h | h
  · subst h
    simp
  · subst h
    simp

/-- C22, witness: `a` followed by a newline. -/
theorem lookup_rejects_witness :
    Path.lookup Interner.init ("a".toList ++ ['\n']) = none :=
  lookup_rejects Interner.init "a".toList '\n' (Or.inr rfl)

/-- C22, counterexample to the claim as stated for a NUL or newline at any position:
the string `a`, newline, `b` is interned, and so is `a`, NUL, `b`; the assertion looks
at the last character only. -/
theorem lookup_rejects_counterexample :
    '\n' ∈ ['a', '\n', 'b'] ∧
    (Path.lookup Interner.init ['a', '\n', 'b']).map (fun r => r.1) =
      some [{ id := 1, atom := ['a', '\n', 'b'], depth := 0, str := ['a', '\n', 'b'] }] ∧
    NUL ∈ ['a', NUL, 'b'] ∧
    (Path.lookup Interner.init ['a', NUL, 'b']).map (fun r => r.1) =
      some [{ id := 1, atom := ['a', NUL, 'b'], depth := 0, str := ['a', NUL, 'b'] }] := by
  decide

/-- C20, evaluation.  After `p = Path::lookup("a/b")`, the call `Path::lookup("a/b//")`
does not find `a/b/` in the table, lets `dirname_` shorten its argument to `a/b`, and
stores a new object under the key `a/b`; from then on `Path::lookup(p.str())` returns
that object, not `p`.  And `Path::reparent` makes an object that it does not intern:
looking its string up gives another object. -/
theorem lookup_not_idempotent :
    (lookedUpAB.bind (fun r1 =>
      (Path.lookup r1.2 "a/b//".toList).bind (fun r2 =>
        (Path.str r1.1).bind (fun s =>
          (Path.lookup r2.2 s).map (fun r3 =>
            (s, r1.1.map (fun n => n.id), r2.1.map (fun n => n.id),
              r3.1.map (fun n => n.id), decide (r3.1 = r1.1))))))) =
      some ("a/b".toList, [2, 1], [3, 1], [3, 1], false) ∧
    (lookedUpAB.bind (fun r1 =>
      (Path.lookup r1.2 "c".toList).bind (fun r2 =>
        (Path.reparent r2.2 r1.1 r2.1).bind (fun r3 =>
          (Path.str r3.1).bind (fun s =>
            (Path.lookup r3.2 s).map (fun r4 =>
              (s, r3.1.map (fun n => n.id), r4.1.map (fun n => n.id),
                decide (r4.1 = r3.1)))))))) =
      some ("c/b".toList, [4, 3], [5, 3], false) := by
  decide

/-! ## Permission strings -/

theorem land_two_pow (m k : Nat) : m &&& 2 ^ k = 0 ∨ m &&& 2 ^ k = 2 ^ k := by
  by_cases h : m.testBit k
  · right
    apply Nat.eq_of_testBit_eq
    intro i
    rw [Nat.testBit_and, Nat.testBit_two_pow]
    by_cases hi : k = i
    · subst hi; simp [h]
    · simp [hi]
  · left
    apply Nat.eq_of_testBit_eq
    intro i
    rw [Nat.testBit_and, Nat.testBit_two_pow]
    by_cases hi : k = i
    · subst hi; simp [h]
    · simp [hi]

theorem isBit_two_pow (m k : Nat) :
    (m &&& 2 ^ k = 0 ∧ isBit m (2 ^ k) = false) ∨
    (m &&& 2 ^ k = 2 ^ k ∧ isBit m (2 ^ k) = true) := by
  unfold isBit
  rcases land_two_pow m k with h | h
  · left
    refine ⟨h, ?_⟩
    rw [h]
    simp
  · right
    refine ⟨h, ?_⟩
    rw [h]
    have : (2 : Nat) ^ k ≠ 0 := Nat.pos_iff_ne_zero.1 (Nat.two_pow_pos k)
    simp [this]

theorem readBit_enc (m k : Nat) (yes : Char) (hy : yes ≠ '-') :
    readBit (if isBit m (2 ^ k) then yes else '-') yes (2 ^ k) = some (m &&& 2 ^ k) := by
  unfold readBit
  rcases isBit_two_pow m k with ⟨h, e⟩ | ⟨h, e⟩
  · rw [e, h]
    simp only [Bool.false_eq_true, if_false]
    rw [if_neg (Ne.symm hy), if_neg (by simp)]
  · rw [e, h]
    simp only [if_true]

theorem execBits_enc (m kx ks : Nat) (special : Char) (hs1 : special ≠ 'x')
    (hs2 : special ≠ '-')
    (hx : m &&& 2 ^ ks ≠ 0 → m &&& 2 ^ kx ≠ 0) :
    execBits (if isBit m (2 ^ ks) then special else if isBit m (2 ^ kx) then 'x' else '-')
      special (2 ^ kx) (2 ^ ks) = some ((m &&& 2 ^ kx) ||| (m &&& 2 ^ ks)) := by
  unfold execBits
  rcases isBit_two_pow m ks with ⟨h, e⟩ | ⟨h, e⟩
  · rw [e, h]
    simp only [Bool.false_eq_true, if_false]
    rcases isBit_two_pow m kx with ⟨h2, e2⟩ | ⟨h2, e2⟩
    · rw [e2, h2]
      simp only [Bool.false_eq_true, if_false]
      rw [if_neg (by decide), if_neg (Ne.symm hs2), if_neg (by simp)]
      rfl
    · rw [e2, h2]
      simp only [if_true, Nat.or_zero]
  · have hp : m &&& 2 ^ ks ≠ 0 := by
      rw [h]; exact Nat.pos_iff_ne_zero.1 (Nat.two_pow_pos ks)
    have hp2 := hx hp
    have h2 : m &&& 2 ^ kx = 2 ^ kx := by
      rcases land_two_pow m kx with h2 | h2
      · exact absurd h2 hp2
      · exact h2
    rw [e, h, h2]
    simp only [if_true]
    rw [if_neg hs1]

/-- C34 (as amended).  Permission string round trip: for every mode `m` whose type bits
denote exactly one of regular file, directory, symlink, character device, block
device, FIFO or socket, and in which each of the set-uid, set-gid and sticky bits is
accompanied by the execute bit of its class, `stringToPermission(permissionString(m))`
equals `m` restricted to the type bits, the nine rwx permission bits and the set-uid,
set-gid and sticky bits. -/
theorem permission_roundtrip (m : Nat)
    (htype : m &&& S_IFMT = S_IFREG ∨ m &&& S_IFMT = S_IFDIR ∨ m &&& S_IFMT = S_IFLNK ∨
      m &&& S_IFMT = S_IFCHR ∨ m &&& S_IFMT = S_IFBLK ∨ m &&& S_IFMT = S_IFIFO ∨
      m &&& S_IFMT = S_IFSOCK)
    (hu : m &&& S_ISUID ≠ 0 → m &&& S_IXUSR ≠ 0)
    (hg : m &&& S_ISGID ≠ 0 → m &&& S_IXGRP ≠ 0)
    (ho : m &&& S_ISVTX ≠ 0 → m &&& S_IXOTH ≠ 0) :
    ∃ s, permissionString m = some s ∧ stringToPermission s = m &&& 0o177777 := by
  have c1 : S_IRUSR = 2 ^ 8 := by decide
  have c2 : S_IWUSR = 2 ^ 7 := by decide
  have c3 : S_IXUSR = 2 ^ 6 := by decide
  have c4 : S_ISUID = 2 ^ 11 := by decide
  have c5 : S_IRGRP = 2 ^ 5 := by decide
  have c6 : S_IWGRP = 2 ^ 4 := by decide
  have c7 : S_IXGRP = 2 ^ 3 := by decide
  have c8 : S_ISGID = 2 ^ 10 := by decide
  have c9 : S_IROTH = 2 ^ 2 := by decide
  have c10 : S_IWOTH = 2 ^ 1 := by decide
  have c11 : S_IXOTH = 2 ^ 0 := by decide
  have c12 : S_ISVTX = 2 ^ 9 := by decide
  rw [c4, c3] at hu
  rw [c8, c7] at hg
  rw [c12, c11] at ho
  have hmask : (0o177777 : Nat) = S_IFMT ||| 2 ^ 8 ||| 2 ^ 7 ||| (2 ^ 6 ||| 2 ^ 11) ||| 2 ^ 5
      ||| 2 ^ 4 ||| (2 ^ 3 ||| 2 ^ 10) ||| 2 ^ 2 ||| 2 ^ 1 ||| (2 ^ 0 ||| 2 ^ 9) := by decide
  obtain ⟨c, hc, htb⟩ : ∃ c,
      (if isType m S_IFDIR then some 'd'
        else if isType m S_IFLNK then some 'l'
        else if isType m S_IFCHR then some 'c'
        else if isType m S_IFBLK then some 'b'
        else if isType m S_IFIFO then some 'p'
        else if isType m S_IFSOCK then some 's'
        else if isType m S_IFREG then some '-'
        else none) = some c ∧ typeBitsOf c = some (m &&& S_IFMT) := by
    unfold isType
    rcases htype with h | h | h | h | h | h | h <;> rw [h]
    · exact ⟨'-', by decide, by decide⟩
    · exact ⟨'d', by decide, by decide⟩
    · exact ⟨'l', by decide, by decide⟩
    · exact ⟨'c', by decide, by decide⟩
    · exact ⟨'b', by decide, by decide⟩
    · exact ⟨'p', by decide, by decide⟩
    · exact ⟨'s', by decide, by decide⟩
  have hperm : permissionString m = some [c,
      if isBit m S_IRUSR then 'r' else '-',
      if isBit m S_IWUSR then 'w' else '-',
      if isBit m S_ISUID then 's' else if isBit m S_IXUSR then 'x' else '-',
      if isBit m S_IRGRP then 'r' else '-',
      if isBit m S_IWGRP then 'w' else '-',
      if isBit m S_ISGID then 's' else if isBit m S_IXGRP then 'x' else '-',
      if isBit m S_IROTH then 'r' else '-',
      if isBit m S_IWOTH then 'w' else '-',
      if isBit m S_ISVTX then 't' else if isBit m S_IXOTH then 'x' else '-'] := by
    unfold permissionString
    simp only [hc]
  refine ⟨_, hperm, ?_⟩
  · unfold stringToPermission
    simp only [List.getD_cons_succ, List.getD_cons_zero, htb, Option.some_bind, c1, c2, c3, c4,
      c5, c6, c7, c8, c9, c10, c11, c12,
      readBit_enc m 8 'r' (by decide), readBit_enc m 7 'w' (by decide),
      readBit_enc m 5 'r' (by decide), readBit_enc m 4 'w' (by decide),
      readBit_enc m 2 'r' (by decide), readBit_enc m 1 'w' (by decide),
      execBits_enc m 6 11 's' (by decide) (by decide) hu,
      execBits_enc m 3 10 's' (by decide) (by decide) hg,
      execBits_enc m 0 9 't' (by decide) (by decide) ho]
    rw [hmask]
    simp only [Nat.and_or_distrib_left]

/-- C34, witness: a set-uid executable `-rwsr-xr-x`. -/
theorem permission_roundtrip_witness :
    permissionString 0o104755 = some "-rwsr-xr-x".toList ∧
    ∃ s, permissionString 0o104755 = some s ∧ stringToPermission s = 0o104755 &&& 0o177777 :=
  ⟨by decide,
   permission_roundtrip 0o104755 (Or.inl (by decide)) (by decide) (by decide) (by decide)⟩

/-- C34, counterexample to the claim as stated: a regular file with the set-uid bit and
without the execute bit of the owner is written as `---s------`, the same string as
with the execute bit, and is read back with that bit set. -/
theorem permission_roundtrip_counterexample :
    (S_IFREG ||| S_ISUID) &&& S_IFMT = S_IFREG ∧
    permissionString (S_IFREG ||| S_ISUID) = some "---s------".toList ∧
    stringToPermission "---s------".toList = S_IFREG ||| S_ISUID ||| S_IXUSR ∧
    stringToPermission "---s------".toList ≠ (S_IFREG ||| S_ISUID) &&& 0o177777 := by
  decide


/-! ## The two orders on paths -/

theorem depthOK_cons (x : PathNode) (rest : PathPtr) (h : depthOK (x :: rest) = true) :
    x.depth = (rest.length : Int) ∧ depthOK rest = true := by
  unfold depthOK at h
  rw [Bool.and_eq_true, decide_eq_true_eq] at h
  exact h

theorem depthOK_append (pre a : PathPtr) (h : depthOK (pre ++ a) = true) :
    depthOK a = true := by
  induction pre with
  | nil => exact h
  | cons y pre ih => exact ih (depthOK_cons y (pre ++ a) h).2

/-- Walking up from a path to the depth of one of its ancestors ends at that
ancestor. -/
theorem parentAtDepthLoop_suffix (pre a : PathPtr) (ha : a ≠ []) :
    parentAtDepthLoop (pre ++ a) (((pre ++ a).length : Int) - 1) ((a.length : Int) - 1)
      = a := by
  induction pre with
  | nil =>
    cases a with
    | nil => exact absurd rfl ha
    | cons x rest =>
      simp only [List.nil_append]
      unfold parentAtDepthLoop
      rw [if_neg (by omega)]
  | cons y pre ih =>
    have hl : (pre ++ a).length + 1 = (y :: pre ++ a).length := rfl
    cases hpa : pre ++ a with
    | nil =>
      cases pre with
      | nil => exact absurd hpa ha
      | cons z pre => cases hpa
    | cons z rest =>
      rw [hpa] at ih hl
      simp only [List.cons_append, hpa]
      unfold parentAtDepthLoop
      have h1 : a.length ≤ (z :: rest).length := by
        rw [← hpa, List.length_append]; omega
      simp only [List.length_cons] at h1 ih ⊢
      rw [if_pos (by push_cast; omega)]
      have e : ((rest.length + 1 + 1 : Nat) : Int) - 1 - 1
          = ((rest.length + 1 : Nat) : Int) - 1 := by push_cast; omega
      rw [e]
      exact ih

/-- The ancestor at the depth of an ancestor is that ancestor. -/
theorem parentAtDepth_suffix (pre a : PathPtr) (ha : a ≠ [])
    (hd : depthOK (pre ++ a) = true) :
    Path.parentAtDepth (pre ++ a) ((a.length : Int) - 1) = some a := by
  have hloop := parentAtDepthLoop_suffix pre a ha
  have hl : a.length ≤ (pre ++ a).length := by rw [List.length_append]; omega
  cases hpa : pre ++ a with
  | nil =>
    cases pre with
    | nil => exact absurd hpa ha
    | cons z pre => cases hpa
  | cons z rest =>
    rw [hpa] at hloop hd hl
    have hz := (depthOK_cons z rest hd).1
    rw [Path.parentAtDepth]
    simp only [List.length_cons] at hl hloop
    rw [if_neg (by rw [hz]; omega), hz]
    have e : ((rest.length + 1 : Nat) : Int) - 1 = (rest.length : Int) := by push_cast; omega
    rw [e] at hloop
    rw [hloop]

theorem parentAtDepth_self (x : PathNode) (rest : PathPtr)
    (hd : depthOK (x :: rest) = true) :
    Path.parentAtDepth (x :: rest) (rest.length : Int) = some (x :: rest) := by
  have h := parentAtDepth_suffix [] (x :: rest) (by simp) hd
  simp only [List.nil_append, List.length_cons] at h
  have e : ((rest.length + 1 : Nat) : Int) - 1 = (rest.length : Int) := by push_cast; omega
  rw [e] at h
  exact h

/-- The body of `TarSort::lessthan` once the two ancestors are known. -/
theorem tarSort_eval (a b : PathNode) (ap bp pa pb : PathPtr) (hne : a :: ap ≠ b :: bp)
    (hpa : Path.parentAtDepth (a :: ap) (min a.depth b.depth) = some pa)
    (hpb : Path.parentAtDepth (b :: bp) (min a.depth b.depth) = some pb) :
    TarSort.lessthan (a :: ap) (b :: bp) =
      if pa = pb then some (decide (a.depth < b.depth))
      else (compareSameLengthPaths pa pb).map (fun rc => decide (rc = Answer.YES_LESS_THAN)) := by
  rw [TarSort.lessthan, if_neg hne]
  simp only [hpa, hpb]
  by_cases h : pa = pb
  · rw [if_pos h, if_pos h]
  · rw [if_neg h, if_neg h]
    cases compareSameLengthPaths pa pb <;> rfl

theorem toNat_inj_char (x y : Char) (h : x.toNat = y.toNat) : x = y := by
  rw [← Char.ofNat_toNat x, ← Char.ofNat_toNat y, h]

theorem strcmp_cons (x y : Char) (xs ys : List Char) :
    strcmp (x :: xs) (y :: ys) =
      if x ≠ y then (if x.toNat < y.toNat then -1 else 1)
      else if x = NUL then 0 else strcmp xs ys := by
  rw [strcmp]

theorem strcmp_self (s : List Char) : strcmp s s = 0 := by
  induction s with
  | nil => rfl
  | cons x xs ih =>
    rw [strcmp_cons, if_neg (show ¬ (x ≠ x) from fun h => h rfl)]
    by_cases h : x = NUL
    · rw [if_pos h]
    · rw [if_neg h, ih]

theorem strcmp_swap (s t : List Char) : strcmp t s = - strcmp s t := by
  induction s generalizing t with
  | nil =>
    cases t with
    | nil => rfl
    | cons y ys =>
      have e1 : strcmp (y :: ys) [] = if y = NUL then 0 else 1 := by rw [strcmp]
      have e2 : strcmp [] (y :: ys) = if y = NUL then 0 else -1 := by rw [strcmp]
      rw [e1, e2]
      by_cases h : y = NUL
      · rw [if_pos h, if_pos h]; rfl
      · rw [if_neg h, if_neg h]; rfl
  | cons x xs ih =>
    cases t with
    | nil =>
      have e1 : strcmp (x :: xs) [] = if x = NUL then 0 else 1 := by rw [strcmp]
      have e2 : strcmp [] (x :: xs) = if x = NUL then 0 else -1 := by rw [strcmp]
      rw [e1, e2]
      by_cases h : x = NUL
      · rw [if_pos h, if_pos h]; rfl
      · rw [if_neg h, if_neg h]
    | cons y ys =>
      rw [strcmp_cons y x, strcmp_cons x y]
      by_cases h : x = y
      · subst h
        rw [if_neg (show ¬ (x ≠ x) from fun h => h rfl),
          if_neg (show ¬ (x ≠ x) from fun h => h rfl)]
        by_cases h0 : x = NUL
        · rw [if_pos h0, if_pos h0]; rfl
        · rw [if_neg h0, if_neg h0]; exact ih ys
      · have h2 : y ≠ x := fun e => h e.symm
        rw [if_pos h2, if_pos h]
        have hn : x.toNat ≠ y.toNat := fun e => h (toNat_inj_char x y e)
        by_cases hl : x.toNat < y.toNat
        · rw [if_pos hl, if_neg (by omega)]; rfl
        · rw [if_neg hl, if_pos (by omega)]

theorem compare_self (p : PathPtr) : compareSameLengthPaths p p = some Answer.NO_ANSWER := by
  cases p with
  | nil => rfl
  | cons x rest => rw [compareSameLengthPaths, if_pos rfl]

/-- The comparison of two paths with the same parent and different names. -/
theorem compare_siblings (nx ny : PathNode) (parent : PathPtr) (hd : nx.depth = ny.depth)
    (hne : nx.atom ≠ ny.atom) :
    compareSameLengthPaths (nx :: parent) (ny :: parent) =
      some (if strcmp nx.atom ny.atom < 0 then Answer.YES_LESS_THAN
        else Answer.YES_GREATER_THAN) := by
  have h1 : nx :: parent ≠ ny :: parent := by
    intro e
    exact hne (by rw [(List.cons.inj e).1])
  rw [compareSameLengthPaths, if_neg h1, if_neg (by simp [hd]), compare_self]
  simp only
  rw [if_neg hne]
  unfold Atom.lessthan
  rw [if_neg hne]
  by_cases h : strcmp nx.atom ny.atom < 0
  · rw [if_pos h, if_pos (by simp [h])]
  · rw [if_neg h, if_neg (by simp [h])]

/-- The order of a descendant of a path, or the path itself, and a sibling of the path
with a greater name. -/
theorem tarSort_sibling (nx ny : PathNode) (parent pre : PathPtr)
    (hx : depthOK (pre ++ nx :: parent) = true) (hy : depthOK (ny :: parent) = true)
    (hlt : strcmp nx.atom ny.atom < 0) :
    TarSort.lessthan (pre ++ nx :: parent) (ny :: parent) = some true ∧
    TarSort.lessthan (ny :: parent) (pre ++ nx :: parent) = some false := by
  have hdx := depthOK_append pre (nx :: parent) hx
  have hnx := (depthOK_cons nx parent hdx).1
  have hny := (depthOK_cons ny parent hy).1
  have hanc := parentAtDepth_suffix pre (nx :: parent) (by simp) hx
  have hself := parentAtDepth_self ny parent hy
  have hlen : (pre ++ nx :: parent).length = pre.length + (parent.length + 1) := by
    rw [List.length_append, List.length_cons]
  have hatom : nx.atom ≠ ny.atom := by
    intro e
    rw [e, strcmp_self] at hlt
    exact absurd hlt (by decide)
  have hatom2 : ny.atom ≠ nx.atom := fun e => hatom e.symm
  have hgt : ¬ strcmp ny.atom nx.atom < 0 := by
    rw [strcmp_swap nx.atom ny.atom]; omega
  have hne : pre ++ nx :: parent ≠ ny :: parent := by
    intro e
    cases pre with
    | nil => exact hatom (by rw [(List.cons.inj e).1])
    | cons z pre =>
      have := congrArg List.length e
      simp only [List.length_cons, List.length_append] at this
      omega
  have e1 : (((nx :: parent).length : Nat) : Int) - 1 = (parent.length : Int) := by
    rw [List.length_cons]; push_cast; omega
  rw [e1] at hanc
  have hsib : nx :: parent ≠ ny :: parent := by
    intro e
    exact hatom (by rw [(List.cons.inj e).1])
  cases hz : pre ++ nx :: parent with
  | nil => rw [hz] at hlen; simp only [List.length_nil] at hlen; omega
  | cons zh zr =>
    rw [hz] at hx hanc hlen hne
    have hzh := (depthOK_cons zh zr hx).1
    simp only [List.length_cons] at hlen
    have hmin : min zh.depth ny.depth = (parent.length : Int) := by
      rw [hzh, hny]; omega
    have hmin2 : min ny.depth zh.depth = (parent.length : Int) := by
      rw [hzh, hny]; omega
    constructor
    · rw [tarSort_eval zh ny zr parent (nx :: parent) (ny :: parent) hne
        (by rw [hmin]; exact hanc) (by rw [hmin]; exact hself), if_neg hsib,
        compare_siblings nx ny parent (by rw [hnx, hny]) hatom, if_pos hlt]
      rfl
    · rw [tarSort_eval ny zh parent zr (ny :: parent) (nx :: parent) (fun e => hne e.symm)
        (by rw [hmin2]; exact hself) (by rw [hmin2]; exact hanc), if_neg (fun e => hsib e.symm),
        compare_siblings ny nx parent (by rw [hnx, hny]) hatom2, if_neg hgt]
      rfl

theorem lex_cons_cons {α : Type} (r : α → α → Prop) (a b : α) (l m : List α) :
    List.Lex r (a :: l) (b :: m) ↔ r a b ∨ (a = b ∧ List.Lex r l m) := by
  constructor
  · intro h
    cases h with
    | cons h => exact Or.inr ⟨rfl, h⟩
    | rel h => exact Or.inl h
  · intro h
    cases h with
    | inl h => exact List.Lex.rel h
    | inr h =>
      obtain ⟨e, h⟩ := h
      subst e
      exact List.Lex.cons h

theorem lex_snoc {α : Type} (r : α → α → Prop) (l1 l2 : List α) (x y : α)
    (hl : l1.length = l2.length) :
    List.Lex r (l1 ++ [x]) (l2 ++ [y]) ↔ List.Lex r l1 l2 ∨ (l1 = l2 ∧ r x y) := by
  induction l1 generalizing l2 with
  | nil =>
    cases l2 with
    | nil =>
      simp only [List.nil_append, List.Lex.singleton_iff, List.Lex.not_nil_right, true_and,
        false_or]
    | cons b l2 => simp only [List.length_nil, List.length_cons] at hl; omega
  | cons a l1 ih =>
    cases l2 with
    | nil => simp only [List.length_nil, List.length_cons] at hl; omega
    | cons b l2 =>
      simp only [List.length_cons, Nat.add_right_cancel_iff] at hl
      simp only [List.cons_append, lex_cons_cons, ih l2 hl, List.cons.injEq]
      tauto

theorem lex_take_min {α : Type} (r : α → α → Prop) (k l : List α) :
    List.Lex r k l ↔
      List.Lex r (k.take (min k.length l.length)) (l.take (min k.length l.length)) ∨
      (k.take (min k.length l.length) = l.take (min k.length l.length) ∧
        k.length < l.length) := by
  induction k generalizing l with
  | nil =>
    cases l with
    | nil => simp [List.Lex.not_nil_right]
    | cons b l => simp [List.Lex.nil, List.Lex.not_nil_right]
  | cons a k ih =>
    cases l with
    | nil => simp [List.Lex.not_nil_right]
    | cons b l =>
      have e : min (a :: k).length (b :: l).length = min k.length l.length + 1 := by
        simp only [List.length_cons]; omega
      rw [e]
      simp only [List.take_succ_cons, lex_cons_cons, List.cons.injEq, List.length_cons,
        Nat.add_lt_add_iff_right]
      have := ih l
      tauto

theorem char_lt_iff (x y : Char) : x < y ↔ x.toNat < y.toNat := Iff.rfl

theorem bytesLt_irrefl (s : List Char) : ¬ bytesLt s s := by
  have : IsStrictTotalOrder (List Char) (List.Lex (fun x y : Char => x < y)) := inferInstance
  exact this.irrefl s

theorem bytesLt_trichotomous (s t : List Char) : bytesLt s t ∨ s = t ∨ bytesLt t s := by
  have : IsStrictTotalOrder (List Char) (List.Lex (fun x y : Char => x < y)) := inferInstance
  exact this.trichotomous s t

theorem bytesLt_trans (s t u : List Char) (h1 : bytesLt s t) (h2 : bytesLt t u) :
    bytesLt s u := by
  have : IsStrictTotalOrder (List Char) (List.Lex (fun x y : Char => x < y)) := inferInstance
  exact this.trans s t u h1 h2

theorem pathLt_irrefl (k : List (List Char)) : ¬ pathLt k k := by
  have : IsStrictTotalOrder (List Char) bytesLt :=
    (inferInstance : IsStrictTotalOrder (List Char) (List.Lex (fun x y : Char => x < y)))
  have h2 : IsStrictTotalOrder (List (List Char)) (List.Lex bytesLt) := inferInstance
  exact h2.irrefl k

theorem pathLt_trichotomous (k l : List (List Char)) : pathLt k l ∨ k = l ∨ pathLt l k := by
  have : IsStrictTotalOrder (List Char) bytesLt :=
    (inferInstance : IsStrictTotalOrder (List Char) (List.Lex (fun x y : Char => x < y)))
  have h2 : IsStrictTotalOrder (List (List Char)) (List.Lex bytesLt) := inferInstance
  exact h2.trichotomous k l

theorem pathLt_trans (k l m : List (List Char)) (h1 : pathLt k l) (h2 : pathLt l m) :
    pathLt k m := by
  have : IsStrictTotalOrder (List Char) bytesLt :=
    (inferInstance : IsStrictTotalOrder (List Char) (List.Lex (fun x y : Char => x < y)))
  have h3 : IsStrictTotalOrder (List (List Char)) (List.Lex bytesLt) := inferInstance
  exact h3.trans k l m h1 h2

theorem pathLt_asymm (k l : List (List Char)) (h1 : pathLt k l) : ¬ pathLt l k :=
  fun h2 => pathLt_irrefl k (pathLt_trans k l k h1 h2)

/-- On names without NUL byte, `strcmp` is negative exactly for the byte-wise order. -/
theorem strcmp_lt_iff (s t : List Char) (hs : ∀ c ∈ s, c ≠ NUL) (ht : ∀ c ∈ t, c ≠ NUL) :
    strcmp s t < 0 ↔ bytesLt s t := by
  unfold bytesLt
  induction s generalizing t with
  | nil =>
    cases t with
    | nil => simp [strcmp, List.Lex.not_nil_right]
    | cons y ys =>
      have hy : y ≠ NUL := ht y (List.mem_cons_self _ _)
      have e : strcmp [] (y :: ys) = if y = NUL then 0 else -1 := by rw [strcmp]
      rw [e, if_neg hy]
      simp [List.Lex.nil]
  | cons x xs ih =>
    have hx : x ≠ NUL := hs x (List.mem_cons_self _ _)
    cases t with
    | nil =>
      have e : strcmp (x :: xs) [] = if x = NUL then 0 else 1 := by rw [strcmp]
      rw [e, if_neg hx]
      simp [List.Lex.not_nil_right]
    | cons y ys =>
      rw [strcmp_cons, lex_cons_cons]
      by_cases h : x = y
      · subst h
        rw [if_neg (show ¬ (x ≠ x) from fun h => h rfl), if_neg hx,
          ih ys (fun c hc => hs c (List.mem_cons_of_mem _ hc))
            (fun c hc => ht c (List.mem_cons_of_mem _ hc))]
        simp
      · rw [if_pos h]
        have hn : x.toNat ≠ y.toNat := fun e => h (toNat_inj_char x y e)
        by_cases hl : x.toNat < y.toNat
        · rw [if_pos hl]
          simp [(char_lt_iff x y).2 hl]
        · rw [if_neg hl]
          have : ¬ x < y := fun hxy => hl ((char_lt_iff x y).1 hxy)
          simp [this, h]

theorem nulFree_cons (x : PathNode) (rest : PathPtr) (h : nulFree (x :: rest) = true) :
    (∀ c ∈ x.atom, c ≠ NUL) ∧ nulFree rest = true := by
  unfold nulFree at h ⊢
  rw [List.all_cons, Bool.and_eq_true, List.all_eq_true] at h
  refine ⟨fun c hc => ?_, h.2⟩
  have := h.1 c hc
  rwa [decide_eq_true_eq] at this

theorem nulFree_append (pre a : PathPtr) (h : nulFree (pre ++ a) = true) :
    nulFree a = true := by
  unfold nulFree at h ⊢
  rw [List.all_append, Bool.and_eq_true] at h
  exact h.2

theorem componentsOf_cons (x : PathNode) (rest : PathPtr) :
    componentsOf (x :: rest) = componentsOf rest ++ [x.atom] := by
  unfold componentsOf
  rw [List.map_cons, List.reverse_cons]

theorem componentsOf_length (p : PathPtr) : (componentsOf p).length = p.length := by
  unfold componentsOf
  rw [List.length_reverse, List.length_map]

theorem componentsOf_append (pre a : PathPtr) :
    componentsOf (pre ++ a) = componentsOf a ++ componentsOf pre := by
  unfold componentsOf
  rw [List.map_append, List.reverse_append]

/-- The function `compareSameLengthPaths` on two paths of the same depth compares the
names from the root down. -/
theorem compare_spec (p q : PathPtr) (hl : p.length = q.length)
    (hdp : depthOK p = true) (hdq : depthOK q = true)
    (hnp : nulFree p = true) (hnq : nulFree q = true) :
    (componentsOf p = componentsOf q ∧
      compareSameLengthPaths p q = some Answer.NO_ANSWER) ∨
    (pathLt (componentsOf p) (componentsOf q) ∧
      compareSameLengthPaths p q = some Answer.YES_LESS_THAN) ∨
    (pathLt (componentsOf q) (componentsOf p) ∧
      compareSameLengthPaths p q = some Answer.YES_GREATER_THAN) := by
  induction p generalizing q with
  | nil =>
    cases q with
    | nil => exact Or.inl ⟨rfl, rfl⟩
    | cons b bp => simp only [List.length_nil, List.length_cons] at hl; omega
  | cons a ap ih =>
    cases q with
    | nil => simp only [List.length_nil, List.length_cons] at hl; omega
    | cons b bp =>
      simp only [List.length_cons, Nat.add_right_cancel_iff] at hl
      obtain ⟨hda, hdap⟩ := depthOK_cons a ap hdp
      obtain ⟨hdb, hdbp⟩ := depthOK_cons b bp hdq
      obtain ⟨hna, hnap⟩ := nulFree_cons a ap hnp
      obtain ⟨hnb, hnbp⟩ := nulFree_cons b bp hnq
      have hcl : (componentsOf ap).length = (componentsOf bp).length := by
        rw [componentsOf_length, componentsOf_length, hl]
      by_cases heq : a :: ap = b :: bp
      · rw [compareSameLengthPaths, if_pos heq, heq]
        exact Or.inl ⟨rfl, rfl⟩
      · rw [compareSameLengthPaths, if_neg heq,
          if_neg (show ¬ ¬ (a.depth = b.depth) from fun h => h (by rw [hda, hdb, hl]))]
        rw [componentsOf_cons, componentsOf_cons]
        unfold pathLt
        rw [lex_snoc bytesLt _ _ _ _ hcl, lex_snoc bytesLt _ _ _ _ hcl.symm]
        have h3 := ih bp hl hdap hdbp hnap hnbp
        unfold pathLt at h3
        cases h3 with
        | inl h =>
          obtain ⟨hc, hr⟩ := h
          rw [hr]
          simp only
          by_cases hat : a.atom = b.atom
          · rw [if_pos hat, hc, hat]
            exact Or.inl ⟨rfl, rfl⟩
          · rw [if_neg hat]
            unfold Atom.lessthan
            rw [if_neg hat]
            by_cases hs : strcmp a.atom b.atom < 0
            · rw [if_pos (by simp [hs])]
              exact Or.inr (Or.inl ⟨Or.inr ⟨hc, (strcmp_lt_iff _ _ hna hnb).1 hs⟩, rfl⟩)
            · rw [if_neg (by simp [hs])]
              have hnlt : ¬ bytesLt a.atom b.atom := fun h => hs ((strcmp_lt_iff _ _ hna hnb).2 h)
              have hgt : bytesLt b.atom a.atom := by
                rcases bytesLt_trichotomous a.atom b.atom with h | h | h
                · exact absurd h hnlt
                · exact absurd h hat
                · exact h
              exact Or.inr (Or.inr ⟨Or.inr ⟨hc.symm, hgt⟩, rfl⟩)
        | inr h =>
          cases h with
          | inl h =>
            obtain ⟨hc, hr⟩ := h
            rw [hr]
            exact Or.inr (Or.inl ⟨Or.inl hc, rfl⟩)
          | inr h =>
            obtain ⟨hc, hr⟩ := h
            rw [hr]
            exact Or.inr (Or.inr ⟨Or.inl hc, rfl⟩)

theorem split_at_length (a : PathPtr) (n : Nat) (h : n ≤ a.length) :
    ∃ pre pa, a = pre ++ pa ∧ pa.length = n :=
  ⟨a.take (a.length - n), a.drop (a.length - n), (List.take_append_drop _ _).symm,
    by rw [List.length_drop]; omega⟩

/-- The order of two sequences of names is decided at the common depth; when the
sequences agree there, the shorter one comes first. -/
theorem pathLt_at_depth (prea pa preb pb : PathPtr)
    (hla : pa.length = min (prea ++ pa).length (preb ++ pb).length)
    (hlb : pb.length = min (prea ++ pa).length (preb ++ pb).length) :
    pathLt (componentsOf (prea ++ pa)) (componentsOf (preb ++ pb)) ↔
      pathLt (componentsOf pa) (componentsOf pb) ∨
      (componentsOf pa = componentsOf pb ∧ (prea ++ pa).length < (preb ++ pb).length) := by
  have h := lex_take_min bytesLt (componentsOf (prea ++ pa)) (componentsOf (preb ++ pb))
  rw [componentsOf_length, componentsOf_length] at h
  have e1 : (componentsOf (prea ++ pa)).take (min (prea ++ pa).length (preb ++ pb).length)
      = componentsOf pa := by
    rw [componentsOf_append]
    exact List.take_left' (by rw [componentsOf_length, hla])
  have e2 : (componentsOf (preb ++ pb)).take (min (prea ++ pa).length (preb ++ pb).length)
      = componentsOf pb := by
    rw [componentsOf_append]
    exact List.take_left' (by rw [componentsOf_length, hlb])
  rw [e1, e2] at h
  exact h

theorem tarSort_refl (a : PathPtr) : TarSort.lessthan a a = some false := by
  cases a with
  | nil => rfl
  | cons x ar => rw [TarSort.lessthan, if_pos rfl]

/-- On paths with one object for a sequence of names, `TarSort::lessthan` returns, and
it is the component-wise order of the names from the root down. -/
theorem tarSort_spec (a b : PathPtr) (ha : a ≠ []) (hb : b ≠ [])
    (hda : depthOK a = true) (hdb : depthOK b = true)
    (hna : nulFree a = true) (hnb : nulFree b = true)
    (hcan : ∀ a1 ∈ a.tails, ∀ b1 ∈ b.tails, componentsOf a1 = componentsOf b1 → a1 = b1) :
    ∃ v, TarSort.lessthan a b = some v ∧
      (v = true ↔ pathLt (componentsOf a) (componentsOf b)) := by
  by_cases hab : a = b
  · subst hab
    exact ⟨false, tarSort_refl a, by simp [pathLt_irrefl]⟩
  · obtain ⟨prea, pa, ea, hla⟩ := split_at_length a (min a.length b.length) (Nat.min_le_left _ _)
    obtain ⟨preb, pb, eb, hlb⟩ := split_at_length b (min a.length b.length) (Nat.min_le_right _ _)
    have hal : 0 < a.length := List.length_pos.2 ha
    have hbl : 0 < b.length := List.length_pos.2 hb
    have hpa0 : pa ≠ [] := by
      intro e; rw [e] at hla; simp only [List.length_nil] at hla; omega
    have hpb0 : pb ≠ [] := by
      intro e; rw [e] at hlb; simp only [List.length_nil] at hlb; omega
    have hkey := pathLt_at_depth prea pa preb pb (by rw [← ea, ← eb]; exact hla)
      (by rw [← ea, ← eb]; exact hlb)
    rw [← ea, ← eb] at hkey
    have hanca := parentAtDepth_suffix prea pa hpa0 (by rw [← ea]; exact hda)
    have hancb := parentAtDepth_suffix preb pb hpb0 (by rw [← eb]; exact hdb)
    rw [← ea] at hanca
    rw [← eb] at hancb
    have hmema : pa ∈ a.tails := (List.mem_tails pa a).2 ⟨prea, ea.symm⟩
    have hmemb : pb ∈ b.tails := (List.mem_tails pb b).2 ⟨preb, eb.symm⟩
    have hdpa : depthOK pa = true := depthOK_append prea pa (by rw [← ea]; exact hda)
    have hdpb : depthOK pb = true := depthOK_append preb pb (by rw [← eb]; exact hdb)
    have hnpa : nulFree pa = true := nulFree_append prea pa (by rw [← ea]; exact hna)
    have hnpb : nulFree pb = true := nulFree_append preb pb (by rw [← eb]; exact hnb)
    clear ea eb
    cases a with
    | nil => exact absurd rfl ha
    | cons x ar =>
      cases b with
      | nil => exact absurd rfl hb
      | cons y br =>
        have hx := (depthOK_cons x ar hda).1
        have hy := (depthOK_cons y br hdb).1
        simp only [List.length_cons] at hla hlb hkey
        have hmin : min x.depth y.depth = (pa.length : Int) - 1 := by
          rw [hx, hy, hla]; omega
        have hmin2 : min x.depth y.depth = (pb.length : Int) - 1 := by
          rw [hx, hy, hlb]; omega
        rw [tarSort_eval x y ar br pa pb hab (by rw [hmin]; exact hanca)
          (by rw [hmin2]; exact hancb)]
        by_cases hpp : pa = pb
        · rw [if_pos hpp]
          refine ⟨_, rfl, ?_⟩
          rw [hkey, hpp, hx, hy, decide_eq_true_eq]
          constructor
          · intro h
            exact Or.inr ⟨rfl, by omega⟩
          · intro h
            cases h with
            | inl h => exact absurd h (pathLt_irrefl _)
            | inr h => have := h.2; omega
        · rw [if_neg hpp]
          have hcne : componentsOf pa ≠ componentsOf pb := fun e =>
            hpp (hcan pa hmema pb hmemb e)
          rcases compare_spec pa pb (by rw [hla, hlb]) hdpa hdpb hnpa hnpb with h | h | h
          · exact absurd h.1 hcne
          · rw [h.2]
            refine ⟨true, rfl, ?_⟩
            rw [hkey]
            exact ⟨fun _ => Or.inl h.1, fun _ => rfl⟩
          · rw [h.2]
            refine ⟨false, rfl, ?_⟩
            rw [hkey]
            constructor
            · intro h0
              cases h0
            · intro h0
              cases h0 with
              | inl h1 => exact absurd h1 (pathLt_asymm _ _ h.1)
              | inr h1 => exact absurd h1.1 hcne

theorem depthFirst_refl (a : PathPtr) : depthFirstSortPath.lessthan a a = some false := by
  cases a with
  | nil => rfl
  | cons x ar => rw [depthFirstSortPath.lessthan, if_pos rfl]

/-- The function `depthFirstSortPath::lessthan` returns, and it puts the deeper path
first and orders paths of the same depth by their names from the root down. -/
theorem depthFirst_spec (a b : PathPtr) (ha : a ≠ []) (hb : b ≠ [])
    (hda : depthOK a = true) (hdb : depthOK b = true)
    (hna : nulFree a = true) (hnb : nulFree b = true) :
    ∃ v, depthFirstSortPath.lessthan a b = some v ∧
      (v = true ↔ (b.length < a.length ∨
        (a.length = b.length ∧ pathLt (componentsOf a) (componentsOf b)))) := by
  by_cases hab : a = b
  · subst hab
    refine ⟨false, depthFirst_refl a, ?_⟩
    constructor
    · intro h; cases h
    · intro h
      cases h with
      | inl h => omega
      | inr h => exact absurd h.2 (pathLt_irrefl _)
  · cases a with
    | nil => exact absurd rfl ha
    | cons x ar =>
      cases b with
      | nil => exact absurd rfl hb
      | cons y br =>
        have hx := (depthOK_cons x ar hda).1
        have hy := (depthOK_cons y br hdb).1
        rw [depthFirstSortPath.lessthan, if_neg hab]
        simp only [List.length_cons]
        by_cases h1 : x.depth > y.depth
        · rw [if_pos h1]
          exact ⟨true, rfl, fun _ => Or.inl (by rw [hx, hy] at h1; omega), fun _ => rfl⟩
        · rw [if_neg h1]
          by_cases h2 : x.depth < y.depth
          · rw [if_pos h2]
            refine ⟨false, rfl, ?_⟩
            rw [hx, hy] at h2
            constructor
            · intro h; cases h
            · intro h
              cases h with
              | inl h => omega
              | inr h => omega
          · rw [if_neg h2]
            rw [hx, hy] at h1 h2
            have hl : (x :: ar).length = (y :: br).length := by
              simp only [List.length_cons]; omega
            rcases compare_spec (x :: ar) (y :: br) hl hda hdb hna hnb with h | h | h
            · rw [h.2]
              refine ⟨false, rfl, ?_⟩
              constructor
              · intro h0; cases h0
              · intro h0
                cases h0 with
                | inl h3 => omega
                | inr h3 => rw [h.1] at h3; exact absurd h3.2 (pathLt_irrefl _)
            · rw [h.2]
              exact ⟨true, rfl, fun _ => Or.inr ⟨by omega, h.1⟩, fun _ => rfl⟩
            · rw [h.2]
              refine ⟨false, rfl, ?_⟩
              constructor
              · intro h0; cases h0
              · intro h0
                cases h0 with
                | inl h3 => omega
                | inr h3 => exact absurd h3.2 (pathLt_asymm _ _ h.1)

/-- C18 (as amended).  Contents before later siblings: for all paths `x` and `y` with
the same parent whose names hold no NUL byte, the name of `x` being byte-wise less than
the name of `y`, and the depths being the distances from the root, every descendant of
`x` (and `x` itself) sorts before `y` under `TarSort::lessthan`, and `y` does not sort
before it. -/
theorem tarSort_contents_before_sibling (nx ny : PathNode) (parent below : PathPtr)
    (hx : depthOK (below ++ nx :: parent) = true) (hy : depthOK (ny :: parent) = true)
    (hnx : ∀ c ∈ nx.atom, c ≠ NUL) (hny : ∀ c ∈ ny.atom, c ≠ NUL)
    (hlt : bytesLt nx.atom ny.atom) :
    TarSort.lessthan (below ++ nx :: parent) (ny :: parent) = some true ∧
    TarSort.lessthan (ny :: parent) (below ++ nx :: parent) = some false :=
  tarSort_sibling nx ny parent below hx hy ((strcmp_lt_iff nx.atom ny.atom hnx hny).2 hlt)

/-- C18, witness (S3): `TEXTS/filter` < `TEXTS/filter/alfa` < `TEXTS/filter.zip` for the
paths that `Path::lookup` returns, although the byte comparison of the full strings
puts `TEXTS/filter/alfa` after `TEXTS/filter.zip`. -/
theorem tarSort_contents_before_sibling_witness :
    lookedUpTexts = some ([filterNode, textsNode], [alfaNode] ++ filterNode :: [textsNode],
      [zipNode, textsNode]) ∧
    bytesLt filterNode.atom zipNode.atom ∧
    bytesLt zipNode.str alfaNode.str ∧
    TarSort.lessthan [filterNode, textsNode] [alfaNode, filterNode, textsNode] = some true ∧
    (TarSort.lessthan ([alfaNode] ++ filterNode :: [textsNode]) (zipNode :: [textsNode])
        = some true ∧
      TarSort.lessthan (zipNode :: [textsNode]) ([alfaNode] ++ filterNode :: [textsNode])
        = some false) :=
  ⟨by decide, by unfold bytesLt; decide, by unfold bytesLt; decide, by decide,
   tarSort_contents_before_sibling filterNode zipNode [textsNode] [alfaNode] (by decide)
     (by decide) (by decide) (by decide) (by unfold bytesLt; decide)⟩

/-- C18, counterexample to the claim as stated for all names: the paths `d/f<NUL>a` and
`d/f<NUL>b`, which `Path::lookup` interns, have the same parent, and the name `f<NUL>a`
is byte-wise less than the name `f<NUL>b`; `strcmp` stops at the NUL and finds them
equal, and neither path is less than the other. -/
theorem tarSort_contents_before_sibling_counterexample :
    (lookedUpNulNames.map fun r =>
      (r.1.map (fun n => n.atom), r.2.map (fun n => n.atom), decide (r.1.tail = r.2.tail)))
      = some ([['f', NUL, 'a'], ['d']], [['f', NUL, 'b'], ['d']], true) ∧
    bytesLt ['f', NUL, 'a'] ['f', NUL, 'b'] ∧
    strcmp ['f', NUL, 'a'] ['f', NUL, 'b'] = 0 ∧
    (lookedUpNulNames.bind fun r =>
      (TarSort.lessthan r.1 r.2).bind fun v =>
        (TarSort.lessthan r.2 r.1).map fun w => (v, w)) = some (false, false) :=
  ⟨by decide, by unfold bytesLt; decide, by decide, by decide⟩

theorem decided_by {o : Option Bool} {P : Prop} (h : ∃ v, o = some v ∧ (v = true ↔ P)) :
    (P → o = some true) ∧ (¬ P → o = some false) ∧ (o = some true → P) := by
  obtain ⟨v, hv, hiff⟩ := h
  subst hv
  refine ⟨fun hp => by rw [hiff.2 hp], fun hnp => ?_, fun e => hiff.1 (Option.some.inj e)⟩
  cases v with
  | false => rfl
  | true => exact absurd (hiff.1 rfl) hnp

theorem mem_tails_self (p : PathPtr) : p ∈ p.tails :=
  (List.mem_tails p p).2 (List.suffix_refl p)

/-- C16 (as amended).  Tar order is a strict total order on every set of paths in which
a sequence of names has one object only (no two objects, among the paths and their
ancestors, with the same names from the root down), the depths being the distances from
the root and the names holding no NUL byte: for all paths `a`, `b`, `c` of the set,
`TarSort::lessthan(a, a)` is false; for distinct `a` and `b` exactly one of
`TarSort::lessthan(a, b)` and `TarSort::lessthan(b, a)` is true; and `TarSort::lessthan`
is transitive.  It is the component-wise byte order of the names from the root down, a
path coming before its descendants. -/
theorem tarSort_strict_total (paths : List PathPtr) (hcan : Canonical paths)
    (a b c : PathPtr) (ha : a ∈ paths) (hb : b ∈ paths) (hc : c ∈ paths) :
    TarSort.lessthan a a = some false ∧
    (a ≠ b →
      (TarSort.lessthan a b = some true ∧ TarSort.lessthan b a = some false) ∨
      (TarSort.lessthan a b = some false ∧ TarSort.lessthan b a = some true)) ∧
    (TarSort.lessthan a b = some true → TarSort.lessthan b c = some true →
      TarSort.lessthan a c = some true) ∧
    (TarSort.lessthan a b = some true ↔ pathLt (componentsOf a) (componentsOf b)) := by
  obtain ⟨hwf, huniq⟩ := hcan
  obtain ⟨ha0, hda, hna⟩ := hwf a ha
  obtain ⟨hb0, hdb, hnb⟩ := hwf b hb
  obtain ⟨hc0, hdc, hnc⟩ := hwf c hc
  have hab := decided_by (tarSort_spec a b ha0 hb0 hda hdb hna hnb (huniq a ha b hb))
  have hba := decided_by (tarSort_spec b a hb0 ha0 hdb hda hnb hna (huniq b hb a ha))
  have hbc := decided_by (tarSort_spec b c hb0 hc0 hdb hdc hnb hnc (huniq b hb c hc))
  have hac := decided_by (tarSort_spec a c ha0 hc0 hda hdc hna hnc (huniq a ha c hc))
  refine ⟨tarSort_refl a, ?_, ?_, ⟨hab.2.2, hab.1⟩⟩
  · intro hne
    have hcne : componentsOf a ≠ componentsOf b := fun e =>
      hne (huniq a ha b hb a (mem_tails_self a) b (mem_tails_self b) e)
    rcases pathLt_trichotomous (componentsOf a) (componentsOf b) with h | h | h
    · exact Or.inl ⟨hab.1 h, hba.2.1 (pathLt_asymm _ _ h)⟩
    · exact absurd h hcne
    · exact Or.inr ⟨hab.2.1 (pathLt_asymm _ _ h), hba.1 h⟩
  · intro h1 h2
    exact hac.1 (pathLt_trans _ _ _ (hab.2.2 h1) (hbc.2.2 h2))

/-- C16, witness: the three paths `TEXTS/filter`, `TEXTS/filter/alfa` and
`TEXTS/filter.zip` that `Path::lookup` returns. -/
theorem tarSort_strict_total_witness :
    lookedUpTexts = some ([filterNode, textsNode], [alfaNode, filterNode, textsNode],
      [zipNode, textsNode]) ∧
    (TarSort.lessthan [filterNode, textsNode] [filterNode, textsNode] = some false ∧
    ([filterNode, textsNode] ≠ [alfaNode, filterNode, textsNode] →
      (TarSort.lessthan [filterNode, textsNode] [alfaNode, filterNode, textsNode] = some true ∧
        TarSort.lessthan [alfaNode, filterNode, textsNode] [filterNode, textsNode]
          = some false) ∨
      (TarSort.lessthan [filterNode, textsNode] [alfaNode, filterNode, textsNode] = some false ∧
        TarSort.lessthan [alfaNode, filterNode, textsNode] [filterNode, textsNode]
          = some true)) ∧
    (TarSort.lessthan [filterNode, textsNode] [alfaNode, filterNode, textsNode] = some true →
      TarSort.lessthan [alfaNode, filterNode, textsNode] [zipNode, textsNode] = some true →
      TarSort.lessthan [filterNode, textsNode] [zipNode, textsNode] = some true) ∧
    (TarSort.lessthan [filterNode, textsNode] [alfaNode, filterNode, textsNode] = some true ↔
      pathLt (componentsOf [filterNode, textsNode])
        (componentsOf [alfaNode, filterNode, textsNode]))) :=
  ⟨by decide,
   tarSort_strict_total
     [[filterNode, textsNode], [alfaNode, filterNode, textsNode], [zipNode, textsNode]]
     (by unfold Canonical; decide)
     [filterNode, textsNode] [alfaNode, filterNode, textsNode] [zipNode, textsNode]
     (by decide) (by decide) (by decide)⟩

/-- C16, counterexample to the claim as stated for every pair of distinct paths:
`Path::lookup("a/b")` and `Path::lookup("a//b")` are two objects with the same parent
and the same name; neither is less than the other. -/
theorem tarSort_strict_total_counterexample :
    lookedUpDoubleSlash = some
      ([{ id := 2, atom := ['b'], depth := 1, str := "a/b".toList },
        { id := 1, atom := ['a'], depth := 0, str := ['a'] }],
       [{ id := 3, atom := ['b'], depth := 1, str := "a//b".toList },
        { id := 1, atom := ['a'], depth := 0, str := ['a'] }]) ∧
    (lookedUpDoubleSlash.bind fun r =>
      (TarSort.lessthan r.1 r.2).bind fun v =>
        (TarSort.lessthan r.2 r.1).map fun w => (decide (r.1 = r.2), v, w))
      = some (false, false, false) := by
  decide

/-- C19 (as amended).  Depth-first order: on paths whose depths are the distances from
the root and whose names hold no NUL byte, `depthFirstSortPath::lessthan` is a strict
total order of the sequences of names: `lessthan(a, a)` is false; for `a` and `b` with
different names from the root down exactly one of `lessthan(a, b)` and `lessthan(b, a)`
is true; it is transitive; every path of greater depth precedes every path of smaller
depth; and paths of equal depth are ordered by the component-wise byte comparison of
their names from the root down. -/
theorem depthFirst_strict_total (a b c : PathPtr) (ha : a ≠ []) (hb : b ≠ []) (hc : c ≠ [])
    (hda : depthOK a = true) (hdb : depthOK b = true) (hdc : depthOK c = true)
    (hna : nulFree a = true) (hnb : nulFree b = true) (hnc : nulFree c = true) :
    depthFirstSortPath.lessthan a a = some false ∧
    (componentsOf a ≠ componentsOf b →
      (depthFirstSortPath.lessthan a b = some true ∧
        depthFirstSortPath.lessthan b a = some false) ∨
      (depthFirstSortPath.lessthan a b = some false ∧
        depthFirstSortPath.lessthan b a = some true)) ∧
    (depthFirstSortPath.lessthan a b = some true → depthFirstSortPath.lessthan b c = some true →
      depthFirstSortPath.lessthan a c = some true) ∧
    (b.length < a.length → depthFirstSortPath.lessthan a b = some true ∧
      depthFirstSortPath.lessthan b a = some false) ∧
    (a.length = b.length →
      (depthFirstSortPath.lessthan a b = some true ↔
        pathLt (componentsOf a) (componentsOf b))) := by
  have hab := decided_by (depthFirst_spec a b ha hb hda hdb hna hnb)
  have hba := decided_by (depthFirst_spec b a hb ha hdb hda hnb hna)
  have hbc := decided_by (depthFirst_spec b c hb hc hdb hdc hnb hnc)
  have hac := decided_by (depthFirst_spec a c ha hc hda hdc hna hnc)
  refine ⟨depthFirst_refl a, ?_, ?_, ?_, ?_⟩
  · intro hcne
    rcases Nat.lt_trichotomy a.length b.length with hl | hl | hl
    · refine Or.inr ⟨hab.2.1 ?_, hba.1 (Or.inl hl)⟩
      intro h
      cases h with
      | inl h => omega
      | inr h => omega
    · rcases pathLt_trichotomous (componentsOf a) (componentsOf b) with h | h | h
      · refine Or.inl ⟨hab.1 (Or.inr ⟨hl, h⟩), hba.2.1 ?_⟩
        intro h0
        cases h0 with
        | inl h0 => omega
        | inr h0 => exact pathLt_asymm _ _ h h0.2
      · exact absurd h hcne
      · refine Or.inr ⟨hab.2.1 ?_, hba.1 (Or.inr ⟨hl.symm, h⟩)⟩
        intro h0
        cases h0 with
        | inl h0 => omega
        | inr h0 => exact pathLt_asymm _ _ h h0.2
    · refine Or.inl ⟨hab.1 (Or.inl hl), hba.2.1 ?_⟩
      intro h
      cases h with
      | inl h => omega
      | inr h => omega
  · intro h1 h2
    have k1 := hab.2.2 h1
    have k2 := hbc.2.2 h2
    apply hac.1
    cases k1 with
    | inl k1 =>
      cases k2 with
      | inl k2 => exact Or.inl (by omega)
      | inr k2 => exact Or.inl (by omega)
    | inr k1 =>
      cases k2 with
      | inl k2 => exact Or.inl (by omega)
      | inr k2 => exact Or.inr ⟨by omega, pathLt_trans _ _ _ k1.2 k2.2⟩
  · intro hl
    refine ⟨hab.1 (Or.inl hl), hba.2.1 ?_⟩
    intro h
    cases h with
    | inl h => omega
    | inr h => omega
  · intro hl
    constructor
    · intro h
      cases hab.2.2 h with
      | inl h0 => omega
      | inr h0 => exact h0.2
    · intro h
      exact hab.1 (Or.inr ⟨hl, h⟩)

/-- C19, witness: `TEXTS/filter/alfa` is deeper than `TEXTS/filter` and than
`TEXTS/filter.zip`, which has the depth of `TEXTS/filter` and the greater name. -/
theorem depthFirst_strict_total_witness :
    depthFirstSortPath.lessthan [alfaNode, filterNode, textsNode] [filterNode, textsNode]
      = some true ∧
    depthFirstSortPath.lessthan [filterNode, textsNode] [zipNode, textsNode] = some true ∧
    depthFirstSortPath.lessthan [zipNode, textsNode] [filterNode, textsNode] = some false ∧
    ([filterNode, textsNode].length < [alfaNode, filterNode, textsNode].length →
      depthFirstSortPath.lessthan [alfaNode, filterNode, textsNode] [filterNode, textsNode]
        = some true ∧
      depthFirstSortPath.lessthan [filterNode, textsNode] [alfaNode, filterNode, textsNode]
        = some false) :=
  ⟨by decide, by decide, by decide,
   (depthFirst_strict_total [alfaNode, filterNode, textsNode] [filterNode, textsNode]
     [zipNode, textsNode] (by decide) (by decide) (by decide) (by decide) (by decide)
     (by decide) (by decide) (by decide) (by decide)).2.2.2.1⟩

/-- C19, counterexample to the claim as stated for every pair of distinct paths:
`Path::lookup("a/b")` and `Path::lookup("a//b")` are two objects of the same depth with
the same names; `compareSameLengthPaths` has no answer for them and neither is less
than the other. -/
theorem depthFirst_strict_total_counterexample :
    (lookedUpDoubleSlash.bind fun r =>
      (compareSameLengthPaths r.1 r.2).bind fun rc =>
        (depthFirstSortPath.lessthan r.1 r.2).bind fun v =>
          (depthFirstSortPath.lessthan r.2 r.1).map fun w =>
            (r.1.map (fun n => n.str), r.2.map (fun n => n.str), decide (r.1 = r.2), rc, v, w))
      = some (["a/b".toList, "a".toList], ["a//b".toList, "a".toList], false,
          Answer.NO_ANSWER, false, false) := by
  decide

end Beak
